import Mathlib

/-!
Verification of the Barnes-Hut quadtree core of the n-body simulation
(`src/quadtree.rs`, `src/systems/core.rs`, `src/resources.rs`).

Modelling choices:
* `f32` scalars are modelled by an arbitrary linear ordered field `K`
  (instantiated at `ℚ` for executable reasoning and at `ℝ` where actual
  square-root values matter), i.e. the spec's "exact arithmetic" reading.
* `f32::sqrt` (used only by the force evaluator) is passed as an explicit
  function parameter `sqrt : K → K`; at `K = ℝ` it is `Real.sqrt`.
* `bevy::Entity` is modelled by `ℕ` (it is only compared for equality).
* The node arena `Vec<Node>` is a `List (Node K)`; the panicking index
  operator `self.nodes[i]` is modelled by `List.getElem?` with an `Err.oob`
  error, and the unbounded recursion of `insert_recursive` /
  `calculate_force_recursive` is modelled with a fuel parameter
  (`Err.fuel` on exhaustion).
-/

set_option linter.unusedSectionVars false

namespace NBodySim

variable {K : Type} [LinearOrderedField K]

/-- 2D vector (bevy `Vec2`). -/
structure Vec2 (K : Type) where
  x : K
  y : K
deriving DecidableEq

namespace Vec2

def zero : Vec2 K := ⟨0, 0⟩

def add (a b : Vec2 K) : Vec2 K := ⟨a.x + b.x, a.y + b.y⟩

def sub (a b : Vec2 K) : Vec2 K := ⟨a.x - b.x, a.y - b.y⟩

def scale (a : Vec2 K) (k : K) : Vec2 K := ⟨a.x * k, a.y * k⟩

def divScalar (a : Vec2 K) (k : K) : Vec2 K := ⟨a.x / k, a.y / k⟩

/-- `Vec2::length_squared`. -/
def length_squared (a : Vec2 K) : K := a.x * a.x + a.y * a.y

end Vec2

/-- Axis-aligned square region (`Rect` in `quadtree.rs`). -/
structure Rect (K : Type) where
  center : Vec2 K
  size : Vec2 K
deriving DecidableEq

/-- `Rect::get_quadrant_index`: the quadrant index (0..=3) that contains `point`.
The Rust `match (right, top)` table is: (false,true)→0, (true,true)→1,
(false,false)→2, (true,false)→3. -/
def Rect.get_quadrant_index (r : Rect K) (point : Vec2 K) : ℕ :=
  if point.x > r.center.x then
    if point.y > r.center.y then 1 else 3
  else
    if point.y > r.center.y then 0 else 2

/-- `Rect::sub_quadrant`: the sub-rectangle corresponding to `index`. -/
def Rect.sub_quadrant (r : Rect K) (index : ℕ) : Rect K :=
  let quarter_size : Vec2 K := ⟨r.size.x / 2, r.size.y / 2⟩
  let offset : Vec2 K := ⟨quarter_size.x / 2, quarter_size.y / 2⟩
  let center : Vec2 K :=
    match index with
    | 0 => ⟨r.center.x - offset.x, r.center.y + offset.y⟩
    | 1 => ⟨r.center.x + offset.x, r.center.y + offset.y⟩
    | 2 => ⟨r.center.x - offset.x, r.center.y - offset.y⟩
    | 3 => ⟨r.center.x + offset.x, r.center.y - offset.y⟩
    | _ => r.center
  ⟨center, quarter_size⟩

/-- The four child slots of an internal node (`[Option<usize>; 4]`). -/
structure Children where
  c0 : Option ℕ
  c1 : Option ℕ
  c2 : Option ℕ
  c3 : Option ℕ
deriving DecidableEq

/-- Indexing `children[i]` (always called with `i < 4` in the source). -/
def Children.childAt (ch : Children) (i : ℕ) : Option ℕ :=
  match i with
  | 0 => ch.c0
  | 1 => ch.c1
  | 2 => ch.c2
  | 3 => ch.c3
  | _ => none

/-- Logical shape of a quadtree node (`NodeKind`). -/
inductive NodeKind (K : Type) where
  | Empty : NodeKind K
  | Leaf (entity : ℕ) (position : Vec2 K) : NodeKind K
  | Internal (children : Children) : NodeKind K
deriving DecidableEq

/-- Barnes-Hut quadtree node (`Node`). -/
structure Node (K : Type) where
  bounds : Rect K
  center_of_mass : Vec2 K
  mass : K
  kind : NodeKind K
deriving DecidableEq

/-- `Node::empty`: an empty node covering `bounds`. -/
def Node.empty (bounds : Rect K) : Node K :=
  { bounds := bounds, center_of_mass := Vec2.zero, mass := 0, kind := NodeKind.Empty }

/-- The quadtree resource: arena of nodes plus optional root index. -/
structure QuadTreeResource (K : Type) where
  nodes : List (Node K)
  root : Option ℕ
deriving DecidableEq

/-- Failure modes of the embedded partial functions: `oob` models a panicking
out-of-bounds arena index, `fuel` models exhausting the recursion fuel. -/
inductive Err where
  | oob : Err
  | fuel : Err
deriving DecidableEq

namespace QuadTreeResource

/-- `QuadTreeResource::reset`: clears the tree and inserts a new root covering
`bounds` (the root index is the length of the cleared arena, i.e. 0). -/
def reset (_t : QuadTreeResource K) (bounds : Rect K) : QuadTreeResource K :=
  ⟨[Node.empty bounds], some 0⟩

/-- Field update `self.nodes[i] = n` (in-bounds writes only; all call sites
read index `i` first, which models the panicking bound check). -/
def setNode (t : QuadTreeResource K) (i : ℕ) (n : Node K) : QuadTreeResource K :=
  ⟨t.nodes.set i n, t.root⟩

/-- `QuadTreeResource::subdivide`: pushes 4 empty children (one per quadrant
of `nodes[index].bounds`) and returns the filled `children` array; the fresh
indices are `len, len+1, len+2, len+3`. -/
def subdivide (t : QuadTreeResource K) (index : ℕ) :
    Except Err (QuadTreeResource K × Children) :=
  match t.nodes[index]? with
  | none => Except.error Err.oob
  | some n =>
    let l := t.nodes.length
    Except.ok
      (⟨t.nodes ++
          [Node.empty (n.bounds.sub_quadrant 0), Node.empty (n.bounds.sub_quadrant 1),
            Node.empty (n.bounds.sub_quadrant 2), Node.empty (n.bounds.sub_quadrant 3)],
        t.root⟩,
        ⟨some l, some (l + 1), some (l + 2), some (l + 3)⟩)

/-- `QuadTreeResource::insert_recursive`, with explicit fuel. -/
def insertRec :
    ℕ → QuadTreeResource K → ℕ → ℕ → Vec2 K → K → Except Err (QuadTreeResource K)
  | 0, _, _, _, _, _ => Except.error Err.fuel
  | fuel + 1, t, index, entity, position, mass =>
    match t.nodes[index]? with
    | none => Except.error Err.oob
    | some node =>
      let bounds := node.bounds
      match node.kind with
      | NodeKind.Empty =>
        Except.ok (t.setNode index
          { node with
            kind := NodeKind.Leaf entity position, mass := mass, center_of_mass := position })
      | NodeKind.Leaf existing_entity existing_position =>
        let existing_mass := node.mass
        if (existing_position.sub position).length_squared < 1 / 10000 then
          let total_mass := existing_mass + mass
          Except.ok (t.setNode index
            { node with
              mass := total_mass,
              center_of_mass :=
                ((existing_position.scale existing_mass).add (position.scale mass)).divScalar
                  total_mass })
        else
          match t.subdivide index with
          | Except.error e => Except.error e
          | Except.ok (t1, children) =>
            let existing_index := bounds.get_quadrant_index existing_position
            let new_index := bounds.get_quadrant_index position
            match
              (match children.childAt existing_index with
               | some child_idx =>
                 insertRec fuel t1 child_idx existing_entity existing_position existing_mass
               | none => Except.ok t1) with
            | Except.error e => Except.error e
            | Except.ok t2 =>
              match
                (match children.childAt new_index with
                 | some child_idx => insertRec fuel t2 child_idx entity position mass
                 | none => Except.ok t2) with
              | Except.error e => Except.error e
              | Except.ok t3 =>
                let total_mass := existing_mass + mass
                let com :=
                  ((existing_position.scale existing_mass).add (position.scale mass)).divScalar
                    total_mass
                match t3.nodes[index]? with
                | none => Except.error Err.oob
                | some n3 =>
                  Except.ok (t3.setNode index
                    { n3 with
                      kind := NodeKind.Internal children, mass := total_mass,
                      center_of_mass := com })
      | NodeKind.Internal children =>
        let child_idx := bounds.get_quadrant_index position
        match
          (match children.childAt child_idx with
           | some idx => insertRec fuel t idx entity position mass
           | none => Except.ok t) with
        | Except.error e => Except.error e
        | Except.ok t2 =>
          match t2.nodes[index]? with
          | none => Except.error Err.oob
          | some n2 =>
            let total_mass := n2.mass + mass
            let com :=
              ((n2.center_of_mass.scale n2.mass).add (position.scale mass)).divScalar total_mass
            Except.ok (t2.setNode index
              { n2 with
                mass := total_mass, center_of_mass := com, kind := NodeKind.Internal children })

/-- `QuadTreeResource::insert`: no-op when there is no root. -/
def insert (fuel : ℕ) (t : QuadTreeResource K) (entity : ℕ) (position : Vec2 K) (mass : K) :
    Except Err (QuadTreeResource K) :=
  match t.root with
  | none => Except.ok t
  | some root_index => insertRec fuel t root_index entity position mass

end QuadTreeResource

/-- `SOFTENING` constant from `resources.rs`. -/
def SOFTENING : K := 5

/-- Tunable runtime simulation parameters (`SimConfig`). -/
structure SimConfig (K : Type) where
  g : K
  theta : K
  dt : K

namespace QuadTreeResource

/-- `QuadTreeResource::calculate_force_recursive`, with explicit fuel and
`sqrt` standing for `f32::sqrt` (`Vec2::length` is `sqrt ∘ length_squared`). -/
def calcForceRec (sqrt : K → K) :
    ℕ → QuadTreeResource K → ℕ → ℕ → Vec2 K → SimConfig K → Except Err (Vec2 K)
  | 0, _, _, _, _, _ => Except.error Err.fuel
  | fuel + 1, t, index, target, position, config =>
    match t.nodes[index]? with
    | none => Except.error Err.oob
    | some node =>
      match node.kind with
      | NodeKind.Empty => Except.ok Vec2.zero
      | NodeKind.Leaf entity pos =>
        if entity = target then Except.ok Vec2.zero
        else
          let delta := pos.sub position
          let dist_sq := delta.length_squared + SOFTENING * SOFTENING
          let dist := sqrt dist_sq
          let force_mag := config.g * node.mass / dist_sq
          Except.ok ((delta.divScalar dist).scale force_mag)
      | NodeKind.Internal children =>
        let delta := node.center_of_mass.sub position
        let dist := max (sqrt delta.length_squared) (1 / 10000)
        let width := node.bounds.size.x
        if width / dist < config.theta then
          let dist_sq := dist * dist + SOFTENING * SOFTENING
          let force_mag := config.g * node.mass / dist_sq
          Except.ok ((delta.divScalar dist).scale force_mag)
        else
          match
            (match children.c0 with
             | some c => calcForceRec sqrt fuel t c target position config
             | none => Except.ok Vec2.zero) with
          | Except.error e => Except.error e
          | Except.ok f0 =>
            match
              (match children.c1 with
               | some c => calcForceRec sqrt fuel t c target position config
               | none => Except.ok Vec2.zero) with
            | Except.error e => Except.error e
            | Except.ok f1 =>
              match
                (match children.c2 with
                 | some c => calcForceRec sqrt fuel t c target position config
                 | none => Except.ok Vec2.zero) with
              | Except.error e => Except.error e
              | Except.ok f2 =>
                match
                  (match children.c3 with
                   | some c => calcForceRec sqrt fuel t c target position config
                   | none => Except.ok Vec2.zero) with
                | Except.error e => Except.error e
                | Except.ok f3 =>
                  Except.ok ((((Vec2.zero.add f0).add f1).add f2).add f3)

/-- `QuadTreeResource::calculate_force`: zero vector when there is no root. -/
def calculate_force (sqrt : K → K) (fuel : ℕ) (t : QuadTreeResource K) (target : ℕ)
    (position : Vec2 K) (config : SimConfig K) : Except Err (Vec2 K) :=
  match t.root with
  | none => Except.ok Vec2.zero
  | some idx => calcForceRec sqrt fuel t idx target position config

end QuadTreeResource

/-- A body snapshot `(Entity, Position, Mass)` as read by the step driver. -/
structure Body (K : Type) where
  entity : ℕ
  pos : Vec2 K
  mass : K

/-- Inserting a list of bodies in order (`for (entity, pos, mass) in query`). -/
def insertAll (fuel : ℕ) : QuadTreeResource K → List (Body K) → Except Err (QuadTreeResource K)
  | t, [] => Except.ok t
  | t, b :: rest =>
    match t.insert fuel b.entity b.pos b.mass with
    | Except.error e => Except.error e
    | Except.ok t2 => insertAll fuel t2 rest

/-- The componentwise min/max fold of `reset_and_build_tree`.  The Rust code
folds from the sentinel `f32::INFINITY` / `NEG_INFINITY` and detects the
empty query by `!min.x.is_finite()`; over a field this is modelled by an
`Option`-valued fold (`none` exactly in the empty case, since a fold over a
nonempty list starting at the sentinel equals the fold from its head). -/
def minMaxOf : List (Body K) → Option (Vec2 K × Vec2 K)
  | [] => none
  | b :: rest =>
    some (rest.foldl
      (fun mm b2 =>
        (⟨min mm.1.x b2.pos.x, min mm.1.y b2.pos.y⟩, ⟨max mm.2.x b2.pos.x, max mm.2.y b2.pos.y⟩))
      (b.pos, b.pos))

/-- `reset_and_build_tree` from `systems/core.rs`: recomputes quadtree bounds
and inserts all current bodies.  Returns the rebuilt tree together with the
value of the `SimulationBounds` resource after the call (`prior` is its value
before the call). -/
def reset_and_build_tree (fuel : ℕ) (t : QuadTreeResource K) (prior : Rect K)
    (bodies : List (Body K)) : Except Err (QuadTreeResource K × Rect K) :=
  match minMaxOf bodies with
  | none => Except.ok (t.reset prior, prior)
  | some (mn, mx) =>
    let size : Vec2 K := ⟨max (mx.x - mn.x) 1, max (mx.y - mn.y) 1⟩
    let max_dim := max size.x size.y * (11 / 10)
    let center : Vec2 K := ⟨(mn.x + mx.x) / 2, (mn.y + mx.y) / 2⟩
    let root_bounds : Rect K := ⟨center, ⟨max_dim, max_dim⟩⟩
    match insertAll fuel (t.reset root_bounds) bodies with
    | Except.error e => Except.error e
    | Except.ok t2 => Except.ok (t2, root_bounds)

/-- `calculate_forces` from `systems/core.rs`: per body, the quadtree force at
its own id/position divided by its mass (the resulting acceleration). -/
def calculate_forces (sqrt : K → K) (fuel : ℕ) (t : QuadTreeResource K) (config : SimConfig K) :
    List (Body K) → Except Err (List (ℕ × Vec2 K))
  | [] => Except.ok []
  | b :: rest =>
    match t.calculate_force sqrt fuel b.entity b.pos config with
    | Except.error e => Except.error e
    | Except.ok force =>
      match calculate_forces sqrt fuel t config rest with
      | Except.error e => Except.error e
      | Except.ok others => Except.ok ((b.entity, force.divScalar b.mass) :: others)

/-! ### Spec-side notions used to state the claims -/

/-- A fresh tree: the state right after `reset(bounds)` on any prior state
(`reset` ignores the prior contents). -/
def freshQT (bounds : Rect K) : QuadTreeResource K :=
  QuadTreeResource.reset ⟨[], none⟩ bounds

/-- Membership of a point in a rectangle (closed on all sides). -/
def Rect.containsPt (r : Rect K) (p : Vec2 K) : Prop :=
  r.center.x - r.size.x / 2 ≤ p.x ∧ p.x ≤ r.center.x + r.size.x / 2 ∧
    r.center.y - r.size.y / 2 ≤ p.y ∧ p.y ≤ r.center.y + r.size.y / 2

instance (r : Rect K) (p : Vec2 K) : Decidable (r.containsPt p) := by
  unfold Rect.containsPt; infer_instance

/-- The classification cell of quadrant `i` in `r`: the points of `r` that the
tie-breaking rule of `get_quadrant_index` assigns to index `i`. -/
def Rect.quadCell (r : Rect K) (i : ℕ) (p : Vec2 K) : Prop :=
  r.containsPt p ∧ r.get_quadrant_index p = i

/-- The spec's formula for the rebuilt root bounds of a nonempty body set: a
square centered at the midpoint of the componentwise min/max, with side length
the larger of the bounding box's width and height, floored at 1.0, expanded by
10%. -/
def specRootBounds (mn mx : Vec2 K) : Rect K :=
  ⟨⟨(mn.x + mx.x) / 2, (mn.y + mx.y) / 2⟩,
    ⟨max (max (mx.x - mn.x) (mx.y - mn.y)) 1 * (11 / 10),
      max (max (mx.x - mn.x) (mx.y - mn.y)) 1 * (11 / 10)⟩⟩

instance : Add (Vec2 K) := ⟨Vec2.add⟩

instance : Zero (Vec2 K) := ⟨Vec2.zero⟩

instance : AddCommMonoid (Vec2 K) where
  add a b := Vec2.add a b
  add_assoc a b c := by
    show Vec2.add (Vec2.add a b) c = Vec2.add a (Vec2.add b c)
    simp [Vec2.add, add_assoc]
  zero := Vec2.zero
  zero_add a := by
    show Vec2.add Vec2.zero a = a
    simp [Vec2.add, Vec2.zero]
  add_zero a := by
    show Vec2.add a Vec2.zero = a
    simp [Vec2.add, Vec2.zero]
  add_comm a b := by
    show Vec2.add a b = Vec2.add b a
    simp [Vec2.add, add_comm]
  nsmul := nsmulRec

/-- The arena produced by `subdivide` on a node with bounds `b` (four empty
quadrant children appended at the end). -/
def subdivided (t : QuadTreeResource K) (b : Rect K) : QuadTreeResource K :=
  ⟨t.nodes ++
      [Node.empty (b.sub_quadrant 0), Node.empty (b.sub_quadrant 1),
        Node.empty (b.sub_quadrant 2), Node.empty (b.sub_quadrant 3)],
    t.root⟩

/-- The children array filled by `subdivide` when the arena had length `l`. -/
def fourFresh (l : ℕ) : Children :=
  ⟨some l, some (l + 1), some (l + 2), some (l + 3)⟩

/-- Membership of an index in a children array. -/
def Children.mem (ch : Children) (c : ℕ) : Prop :=
  ch.c0 = some c ∨ ch.c1 = some c ∨ ch.c2 = some c ∨ ch.c3 = some c

/-- Node `c` is a child of the internal node at index `i` of `t`. -/
def ChildOf (t : QuadTreeResource K) (i c : ℕ) : Prop :=
  ∃ n ch, t.nodes[i]? = some n ∧ n.kind = NodeKind.Internal ch ∧ ch.mem c

/-- Reachability along child pointers in the arena. -/
inductive Reach (t : QuadTreeResource K) : ℕ → ℕ → Prop where
  | refl (i : ℕ) : Reach t i i
  | step {i c j : ℕ} : ChildOf t i c → Reach t c j → Reach t i j

/-- The node at index `j` of `t` has slot `q` pointing to `c`. -/
def PtrAt (t : QuadTreeResource K) (j q c : ℕ) : Prop :=
  ∃ n ch, t.nodes[j]? = some n ∧ n.kind = NodeKind.Internal ch ∧ ch.childAt q = some c

/-- Structural well-formedness of the arena, maintained by `reset`/`insert`:
every internal node has all four child slots populated with strictly larger
in-bounds indices carrying the corresponding sub-quadrant bounds, and every
child index has a unique parent slot. -/
structure WF (t : QuadTreeResource K) : Prop where
  child_complete : ∀ (i : ℕ) (n : Node K) (ch : Children),
    t.nodes[i]? = some n → n.kind = NodeKind.Internal ch →
    ∀ q, q < 4 → ∃ c, ch.childAt q = some c ∧ i < c ∧ c < t.nodes.length ∧
      ∃ cn : Node K, t.nodes[c]? = some cn ∧ cn.bounds = n.bounds.sub_quadrant q
  uniq : ∀ j₁ q₁ j₂ q₂ c : ℕ, PtrAt t j₁ q₁ c → PtrAt t j₂ q₂ c → j₁ = j₂ ∧ q₁ = q₂

/-- Every node's bounds have nonnegative size. -/
def SZ (t : QuadTreeResource K) : Prop :=
  ∀ (i : ℕ) (n : Node K), t.nodes[i]? = some n → 0 ≤ n.bounds.size.x ∧ 0 ≤ n.bounds.size.y

/-- Every leaf's stored position lies inside its node's bounds. -/
def LeafCell (t : QuadTreeResource K) : Prop :=
  ∀ (i : ℕ) (n : Node K) (e : ℕ) (p : Vec2 K),
    t.nodes[i]? = some n → n.kind = NodeKind.Leaf e p → n.bounds.containsPt p

/-- Every leaf's stored position satisfies `S`. -/
def LeafPosIn (t : QuadTreeResource K) (S : Vec2 K → Prop) : Prop :=
  ∀ (i : ℕ) (n : Node K) (e : ℕ) (p : Vec2 K),
    t.nodes[i]? = some n → n.kind = NodeKind.Leaf e p → S p

/-- Sum of the masses of the leaves reachable from node `i` (the recursion is
along child pointers, which strictly increase on well-formed arenas; pointers
that do not increase are cut off to make the recursion well-founded). -/
def massBelow (t : QuadTreeResource K) (i : ℕ) : K :=
  if hi : i < t.nodes.length then
    match hk : t.nodes[i].kind with
    | NodeKind.Empty => 0
    | NodeKind.Leaf _ _ => t.nodes[i].mass
    | NodeKind.Internal ch =>
      (match ch.c0 with
       | some c => if h2 : i < c then massBelow t c else 0
       | none => 0) +
      (match ch.c1 with
       | some c => if h2 : i < c then massBelow t c else 0
       | none => 0) +
      (match ch.c2 with
       | some c => if h2 : i < c then massBelow t c else 0
       | none => 0) +
      (match ch.c3 with
       | some c => if h2 : i < c then massBelow t c else 0
       | none => 0)
  else 0
termination_by t.nodes.length - i
decreasing_by all_goals omega

/-- Sum of `mass • position` over the leaves reachable from node `i`. -/
def momentBelow (t : QuadTreeResource K) (i : ℕ) : Vec2 K :=
  if hi : i < t.nodes.length then
    match hk : t.nodes[i].kind with
    | NodeKind.Empty => Vec2.zero
    | NodeKind.Leaf _ p => p.scale t.nodes[i].mass
    | NodeKind.Internal ch =>
      (((match ch.c0 with
         | some c => if h2 : i < c then momentBelow t c else Vec2.zero
         | none => Vec2.zero).add
        (match ch.c1 with
         | some c => if h2 : i < c then momentBelow t c else Vec2.zero
         | none => Vec2.zero)).add
        (match ch.c2 with
         | some c => if h2 : i < c then momentBelow t c else Vec2.zero
         | none => Vec2.zero)).add
        (match ch.c3 with
         | some c => if h2 : i < c then momentBelow t c else Vec2.zero
         | none => Vec2.zero)
  else Vec2.zero
termination_by t.nodes.length - i
decreasing_by all_goals omega

/-- Total version of `calculate_force_recursive` (the same computation, with
the recursion cut off at non-increasing child pointers; it agrees with the
fueled version on well-formed arenas). -/
def forceAt (sqrt : K → K) (config : SimConfig K) (target : ℕ) (position : Vec2 K)
    (t : QuadTreeResource K) (i : ℕ) : Vec2 K :=
  if hi : i < t.nodes.length then
    match hk : t.nodes[i].kind with
    | NodeKind.Empty => Vec2.zero
    | NodeKind.Leaf entity pos =>
      if entity = target then Vec2.zero
      else
        let delta := pos.sub position
        let dist_sq := delta.length_squared + SOFTENING * SOFTENING
        let dist := sqrt dist_sq
        let force_mag := config.g * t.nodes[i].mass / dist_sq
        (delta.divScalar dist).scale force_mag
    | NodeKind.Internal children =>
      let delta := (t.nodes[i].center_of_mass).sub position
      let dist := max (sqrt delta.length_squared) (1 / 10000)
      let width := t.nodes[i].bounds.size.x
      if width / dist < config.theta then
        let dist_sq := dist * dist + SOFTENING * SOFTENING
        let force_mag := config.g * t.nodes[i].mass / dist_sq
        (delta.divScalar dist).scale force_mag
      else
        (((Vec2.zero.add
            (match children.c0 with
             | some c =>
               if h2 : i < c then forceAt sqrt config target position t c else Vec2.zero
             | none => Vec2.zero)).add
          (match children.c1 with
           | some c => if h2 : i < c then forceAt sqrt config target position t c else Vec2.zero
           | none => Vec2.zero)).add
          (match children.c2 with
           | some c => if h2 : i < c then forceAt sqrt config target position t c else Vec2.zero
           | none => Vec2.zero)).add
          (match children.c3 with
           | some c => if h2 : i < c then forceAt sqrt config target position t c else Vec2.zero
           | none => Vec2.zero)
  else Vec2.zero
termination_by t.nodes.length - i
decreasing_by all_goals omega

/-- One child's contribution to `massBelow`. -/
def childMassB (t : QuadTreeResource K) (i : ℕ) (c? : Option ℕ) : K :=
  match c? with
  | some c => if h2 : i < c then massBelow t c else 0
  | none => 0

/-- One child's contribution to `momentBelow`. -/
def childMomentB (t : QuadTreeResource K) (i : ℕ) (c? : Option ℕ) : Vec2 K :=
  match c? with
  | some c => if h2 : i < c then momentBelow t c else Vec2.zero
  | none => Vec2.zero

/-- One child's contribution to `forceAt`. -/
def childForceB (sqrt : K → K) (config : SimConfig K) (target : ℕ) (position : Vec2 K)
    (t : QuadTreeResource K) (i : ℕ) (c? : Option ℕ) : Vec2 K :=
  match c? with
  | some c => if h2 : i < c then forceAt sqrt config target position t c else Vec2.zero
  | none => Vec2.zero

/-- The root node of the index, when present. -/
def rootNode? (t : QuadTreeResource K) : Option (Node K) :=
  match t.root with
  | none => none
  | some r => t.nodes[r]?

/-- The direct pairwise force sum of the spec (C2): the sum over all bodies
other than the target of the leaf formula
`G * mass / (|delta|^2 + softening^2) * delta / |delta_softened|`. -/
def directForceSum (sqrt : K → K) (config : SimConfig K) (target : ℕ) (position : Vec2 K)
    (bodies : List (Body K)) : Vec2 K :=
  (bodies.map (fun b =>
    if b.entity = target then Vec2.zero
    else
      let delta := b.pos.sub position
      let dist_sq := delta.length_squared + SOFTENING * SOFTENING
      let dist := sqrt dist_sq
      let force_mag := config.g * b.mass / dist_sq
      (delta.divScalar dist).scale force_mag)).sum

/-- Total mass of a body list. -/
def massSum (L : List (Body K)) : K := (L.map Body.mass).sum

/-- Total mass moment (`Σ mass • position`) of a body list. -/
def momentSum (L : List (Body K)) : Vec2 K := (L.map (fun b => b.pos.scale b.mass)).sum

/-- Invariant tying the root node's mass to the total inserted mass. -/
def RootMassInv (t : QuadTreeResource K) (total : K) : Prop :=
  t.root = some 0 ∧ WF t ∧ ∃ n : Node K, t.nodes[0]? = some n ∧
    (n.kind = NodeKind.Empty → n.mass = 0) ∧ n.mass = total

/-- Invariant tying the root node's aggregates to the inserted body list
(valid along merge-free insertion sequences). -/
def RootComInv (t : QuadTreeResource K) (L : List (Body K)) : Prop :=
  t.root = some 0 ∧ WF t ∧
    LeafPosIn t (fun q => ∃ b ∈ L, b.pos = q) ∧
    ∃ n : Node K, t.nodes[0]? = some n ∧
      n.mass = massSum L ∧
      (n.kind = NodeKind.Empty ↔ L = []) ∧
      n.center_of_mass.scale n.mass = momentSum L ∧
      (∀ (ee : ℕ) (pp : Vec2 K), n.kind = NodeKind.Leaf ee pp →
        pp.scale n.mass = momentSum L)

/-- Per-node aggregate invariant: the stored mass equals the sum of the masses
of the reachable leaves, the stored center of mass is their mass-weighted
average (phrased multiplicatively so the empty case needs no division), every
leaf carries its own position as center of mass, and every non-empty node has
positive mass. -/
def InvAt (t : QuadTreeResource K) (j : ℕ) : Prop :=
  ∀ n : Node K, t.nodes[j]? = some n →
    n.mass = massBelow t j ∧
    n.center_of_mass.scale n.mass = momentBelow t j ∧
    (∀ (e : ℕ) (q : Vec2 K), n.kind = NodeKind.Leaf e q → n.center_of_mass = q) ∧
    (n.kind ≠ NodeKind.Empty → 0 < n.mass)

/-- Every arena slot is reachable from index 0 (the root). -/
def AllReach (t : QuadTreeResource K) : Prop :=
  ∀ j : ℕ, j < t.nodes.length → Reach t 0 j

/-- The aggregate-preservation property of `insert_recursive` at a given
fuel: inserting a positive mass at a position separated from every leaf of
the target subtree keeps the per-node aggregate invariant throughout that
subtree and adds exactly the inserted mass and moment at its root. -/
def AggStmt (F : Type) [LinearOrderedField F] (fuel : ℕ) : Prop :=
  ∀ {t t' : QuadTreeResource F} {i e : ℕ} {p : Vec2 F} {m : F},
    WF t → 0 < m →
    (∀ (j : ℕ) (nj : Node F) (ej : ℕ) (pj : Vec2 F), Reach t i j →
      t.nodes[j]? = some nj → nj.kind = NodeKind.Leaf ej pj →
      ¬ (pj.sub p).length_squared < 1 / 10000) →
    (∀ j : ℕ, Reach t i j → InvAt t j) →
    QuadTreeResource.insertRec fuel t i e p m = Except.ok t' →
    (∀ j : ℕ, Reach t' i j → InvAt t' j) ∧
    massBelow t' i = massBelow t i + m ∧
    momentBelow t' i = (momentBelow t i).add (p.scale m)

/-- The direct leaf-formula force contribution of one body. -/
def leafTerm (sqrt : K → K) (config : SimConfig K) (target : ℕ) (position : Vec2 K)
    (e : ℕ) (p : Vec2 K) (m : K) : Vec2 K :=
  if e = target then Vec2.zero
  else
    ((p.sub position).divScalar
        (sqrt ((p.sub position).length_squared + SOFTENING * SOFTENING))).scale
      (config.g * m / ((p.sub position).length_squared + SOFTENING * SOFTENING))

/-- The force-increment property of `insert_recursive` at a given fuel: with a
non-positive `theta` (so internal-node approximations are never taken on
nonnegatively-sized arenas), inserting a body below node `i` at a position
separated from every leaf of that subtree adds exactly the body's direct leaf
force term to the force computed from `i`. -/
def ForceStmt (F : Type) [LinearOrderedField F] (sq : F → F) (config : SimConfig F)
    (target : ℕ) (position : Vec2 F) (fuel : ℕ) : Prop :=
  ∀ {t t' : QuadTreeResource F} {i e : ℕ} {p : Vec2 F} {m : F},
    WF t → SZ t → config.theta ≤ 0 →
    (∀ (j : ℕ) (nj : Node F) (ej : ℕ) (pj : Vec2 F), Reach t i j →
      t.nodes[j]? = some nj → nj.kind = NodeKind.Leaf ej pj →
      ¬ (pj.sub p).length_squared < 1 / 10000) →
    QuadTreeResource.insertRec fuel t i e p m = Except.ok t' →
    forceAt sq config target position t' i =
      (forceAt sq config target position t i).add
        (leafTerm sq config target position e p m)

/-- Root node of the concrete three-body merge counterexample tree. -/
def cxNode0 : Node ℚ :=
  { bounds := ⟨⟨0, 0⟩, ⟨2000, 2000⟩⟩, center_of_mass := ⟨1001 / 3000, 1 / 3⟩, mass := 3,
    kind := NodeKind.Internal ⟨some 1, some 2, some 3, some 4⟩ }

/-- Upper-left child (empty) of the counterexample tree. -/
def cxNode1 : Node ℚ :=
  { bounds := ⟨⟨-500, 500⟩, ⟨1000, 1000⟩⟩, center_of_mass := ⟨0, 0⟩, mass := 0,
    kind := NodeKind.Empty }

/-- Upper-right child of the counterexample tree: the merged leaf (bodies 1
and 3) keeping stored position `(1,1)` with accumulated mass 2. -/
def cxNode2 : Node ℚ :=
  { bounds := ⟨⟨500, 500⟩, ⟨1000, 1000⟩⟩, center_of_mass := ⟨2001 / 2000, 1⟩, mass := 2,
    kind := NodeKind.Leaf 1 ⟨1, 1⟩ }

/-- Lower-left child of the counterexample tree: the leaf of body 2. -/
def cxNode3 : Node ℚ :=
  { bounds := ⟨⟨-500, -500⟩, ⟨1000, 1000⟩⟩, center_of_mass := ⟨-1, -1⟩, mass := 1,
    kind := NodeKind.Leaf 2 ⟨-1, -1⟩ }

/-- Lower-right child (empty) of the counterexample tree. -/
def cxNode4 : Node ℚ :=
  { bounds := ⟨⟨500, -500⟩, ⟨1000, 1000⟩⟩, center_of_mass := ⟨0, 0⟩, mass := 0,
    kind := NodeKind.Empty }

/-- The concrete tree produced by inserting bodies 1, 2, 3 of the C1
counterexample (body 3 merged into body 1's leaf). -/
def cxT3 : QuadTreeResource ℚ :=
  ⟨[cxNode0, cxNode1, cxNode2, cxNode3, cxNode4], some 0⟩

/-- Termination statement at subdivision budget `Kb`: on any well-formed tree
whose leaves lie inside their cells, `insert_recursive` at a node containing
the inserted position succeeds for some fuel, provided the squared diagonal of
the node's cell is below `(1/10000) * 4 ^ Kb` (so at most `Kb` nested
subdivisions can keep two points of one cell unseparated by the merge
threshold). -/
def TermStmt (F : Type) [LinearOrderedField F] (Kb : ℕ) : Prop :=
  ∀ (d : ℕ) (t : QuadTreeResource F) (i : ℕ) (n : Node F) (e : ℕ) (p : Vec2 F) (m : F),
    t.nodes.length - i ≤ d →
    WF t → LeafCell t →
    t.nodes[i]? = some n →
    n.bounds.containsPt p →
    n.bounds.size.x * n.bounds.size.x + n.bounds.size.y * n.bounds.size.y
      < 1 / 10000 * 4 ^ Kb →
    ∃ (fuel : ℕ) (t' : QuadTreeResource F),
      QuadTreeResource.insertRec fuel t i e p m = Except.ok t'

/-- States reachable by one `reset` followed by any number of successful
`insert` calls. -/
inductive Reachable : QuadTreeResource K → Prop where
  | reset (t₀ : QuadTreeResource K) (bounds : Rect K) : Reachable (t₀.reset bounds)
  | insert {t t' : QuadTreeResource K} {fuel e : ℕ} {p : Vec2 K} {m : K} :
      Reachable t → t.insert fuel e p m = Except.ok t' → Reachable t'

/-! ### Theorems -/

theorem setNode_root (t : QuadTreeResource K) (i : ℕ) (n : Node K) :
    (t.setNode i n).root = t.root := rfl

theorem setNode_length (t : QuadTreeResource K) (i : ℕ) (n : Node K) :
    (t.setNode i n).nodes.length = t.nodes.length := by
  simp [QuadTreeResource.setNode]

theorem setNode_get_self {t : QuadTreeResource K} {i : ℕ} (n : Node K)
    (hi : i < t.nodes.length) : (t.setNode i n).nodes[i]? = some n := by
  simp [QuadTreeResource.setNode, List.getElem?_set, hi]

theorem setNode_get_ne {t : QuadTreeResource K} {i j : ℕ} (n : Node K) (hne : i ≠ j) :
    (t.setNode i n).nodes[j]? = t.nodes[j]? := by
  simp [QuadTreeResource.setNode, List.getElem?_set, hne]

theorem lt_length_of_get_some {t : QuadTreeResource K} {i : ℕ} {n : Node K}
    (h : t.nodes[i]? = some n) : i < t.nodes.length :=
  (List.getElem?_eq_some.mp h).1

theorem get_some_of_lt_length {t : QuadTreeResource K} {i : ℕ} (h : i < t.nodes.length) :
    ∃ n : Node K, t.nodes[i]? = some n :=
  ⟨t.nodes[i], List.getElem?_eq_getElem h⟩

theorem subdivided_root (t : QuadTreeResource K) (b : Rect K) : (subdivided t b).root = t.root :=
  rfl

theorem subdivided_length (t : QuadTreeResource K) (b : Rect K) :
    (subdivided t b).nodes.length = t.nodes.length + 4 := by
  simp [subdivided]

theorem subdivided_get_lt {t : QuadTreeResource K} {b : Rect K} {j : ℕ}
    (h : j < t.nodes.length) : (subdivided t b).nodes[j]? = t.nodes[j]? := by
  simp [subdivided, List.getElem?_append_left h]

theorem subdivided_get_fresh (t : QuadTreeResource K) (b : Rect K) {q : ℕ} (hq : q < 4) :
    (subdivided t b).nodes[t.nodes.length + q]? = some (Node.empty (b.sub_quadrant q)) := by
  have hge : t.nodes.length ≤ t.nodes.length + q := Nat.le_add_right _ _
  show (t.nodes ++ _)[t.nodes.length + q]? = _
  rw [List.getElem?_append_right hge]
  simp only [Nat.add_sub_cancel_left]
  interval_cases q <;> rfl

theorem childAt_fourFresh (l : ℕ) {q : ℕ} (hq : q < 4) :
    (fourFresh l).childAt q = some (l + q) := by
  interval_cases q <;> simp [fourFresh, Children.childAt]

theorem childAt_lt_four {ch : Children} {q c : ℕ} (h : ch.childAt q = some c) : q < 4 := by
  by_contra hge
  have h4 : ch.childAt q = none := by
    unfold Children.childAt
    have : ¬ q = 0 ∧ ¬ q = 1 ∧ ¬ q = 2 ∧ ¬ q = 3 := by omega
    rcases this with ⟨h0, h1, h2, h3⟩
    split
    all_goals first | rfl | omega
  rw [h4] at h
  exact Option.noConfusion h

theorem mem_of_childAt {ch : Children} {q c : ℕ} (h : ch.childAt q = some c) : ch.mem c := by
  have hq := childAt_lt_four h
  unfold Children.childAt at h
  unfold Children.mem
  interval_cases q <;> simp_all

theorem childAt_of_mem {ch : Children} {c : ℕ} (h : ch.mem c) :
    ∃ q, q < 4 ∧ ch.childAt q = some c := by
  rcases h with h | h | h | h
  · exact ⟨0, by omega, h⟩
  · exact ⟨1, by omega, h⟩
  · exact ⟨2, by omega, h⟩
  · exact ⟨3, by omega, h⟩

theorem mem_fourFresh_iff (l c : ℕ) : (fourFresh l).mem c ↔ l ≤ c ∧ c < l + 4 := by
  unfold fourFresh Children.mem
  constructor
  · rintro (h | h | h | h) <;> simp_all <;> omega
  · intro ⟨h1, h2⟩
    have : c = l ∨ c = l + 1 ∨ c = l + 2 ∨ c = l + 3 := by omega
    rcases this with h | h | h | h <;> simp [h]

/-- Points are always classified into one of the four quadrant indices. -/
theorem get_quadrant_index_lt_four (r : Rect K) (p : Vec2 K) : r.get_quadrant_index p < 4 := by
  unfold Rect.get_quadrant_index
  by_cases hx : p.x > r.center.x <;> by_cases hy : p.y > r.center.y <;> simp [hx, hy]

/-- A point of `r` lies in the sub-quadrant it is classified into. -/
theorem containsPt_sub_quadrant {r : Rect K} {p : Vec2 K} (h : r.containsPt p) :
    (r.sub_quadrant (r.get_quadrant_index p)).containsPt p := by
  obtain ⟨h1, h2, h3, h4⟩ := h
  by_cases hx : p.x > r.center.x <;> by_cases hy : p.y > r.center.y <;>
    simp only [Rect.get_quadrant_index, Rect.sub_quadrant, hx, hy, if_true, if_false,
      Rect.containsPt] <;>
    exact ⟨by linarith, by linarith, by linarith, by linarith⟩

/-- C5: `get_quadrant_index` classifies every point into exactly one of the
four indices (ties on a coordinate go to the lower/left side), and
`sub_quadrant` produces the four quarter-size regions, with centers offset by
`±size/4` in each axis, consistent with the classification: the four
classification cells are pairwise disjoint, cover `R`, and the cell of index
`i` is contained in `sub_quadrant i`. -/
theorem C5_quadrant_partition (R : Rect ℚ) (_hsq : R.size.x = R.size.y) :
    (∀ p : Vec2 ℚ, R.get_quadrant_index p < 4) ∧
    (∀ i, i < 4 → (R.sub_quadrant i).size.x = R.size.x / 2 ∧
      (R.sub_quadrant i).size.y = R.size.y / 2) ∧
    ((R.sub_quadrant 0).center = ⟨R.center.x - R.size.x / 4, R.center.y + R.size.y / 4⟩ ∧
      (R.sub_quadrant 1).center = ⟨R.center.x + R.size.x / 4, R.center.y + R.size.y / 4⟩ ∧
      (R.sub_quadrant 2).center = ⟨R.center.x - R.size.x / 4, R.center.y - R.size.y / 4⟩ ∧
      (R.sub_quadrant 3).center = ⟨R.center.x + R.size.x / 4, R.center.y - R.size.y / 4⟩) ∧
    (∀ p, p.x = R.center.x → R.get_quadrant_index p = 0 ∨ R.get_quadrant_index p = 2) ∧
    (∀ p, p.y = R.center.y → R.get_quadrant_index p = 2 ∨ R.get_quadrant_index p = 3) ∧
    (∀ p i j, i ≠ j → ¬(R.quadCell i p ∧ R.quadCell j p)) ∧
    (∀ p, R.containsPt p → R.quadCell (R.get_quadrant_index p) p) ∧
    (∀ p, R.containsPt p → (R.sub_quadrant (R.get_quadrant_index p)).containsPt p) := by
  refine ⟨fun p => get_quadrant_index_lt_four R p, ?_, ?_, ?_, ?_, ?_, ?_,
    fun p h => containsPt_sub_quadrant h⟩
  · intro i _
    constructor <;> simp [Rect.sub_quadrant]
  · refine ⟨?_, ?_, ?_, ?_⟩ <;> simp [Rect.sub_quadrant] <;> constructor <;> ring
  · intro p hx
    unfold Rect.get_quadrant_index
    rw [hx]
    simp only [lt_irrefl, if_false, gt_iff_lt]
    by_cases hy : R.center.y < p.y <;> simp [hy]
  · intro p hy
    unfold Rect.get_quadrant_index
    rw [hy]
    simp only [lt_irrefl, if_false, gt_iff_lt]
    by_cases hx : R.center.x < p.x <;> simp [hx]
  · rintro p i j hij ⟨⟨-, hi⟩, ⟨-, hj⟩⟩
    exact hij (hi ▸ hj ▸ rfl)
  · intro p h
    exact ⟨h, rfl⟩

/-- C5 witness: concrete instance on the unit example used by the repo's own
test (`center 0, size 4`): the point `(-1, 1)` is classified to quadrant 0 and
lies in `sub_quadrant 0`. -/
theorem C5_quadrant_partition_witness :
    ((Rect.mk ⟨0, 0⟩ ⟨4, 4⟩ : Rect ℚ).quadCell
        ((Rect.mk ⟨0, 0⟩ ⟨4, 4⟩ : Rect ℚ).get_quadrant_index ⟨-1, 1⟩) ⟨-1, 1⟩) ∧
    ((Rect.mk ⟨0, 0⟩ ⟨4, 4⟩ : Rect ℚ).sub_quadrant
        ((Rect.mk ⟨0, 0⟩ ⟨4, 4⟩ : Rect ℚ).get_quadrant_index ⟨-1, 1⟩)).containsPt ⟨-1, 1⟩ := by
  have h := C5_quadrant_partition ⟨⟨0, 0⟩, ⟨4, 4⟩⟩ rfl
  have hc : (Rect.mk ⟨0, 0⟩ ⟨4, 4⟩ : Rect ℚ).containsPt ⟨-1, 1⟩ := by
    refine ⟨by norm_num, by norm_num, by norm_num, by norm_num⟩
  exact ⟨h.2.2.2.2.2.2.1 ⟨-1, 1⟩ hc, h.2.2.2.2.2.2.2 ⟨-1, 1⟩ hc⟩

theorem subdivide_eq {t : QuadTreeResource K} {i : ℕ} {n : Node K} (hn : t.nodes[i]? = some n) :
    t.subdivide i = Except.ok (subdivided t n.bounds, fourFresh t.nodes.length) := by
  simp only [QuadTreeResource.subdivide, hn, subdivided, fourFresh]

theorem insertRec_zero (t : QuadTreeResource K) (i e : ℕ) (p : Vec2 K) (m : K) :
    QuadTreeResource.insertRec 0 t i e p m = Except.error Err.fuel := rfl

theorem insertRec_oob {t : QuadTreeResource K} {i : ℕ} (hn : t.nodes[i]? = none)
    (f e : ℕ) (p : Vec2 K) (m : K) :
    QuadTreeResource.insertRec (f + 1) t i e p m = Except.error Err.oob := by
  simp only [QuadTreeResource.insertRec, hn]

theorem insertRec_empty_step {t : QuadTreeResource K} {i : ℕ} {n : Node K}
    (hn : t.nodes[i]? = some n) (hk : n.kind = NodeKind.Empty) (f e : ℕ) (p : Vec2 K) (m : K) :
    QuadTreeResource.insertRec (f + 1) t i e p m =
      Except.ok (t.setNode i
        { n with kind := NodeKind.Leaf e p, mass := m, center_of_mass := p }) := by
  simp only [QuadTreeResource.insertRec, hn, hk]

theorem insertRec_merge_step {t : QuadTreeResource K} {i : ℕ} {n : Node K} {ee : ℕ}
    {pp : Vec2 K} (hn : t.nodes[i]? = some n) (hk : n.kind = NodeKind.Leaf ee pp)
    {p : Vec2 K} (hclose : (pp.sub p).length_squared < 1 / 10000) (f e : ℕ) (m : K) :
    QuadTreeResource.insertRec (f + 1) t i e p m =
      Except.ok (t.setNode i
        { n with
            mass := n.mass + m,
            center_of_mass := ((pp.scale n.mass).add (p.scale m)).divScalar (n.mass + m) }) := by
  simp only [QuadTreeResource.insertRec, hn, hk, if_pos hclose]

theorem insertRec_split_step {t : QuadTreeResource K} {i : ℕ} {n : Node K} {ee : ℕ}
    {pp : Vec2 K} (hn : t.nodes[i]? = some n) (hk : n.kind = NodeKind.Leaf ee pp)
    {p : Vec2 K} (hfar : ¬ (pp.sub p).length_squared < 1 / 10000) (f e : ℕ) (m : K) :
    QuadTreeResource.insertRec (f + 1) t i e p m =
      (match QuadTreeResource.insertRec f (subdivided t n.bounds)
          (t.nodes.length + n.bounds.get_quadrant_index pp) ee pp n.mass with
      | Except.error e2 => Except.error e2
      | Except.ok t2 =>
        match QuadTreeResource.insertRec f t2
            (t.nodes.length + n.bounds.get_quadrant_index p) e p m with
        | Except.error e2 => Except.error e2
        | Except.ok t3 =>
          match t3.nodes[i]? with
          | none => Except.error Err.oob
          | some n3 =>
            Except.ok (t3.setNode i
              { n3 with
                  kind := NodeKind.Internal (fourFresh t.nodes.length),
                  mass := n.mass + m,
                  center_of_mass :=
                    ((pp.scale n.mass).add (p.scale m)).divScalar (n.mass + m) })) := by
  simp only [QuadTreeResource.insertRec, hn, hk, if_neg hfar, subdivide_eq hn,
    childAt_fourFresh _ (get_quadrant_index_lt_four n.bounds pp),
    childAt_fourFresh _ (get_quadrant_index_lt_four n.bounds p)]

theorem insertRec_internal_step {t : QuadTreeResource K} {i : ℕ} {n : Node K} {ch : Children}
    (hn : t.nodes[i]? = some n) (hk : n.kind = NodeKind.Internal ch) (f e : ℕ) (p : Vec2 K)
    (m : K) :
    QuadTreeResource.insertRec (f + 1) t i e p m =
      (match (match ch.childAt (n.bounds.get_quadrant_index p) with
              | some idx => QuadTreeResource.insertRec f t idx e p m
              | none => Except.ok t) with
      | Except.error e2 => Except.error e2
      | Except.ok t2 =>
        match t2.nodes[i]? with
        | none => Except.error Err.oob
        | some n2 =>
          Except.ok (t2.setNode i
            { n2 with
                mass := n2.mass + m,
                center_of_mass :=
                  ((n2.center_of_mass.scale n2.mass).add (p.scale m)).divScalar (n2.mass + m),
                kind := NodeKind.Internal ch })) := by
  simp only [QuadTreeResource.insertRec, hn, hk]

/-- Inversion principle for a successful `insert_recursive` call: exactly one
of the four source branches was taken. -/
theorem insertRec_ok_inv {fuel : ℕ} {t t' : QuadTreeResource K} {i e : ℕ} {p : Vec2 K} {m : K}
    (h : QuadTreeResource.insertRec fuel t i e p m = Except.ok t') :
    ∃ (f : ℕ) (n : Node K), fuel = f + 1 ∧ t.nodes[i]? = some n ∧
      ((n.kind = NodeKind.Empty ∧
          t' = t.setNode i
            { n with
                kind := NodeKind.Leaf e p,
                mass := m,
                center_of_mass := p }) ∨
        (∃ (ee : ℕ) (pp : Vec2 K), n.kind = NodeKind.Leaf ee pp ∧
          (pp.sub p).length_squared < 1 / 10000 ∧
          t' = t.setNode i
            { n with
                mass := n.mass + m,
                center_of_mass :=
                  ((pp.scale n.mass).add (p.scale m)).divScalar (n.mass + m) }) ∨
        (∃ (ee : ℕ) (pp : Vec2 K) (t2 t3 : QuadTreeResource K) (n3 : Node K),
          n.kind = NodeKind.Leaf ee pp ∧ ¬ (pp.sub p).length_squared < 1 / 10000 ∧
          QuadTreeResource.insertRec f (subdivided t n.bounds)
            (t.nodes.length + n.bounds.get_quadrant_index pp) ee pp n.mass = Except.ok t2 ∧
          QuadTreeResource.insertRec f t2 (t.nodes.length + n.bounds.get_quadrant_index p)
            e p m = Except.ok t3 ∧
          t3.nodes[i]? = some n3 ∧
          t' = t3.setNode i
            { n3 with
                kind := NodeKind.Internal (fourFresh t.nodes.length),
                mass := n.mass + m,
                center_of_mass :=
                  ((pp.scale n.mass).add (p.scale m)).divScalar (n.mass + m) }) ∨
        (∃ ch : Children, n.kind = NodeKind.Internal ch ∧
          ((∃ (c : ℕ) (t2 : QuadTreeResource K) (n2 : Node K),
              ch.childAt (n.bounds.get_quadrant_index p) = some c ∧
              QuadTreeResource.insertRec f t c e p m = Except.ok t2 ∧
              t2.nodes[i]? = some n2 ∧
              t' = t2.setNode i
                { n2 with
                    mass := n2.mass + m,
                    center_of_mass :=
                      ((n2.center_of_mass.scale n2.mass).add (p.scale m)).divScalar
                        (n2.mass + m),
                    kind := NodeKind.Internal ch }) ∨
            (ch.childAt (n.bounds.get_quadrant_index p) = none ∧
              t' = t.setNode i
                { n with
                    mass := n.mass + m,
                    center_of_mass :=
                      ((n.center_of_mass.scale n.mass).add (p.scale m)).divScalar (n.mass + m),
                    kind := NodeKind.Internal ch })))) := by
  cases fuel with
  | zero => exact absurd h (by simp [insertRec_zero])
  | succ f =>
    cases hn : t.nodes[i]? with
    | none =>
      rw [insertRec_oob hn] at h
      exact absurd h (by simp)
    | some n =>
      refine ⟨f, n, rfl, rfl, ?_⟩
      cases hk : n.kind with
      | Empty =>
        rw [insertRec_empty_step hn hk] at h
        exact Or.inl ⟨rfl, (Except.ok.inj h).symm⟩
      | Leaf ee pp =>
        by_cases hclose : (pp.sub p).length_squared < 1 / 10000
        · rw [insertRec_merge_step hn hk hclose] at h
          rw [hk] at h
          exact Or.inr (Or.inl ⟨ee, pp, rfl, hclose, (Except.ok.inj h).symm⟩)
        · rw [insertRec_split_step hn hk hclose] at h
          cases h1 : QuadTreeResource.insertRec f (subdivided t n.bounds)
              (t.nodes.length + n.bounds.get_quadrant_index pp) ee pp n.mass with
          | error e2 =>
            simp only [h1] at h
            exact Except.noConfusion h
          | ok t2 =>
            simp only [h1] at h
            cases h2 : QuadTreeResource.insertRec f t2
                (t.nodes.length + n.bounds.get_quadrant_index p) e p m with
            | error e2 =>
              simp only [h2] at h
              exact Except.noConfusion h
            | ok t3 =>
              simp only [h2] at h
              cases hn3 : t3.nodes[i]? with
              | none =>
                simp only [hn3] at h
                exact Except.noConfusion h
              | some n3 =>
                simp only [hn3] at h
                exact Or.inr (Or.inr (Or.inl
                  ⟨ee, pp, t2, t3, n3, rfl, hclose, h1, h2, hn3, (Except.ok.inj h).symm⟩))
      | Internal ch =>
        rw [insertRec_internal_step hn hk] at h
        cases hc : ch.childAt (n.bounds.get_quadrant_index p) with
        | none =>
          simp only [hc, hn] at h
          exact Or.inr (Or.inr (Or.inr ⟨ch, rfl, Or.inr ⟨hc, (Except.ok.inj h).symm⟩⟩))
        | some c =>
          simp only [hc] at h
          cases h1 : QuadTreeResource.insertRec f t c e p m with
          | error e2 =>
            simp only [h1] at h
            exact Except.noConfusion h
          | ok t2 =>
            simp only [h1] at h
            cases hn2 : t2.nodes[i]? with
            | none =>
              simp only [hn2] at h
              exact Except.noConfusion h
            | some n2 =>
              simp only [hn2] at h
              exact Or.inr (Or.inr (Or.inr
                ⟨ch, rfl, Or.inl ⟨c, t2, n2, hc, h1, hn2, (Except.ok.inj h).symm⟩⟩))

/-- Inserting the first body into a fresh tree turns the single root node into
a leaf carrying that body, with no arena growth. -/
theorem insert_fresh {bounds : Rect K} {e : ℕ} {p : Vec2 K} {m : K} {fuel : ℕ}
    {t : QuadTreeResource K} (h : (freshQT bounds).insert fuel e p m = Except.ok t) :
    t = ⟨[{ bounds := bounds, center_of_mass := p, mass := m, kind := NodeKind.Leaf e p }],
      some 0⟩ := by
  cases fuel with
  | zero =>
    simp [freshQT, QuadTreeResource.reset, QuadTreeResource.insert,
      QuadTreeResource.insertRec] at h
  | succ f =>
    simp [freshQT, QuadTreeResource.reset, QuadTreeResource.insert, QuadTreeResource.insertRec,
      QuadTreeResource.setNode, Node.empty] at h
    exact h.symm

/-- Inserting into a single-leaf tree at squared distance below the merge
threshold folds the new body into the leaf: summed mass, mass-weighted
center of mass, retained leaf identity and position, no arena growth. -/
theorem insert_merge_single_leaf {bounds : Rect K} {eA e : ℕ} {pA cA p : Vec2 K} {mA m : K}
    (hclose : (pA.sub p).length_squared < 1 / 10000) {fuel : ℕ} {t : QuadTreeResource K}
    (h : (⟨[{ bounds := bounds, center_of_mass := cA, mass := mA, kind := NodeKind.Leaf eA pA }],
        some 0⟩ : QuadTreeResource K).insert fuel e p m = Except.ok t) :
    t = ⟨[{ bounds := bounds,
            center_of_mass := ((pA.scale mA).add (p.scale m)).divScalar (mA + m),
            mass := mA + m, kind := NodeKind.Leaf eA pA }], some 0⟩ := by
  cases fuel with
  | zero => simp [QuadTreeResource.insert, QuadTreeResource.insertRec] at h
  | succ f =>
    rw [QuadTreeResource.insert] at h
    simp only [QuadTreeResource.insertRec, List.getElem?_cons_zero] at h
    rw [if_pos hclose] at h
    simp [QuadTreeResource.setNode] at h
    exact h.symm

/-- C3: on a fresh tree, inserting body A at `p` with mass `mA` and then body
B at `q` with mass `mB`, with squared distance below `1e-4`, leaves the root
as a single leaf of mass `mA + mB`, center of mass `(p*mA + q*mB)/(mA+mB)`,
retained identity A (and A's position), with no new arena nodes. -/
theorem C3_close_insert_merges (bounds : Rect ℚ) (eA eB : ℕ) (p q : Vec2 ℚ) (mA mB : ℚ)
    (hclose : (p.sub q).length_squared < 1 / 10000) (fuel₁ fuel₂ : ℕ)
    (t₁ t₂ : QuadTreeResource ℚ)
    (h₁ : (freshQT bounds).insert fuel₁ eA p mA = Except.ok t₁)
    (h₂ : t₁.insert fuel₂ eB q mB = Except.ok t₂) :
    t₂.root = some 0 ∧
    t₂.nodes = [{ bounds := bounds,
                  center_of_mass := ((p.scale mA).add (q.scale mB)).divScalar (mA + mB),
                  mass := mA + mB, kind := NodeKind.Leaf eA p }] := by
  rw [insert_fresh h₁] at h₂
  rw [insert_merge_single_leaf hclose h₂]
  exact ⟨rfl, rfl⟩

/-- C3 witness: body A at `(1,1)` mass 2 then body B at `(1,1)` mass 3 merge
into a single leaf of mass 5 and center of mass `(1,1)` owned by A. -/
theorem C3_close_insert_merges_witness :
    ∃ t₁ t₂ : QuadTreeResource ℚ,
      (freshQT ⟨⟨0, 0⟩, ⟨10, 10⟩⟩).insert 1 1 ⟨1, 1⟩ 2 = Except.ok t₁ ∧
      t₁.insert 1 2 ⟨1, 1⟩ 3 = Except.ok t₂ ∧
      t₂.root = some 0 ∧
      t₂.nodes = [{ bounds := ⟨⟨0, 0⟩, ⟨10, 10⟩⟩, center_of_mass := ⟨1, 1⟩, mass := 5,
                    kind := NodeKind.Leaf 1 ⟨1, 1⟩ }] := by
  have h₁ : (freshQT (⟨⟨0, 0⟩, ⟨10, 10⟩⟩ : Rect ℚ)).insert 1 1 ⟨1, 1⟩ 2 =
      Except.ok ⟨[{ bounds := ⟨⟨0, 0⟩, ⟨10, 10⟩⟩, center_of_mass := ⟨1, 1⟩, mass := 2,
                    kind := NodeKind.Leaf 1 ⟨1, 1⟩ }], some 0⟩ := by
    norm_num [freshQT, QuadTreeResource.reset, QuadTreeResource.insert,
      QuadTreeResource.insertRec, QuadTreeResource.setNode, Node.empty]
  have h₂ : (⟨[{ bounds := ⟨⟨0, 0⟩, ⟨10, 10⟩⟩, center_of_mass := ⟨1, 1⟩, mass := 2,
                 kind := NodeKind.Leaf 1 ⟨1, 1⟩ }], some 0⟩ : QuadTreeResource ℚ).insert
        1 2 ⟨1, 1⟩ 3 =
      Except.ok ⟨[{ bounds := ⟨⟨0, 0⟩, ⟨10, 10⟩⟩, center_of_mass := ⟨1, 1⟩, mass := 5,
                    kind := NodeKind.Leaf 1 ⟨1, 1⟩ }], some 0⟩ := by
    norm_num [QuadTreeResource.insert, QuadTreeResource.insertRec, QuadTreeResource.setNode,
      Vec2.sub, Vec2.length_squared, Vec2.scale, Vec2.add, Vec2.divScalar]
  refine ⟨_, _, h₁, h₂, ?_⟩
  have h := C3_close_insert_merges ⟨⟨0, 0⟩, ⟨10, 10⟩⟩ 1 2 ⟨1, 1⟩ ⟨1, 1⟩ 2 3
    (by norm_num [Vec2.sub, Vec2.length_squared]) 1 1 _ _ h₁ h₂
  refine ⟨h.1, h.2.trans ?_⟩
  norm_num [Vec2.scale, Vec2.add, Vec2.divScalar]

/-- C4: a force query on an index with no root returns the zero vector, and on
a tree built by reset plus a single insertion of the target itself, the query
at the target's position returns the zero vector for every config. -/
theorem C4_degenerate_zero_force :
    (∀ (t : QuadTreeResource ℚ) (sqrt : ℚ → ℚ) (fuel target : ℕ) (pos : Vec2 ℚ)
        (config : SimConfig ℚ), t.root = none →
      t.calculate_force sqrt fuel target pos config = Except.ok Vec2.zero) ∧
    (∀ (bounds : Rect ℚ) (target : ℕ) (p : Vec2 ℚ) (m : ℚ) (fuel₁ : ℕ)
        (t : QuadTreeResource ℚ),
      (freshQT bounds).insert fuel₁ target p m = Except.ok t →
      ∀ (sqrt : ℚ → ℚ) (fuel₂ : ℕ) (config : SimConfig ℚ), 1 ≤ fuel₂ →
        t.calculate_force sqrt fuel₂ target p config = Except.ok Vec2.zero) := by
  constructor
  · intro t sqrt fuel target pos config h
    simp [QuadTreeResource.calculate_force, h]
  · intro bounds target p m fuel₁ t h sqrt fuel₂ config hf
    rw [insert_fresh h]
    cases fuel₂ with
    | zero => exact absurd hf (by norm_num)
    | succ f => simp [QuadTreeResource.calculate_force, QuadTreeResource.calcForceRec]

/-- C4 witness: a rootless index, and a fresh tree holding only body 1 at the
origin, both yield the zero vector at concrete queries. -/
theorem C4_degenerate_zero_force_witness :
    (⟨[], none⟩ : QuadTreeResource ℚ).calculate_force id 3 7 ⟨2, 3⟩ ⟨100, 1 / 2, 1 / 60⟩ =
      Except.ok Vec2.zero ∧
    ∃ t : QuadTreeResource ℚ,
      (freshQT ⟨⟨0, 0⟩, ⟨10, 10⟩⟩).insert 1 1 ⟨0, 0⟩ 5 = Except.ok t ∧
      t.calculate_force id 1 1 ⟨0, 0⟩ ⟨100, 1 / 2, 1 / 60⟩ = Except.ok Vec2.zero := by
  constructor
  · exact C4_degenerate_zero_force.1 _ id 3 7 ⟨2, 3⟩ _ rfl
  · have h₁ : (freshQT (⟨⟨0, 0⟩, ⟨10, 10⟩⟩ : Rect ℚ)).insert 1 1 ⟨0, 0⟩ 5 =
        Except.ok ⟨[{ bounds := ⟨⟨0, 0⟩, ⟨10, 10⟩⟩, center_of_mass := ⟨0, 0⟩, mass := 5,
                      kind := NodeKind.Leaf 1 ⟨0, 0⟩ }], some 0⟩ := by
      norm_num [freshQT, QuadTreeResource.reset, QuadTreeResource.insert,
        QuadTreeResource.insertRec, QuadTreeResource.setNode, Node.empty]
    exact ⟨_, h₁, C4_degenerate_zero_force.2 _ 1 ⟨0, 0⟩ 5 1 _ h₁ id 1 _ (by norm_num)⟩

/-- C8: for a nonempty body set the rebuild step computes the padded square
root bounds exactly as the spec's formula (midpoint center; side = larger of
the bounding-box width/height, floored at 1.0, expanded 10%), resets to those
bounds and inserts every body; for the empty set it resets an empty tree
reusing the prior bounds. -/
theorem C8_rebuild_bounds (fuel : ℕ) (t : QuadTreeResource ℚ) (prior : Rect ℚ)
    (bodies : List (Body ℚ)) :
    (bodies = [] → reset_and_build_tree fuel t prior bodies =
      Except.ok (t.reset prior, prior)) ∧
    (∀ mn mx, minMaxOf bodies = some (mn, mx) →
      reset_and_build_tree fuel t prior bodies =
        (insertAll fuel (freshQT (specRootBounds mn mx)) bodies).map
          (fun t2 => (t2, specRootBounds mn mx))) := by
  constructor
  · intro h
    subst h
    simp [reset_and_build_tree, minMaxOf]
  · intro mn mx h
    unfold reset_and_build_tree
    rw [h]
    have hb : (⟨⟨(mn.x + mx.x) / 2, (mn.y + mx.y) / 2⟩,
        ⟨max (max (mx.x - mn.x) 1) (max (mx.y - mn.y) 1) * (11 / 10),
          max (max (mx.x - mn.x) 1) (max (mx.y - mn.y) 1) * (11 / 10)⟩⟩ : Rect ℚ) =
        specRootBounds mn mx := by
      have hm : max (max (mx.x - mn.x) 1) (max (mx.y - mn.y) 1) =
          max (max (mx.x - mn.x) (mx.y - mn.y)) 1 := by
        rw [max_max_max_comm, max_self]
      rw [specRootBounds, hm]
    have hfresh : t.reset (specRootBounds mn mx) = freshQT (specRootBounds mn mx) := rfl
    simp only [hb, hfresh]
    cases h2 : insertAll fuel (freshQT (specRootBounds mn mx)) bodies <;>
      simp [Except.map, h2]

/-- C8 witness: the two-body configuration of the repository's own test
(`(-10,-5)` and `(20,15)`) yields root bounds centered at `(5,5)` with side
`33`, and the empty body list resets to the prior bounds. -/
theorem C8_rebuild_bounds_witness :
    specRootBounds (⟨-10, -5⟩ : Vec2 ℚ) ⟨20, 15⟩ = ⟨⟨5, 5⟩, ⟨33, 33⟩⟩ ∧
    reset_and_build_tree 5 (⟨[], none⟩ : QuadTreeResource ℚ) ⟨⟨0, 0⟩, ⟨2000, 2000⟩⟩ [] =
      Except.ok ((⟨[], none⟩ : QuadTreeResource ℚ).reset ⟨⟨0, 0⟩, ⟨2000, 2000⟩⟩,
        ⟨⟨0, 0⟩, ⟨2000, 2000⟩⟩) ∧
    reset_and_build_tree 5 (⟨[], none⟩ : QuadTreeResource ℚ) ⟨⟨0, 0⟩, ⟨2000, 2000⟩⟩
        [⟨1, ⟨-10, -5⟩, 2⟩, ⟨2, ⟨20, 15⟩, 3⟩] =
      (insertAll 5 (freshQT (specRootBounds ⟨-10, -5⟩ ⟨20, 15⟩))
          [⟨1, ⟨-10, -5⟩, 2⟩, ⟨2, ⟨20, 15⟩, 3⟩]).map
        (fun t2 => (t2, specRootBounds ⟨-10, -5⟩ ⟨20, 15⟩)) := by
  refine ⟨?_, ?_, ?_⟩
  · unfold specRootBounds
    norm_num
  · exact (C8_rebuild_bounds 5 ⟨[], none⟩ ⟨⟨0, 0⟩, ⟨2000, 2000⟩⟩ []).1 rfl
  · refine (C8_rebuild_bounds 5 ⟨[], none⟩ ⟨⟨0, 0⟩, ⟨2000, 2000⟩⟩ _).2 ⟨-10, -5⟩ ⟨20, 15⟩ ?_
    simp [minMaxOf]
    norm_num

theorem massBelow_none {t : QuadTreeResource K} {i : ℕ} (h : t.nodes[i]? = none) :
    massBelow t i = 0 := by
  rw [massBelow]
  rw [List.getElem?_eq_none_iff] at h
  simp [Nat.not_lt.mpr h]

theorem massBelow_some {t : QuadTreeResource K} {i : ℕ} {n : Node K}
    (h : t.nodes[i]? = some n) :
    massBelow t i =
      match n.kind with
      | NodeKind.Empty => 0
      | NodeKind.Leaf _ _ => n.mass
      | NodeKind.Internal ch =>
        childMassB t i ch.c0 + childMassB t i ch.c1 + childMassB t i ch.c2 +
          childMassB t i ch.c3 := by
  obtain ⟨hlt, hget⟩ := List.getElem?_eq_some.mp h
  rw [massBelow]
  rw [dif_pos hlt, hget]
  cases n.kind <;> rfl

theorem momentBelow_none {t : QuadTreeResource K} {i : ℕ} (h : t.nodes[i]? = none) :
    momentBelow t i = Vec2.zero := by
  rw [momentBelow]
  rw [List.getElem?_eq_none_iff] at h
  simp [Nat.not_lt.mpr h]

theorem momentBelow_some {t : QuadTreeResource K} {i : ℕ} {n : Node K}
    (h : t.nodes[i]? = some n) :
    momentBelow t i =
      match n.kind with
      | NodeKind.Empty => Vec2.zero
      | NodeKind.Leaf _ p => p.scale n.mass
      | NodeKind.Internal ch =>
        (((childMomentB t i ch.c0).add (childMomentB t i ch.c1)).add
          (childMomentB t i ch.c2)).add (childMomentB t i ch.c3) := by
  obtain ⟨hlt, hget⟩ := List.getElem?_eq_some.mp h
  rw [momentBelow]
  rw [dif_pos hlt, hget]
  cases n.kind <;> rfl

theorem forceAt_none {sqrt : K → K} {config : SimConfig K} {target : ℕ} {position : Vec2 K}
    {t : QuadTreeResource K} {i : ℕ} (h : t.nodes[i]? = none) :
    forceAt sqrt config target position t i = Vec2.zero := by
  rw [forceAt]
  rw [List.getElem?_eq_none_iff] at h
  simp [Nat.not_lt.mpr h]

theorem forceAt_some {sqrt : K → K} {config : SimConfig K} {target : ℕ} {position : Vec2 K}
    {t : QuadTreeResource K} {i : ℕ} {n : Node K} (h : t.nodes[i]? = some n) :
    forceAt sqrt config target position t i =
      match n.kind with
      | NodeKind.Empty => Vec2.zero
      | NodeKind.Leaf entity pos =>
        if entity = target then Vec2.zero
        else
          (((pos.sub position).divScalar
              (sqrt ((pos.sub position).length_squared + SOFTENING * SOFTENING))).scale
            (config.g * n.mass /
              ((pos.sub position).length_squared + SOFTENING * SOFTENING)))
      | NodeKind.Internal children =>
        if n.bounds.size.x /
            max (sqrt ((n.center_of_mass.sub position).length_squared)) (1 / 10000) <
            config.theta then
          (((n.center_of_mass.sub position).divScalar
              (max (sqrt ((n.center_of_mass.sub position).length_squared)) (1 / 10000))).scale
            (config.g * n.mass /
              (max (sqrt ((n.center_of_mass.sub position).length_squared)) (1 / 10000) *
                  max (sqrt ((n.center_of_mass.sub position).length_squared)) (1 / 10000) +
                SOFTENING * SOFTENING)))
        else
          (((Vec2.zero.add (childForceB sqrt config target position t i children.c0)).add
              (childForceB sqrt config target position t i children.c1)).add
            (childForceB sqrt config target position t i children.c2)).add
            (childForceB sqrt config target position t i children.c3) := by
  obtain ⟨hlt, hget⟩ := List.getElem?_eq_some.mp h
  rw [forceAt]
  rw [dif_pos hlt, hget]
  cases n.kind <;> rfl

theorem ChildOf_lt {t : QuadTreeResource K} (hwf : WF t) {i c : ℕ} (h : ChildOf t i c) :
    i < c := by
  obtain ⟨n, ch, hn, hk, hmem⟩ := h
  obtain ⟨q, hq, hca⟩ := childAt_of_mem hmem
  obtain ⟨c2, hc2, hic2, -, -⟩ := hwf.child_complete i n ch hn hk q hq
  rw [hca] at hc2
  cases hc2
  exact hic2

theorem ChildOf_lt_length {t : QuadTreeResource K} (hwf : WF t) {i c : ℕ}
    (h : ChildOf t i c) : c < t.nodes.length := by
  obtain ⟨n, ch, hn, hk, hmem⟩ := h
  obtain ⟨q, hq, hca⟩ := childAt_of_mem hmem
  obtain ⟨c2, hc2, -, hlen, -⟩ := hwf.child_complete i n ch hn hk q hq
  rw [hca] at hc2
  cases hc2
  exact hlen

theorem Reach_le {t : QuadTreeResource K} (hwf : WF t) {i j : ℕ} (h : Reach t i j) : i ≤ j := by
  induction h with
  | refl i2 => exact le_refl i2
  | step hco _ ih => exact le_trans (le_of_lt (ChildOf_lt hwf hco)) ih

theorem Reach_lt_length {t : QuadTreeResource K} (hwf : WF t) {i j : ℕ} (h : Reach t i j)
    (hi : i < t.nodes.length) : j < t.nodes.length := by
  induction h with
  | refl i2 => exact hi
  | step hco _ ih => exact ih (ChildOf_lt_length hwf hco)

theorem Reach_singleton {t : QuadTreeResource K} {i j : ℕ} {n : Node K}
    (hn : t.nodes[i]? = some n) (hnk : ∀ ch, n.kind ≠ NodeKind.Internal ch)
    (h : Reach t i j) : j = i := by
  cases h with
  | refl => rfl
  | step hco hr =>
    obtain ⟨n2, ch, hn2, hk2, -⟩ := hco
    rw [hn] at hn2
    cases hn2
    exact absurd hk2 (hnk ch)

theorem Reach_congr {t t2 : QuadTreeResource K} {i j : ℕ} (h : Reach t i j) :
    (∀ j2, Reach t i j2 → t2.nodes[j2]? = t.nodes[j2]?) → Reach t2 i j := by
  induction h with
  | refl i2 => exact fun _ => Reach.refl i2
  | step hco hr ih =>
    intro heq
    rename_i i2 c j2
    have hci : ChildOf t2 i2 c := by
      obtain ⟨n, ch, hn, hk, hm⟩ := hco
      exact ⟨n, ch, (heq i2 (Reach.refl i2)).trans hn, hk, hm⟩
    exact Reach.step hci (ih fun j3 hj3 => heq j3 (Reach.step hco hj3))

theorem parent_uniq {t : QuadTreeResource K} (hwf : WF t) {a b c : ℕ} (h1 : ChildOf t a c)
    (h2 : ChildOf t b c) : a = b := by
  obtain ⟨n1, ch1, hn1, hk1, hm1⟩ := h1
  obtain ⟨n2, ch2, hn2, hk2, hm2⟩ := h2
  obtain ⟨q1, -, hq1⟩ := childAt_of_mem hm1
  obtain ⟨q2, -, hq2⟩ := childAt_of_mem hm2
  exact (hwf.uniq a q1 b q2 c ⟨n1, ch1, hn1, hk1, hq1⟩ ⟨n2, ch2, hn2, hk2, hq2⟩).1

theorem Reach_to_parent {t : QuadTreeResource K} (hwf : WF t) {b a ca : ℕ}
    (hca : ChildOf t a ca) (h : Reach t b ca) : b = ca ∨ Reach t b a := by
  induction h with
  | refl i2 => exact Or.inl rfl
  | step hco hr ih =>
    rcases ih hca with he | hr2
    · subst he
      have hab := parent_uniq hwf hco hca
      subst hab
      exact Or.inr (Reach.refl _)
    · exact Or.inr (Reach.step hco hr2)

theorem sibling_not_reach {t : QuadTreeResource K} (hwf : WF t) {a c1 c2 : ℕ}
    (hc1 : ChildOf t a c1) (hc2 : ChildOf t a c2) (hne : c1 ≠ c2) : ¬ Reach t c1 c2 := by
  intro h
  rcases Reach_to_parent hwf hc2 h with he | hr
  · exact hne he
  · have h1 := Reach_le hwf hr
    have h2 := ChildOf_lt hwf hc1
    omega

theorem massBelow_congr_aux {t t2 : QuadTreeResource K} :
    ∀ (d i : ℕ), t.nodes.length - i ≤ d →
      (∀ j, Reach t i j → t2.nodes[j]? = t.nodes[j]?) → massBelow t2 i = massBelow t i := by
  intro d
  induction d with
  | zero =>
    intro i hd heq
    have h1 : t.nodes[i]? = none := List.getElem?_eq_none (by omega)
    have h2 : t2.nodes[i]? = none := (heq i (Reach.refl i)).trans h1
    rw [massBelow_none h1, massBelow_none h2]
  | succ d ih =>
    intro i hd heq
    cases hn : t.nodes[i]? with
    | none =>
      have h2 : t2.nodes[i]? = none := (heq i (Reach.refl i)).trans hn
      rw [massBelow_none hn, massBelow_none h2]
    | some n =>
      have hlt := lt_length_of_get_some hn
      have hn2 : t2.nodes[i]? = some n := (heq i (Reach.refl i)).trans hn
      rw [massBelow_some hn, massBelow_some hn2]
      cases hk : n.kind with
      | Empty => rfl
      | Leaf e p => rfl
      | Internal ch =>
        have hc : ∀ c? : Option ℕ, (∀ c, c? = some c → ch.mem c) →
            childMassB t2 i c? = childMassB t i c? := by
          intro c? hmem
          cases c? with
          | none => rfl
          | some c =>
            simp only [childMassB]
            by_cases hic : i < c
            · rw [dif_pos hic, dif_pos hic]
              exact ih c (by omega)
                (fun j hj => heq j (Reach.step ⟨n, ch, hn, hk, hmem c rfl⟩ hj))
            · rw [dif_neg hic, dif_neg hic]
        show childMassB t2 i ch.c0 + childMassB t2 i ch.c1 + childMassB t2 i ch.c2 +
            childMassB t2 i ch.c3 =
          childMassB t i ch.c0 + childMassB t i ch.c1 + childMassB t i ch.c2 +
            childMassB t i ch.c3
        rw [hc ch.c0 (fun c hcc => Or.inl hcc), hc ch.c1 (fun c hcc => Or.inr (Or.inl hcc)),
          hc ch.c2 (fun c hcc => Or.inr (Or.inr (Or.inl hcc))),
          hc ch.c3 (fun c hcc => Or.inr (Or.inr (Or.inr hcc)))]

theorem massBelow_congr {t t2 : QuadTreeResource K} {i : ℕ}
    (heq : ∀ j, Reach t i j → t2.nodes[j]? = t.nodes[j]?) : massBelow t2 i = massBelow t i :=
  massBelow_congr_aux (t.nodes.length - i) i (le_refl _) heq

theorem momentBelow_congr_aux {t t2 : QuadTreeResource K} :
    ∀ (d i : ℕ), t.nodes.length - i ≤ d →
      (∀ j, Reach t i j → t2.nodes[j]? = t.nodes[j]?) →
      momentBelow t2 i = momentBelow t i := by
  intro d
  induction d with
  | zero =>
    intro i hd heq
    have h1 : t.nodes[i]? = none := List.getElem?_eq_none (by omega)
    have h2 : t2.nodes[i]? = none := (heq i (Reach.refl i)).trans h1
    rw [momentBelow_none h1, momentBelow_none h2]
  | succ d ih =>
    intro i hd heq
    cases hn : t.nodes[i]? with
    | none =>
      have h2 : t2.nodes[i]? = none := (heq i (Reach.refl i)).trans hn
      rw [momentBelow_none hn, momentBelow_none h2]
    | some n =>
      have hlt := lt_length_of_get_some hn
      have hn2 : t2.nodes[i]? = some n := (heq i (Reach.refl i)).trans hn
      rw [momentBelow_some hn, momentBelow_some hn2]
      cases hk : n.kind with
      | Empty => rfl
      | Leaf e p => rfl
      | Internal ch =>
        have hc : ∀ c? : Option ℕ, (∀ c, c? = some c → ch.mem c) →
            childMomentB t2 i c? = childMomentB t i c? := by
          intro c? hmem
          cases c? with
          | none => rfl
          | some c =>
            simp only [childMomentB]
            by_cases hic : i < c
            · rw [dif_pos hic, dif_pos hic]
              exact ih c (by omega)
                (fun j hj => heq j (Reach.step ⟨n, ch, hn, hk, hmem c rfl⟩ hj))
            · rw [dif_neg hic, dif_neg hic]
        show (((childMomentB t2 i ch.c0).add (childMomentB t2 i ch.c1)).add
            (childMomentB t2 i ch.c2)).add (childMomentB t2 i ch.c3) =
          (((childMomentB t i ch.c0).add (childMomentB t i ch.c1)).add
            (childMomentB t i ch.c2)).add (childMomentB t i ch.c3)
        rw [hc ch.c0 (fun c hcc => Or.inl hcc), hc ch.c1 (fun c hcc => Or.inr (Or.inl hcc)),
          hc ch.c2 (fun c hcc => Or.inr (Or.inr (Or.inl hcc))),
          hc ch.c3 (fun c hcc => Or.inr (Or.inr (Or.inr hcc)))]

theorem momentBelow_congr {t t2 : QuadTreeResource K} {i : ℕ}
    (heq : ∀ j, Reach t i j → t2.nodes[j]? = t.nodes[j]?) :
    momentBelow t2 i = momentBelow t i :=
  momentBelow_congr_aux (t.nodes.length - i) i (le_refl _) heq

theorem forceAt_congr_aux {sqb : K → K} {config : SimConfig K} {target : ℕ}
    {position : Vec2 K} {t t2 : QuadTreeResource K} :
    ∀ (d i : ℕ), t.nodes.length - i ≤ d →
      (∀ j, Reach t i j → t2.nodes[j]? = t.nodes[j]?) →
      forceAt sqb config target position t2 i = forceAt sqb config target position t i := by
  intro d
  induction d with
  | zero =>
    intro i hd heq
    have h1 : t.nodes[i]? = none := List.getElem?_eq_none (by omega)
    have h2 : t2.nodes[i]? = none := (heq i (Reach.refl i)).trans h1
    rw [forceAt_none h1, forceAt_none h2]
  | succ d ih =>
    intro i hd heq
    cases hn : t.nodes[i]? with
    | none =>
      have h2 : t2.nodes[i]? = none := (heq i (Reach.refl i)).trans hn
      rw [forceAt_none hn, forceAt_none h2]
    | some n =>
      have hlt := lt_length_of_get_some hn
      have hn2 : t2.nodes[i]? = some n := (heq i (Reach.refl i)).trans hn
      rw [forceAt_some hn, forceAt_some hn2]
      cases hk : n.kind with
      | Empty => rfl
      | Leaf e p => rfl
      | Internal ch =>
        have hc : ∀ c? : Option ℕ, (∀ c, c? = some c → ch.mem c) →
            childForceB sqb config target position t2 i c? =
              childForceB sqb config target position t i c? := by
          intro c? hmem
          cases c? with
          | none => rfl
          | some c =>
            simp only [childForceB]
            by_cases hic : i < c
            · rw [dif_pos hic, dif_pos hic]
              exact ih c (by omega)
                (fun j hj => heq j (Reach.step ⟨n, ch, hn, hk, hmem c rfl⟩ hj))
            · rw [dif_neg hic, dif_neg hic]
        show (if n.bounds.size.x /
                max (sqb ((n.center_of_mass.sub position).length_squared)) (1 / 10000) <
                config.theta then
              (((n.center_of_mass.sub position).divScalar
                  (max (sqb ((n.center_of_mass.sub position).length_squared))
                    (1 / 10000))).scale
                (config.g * n.mass /
                  (max (sqb ((n.center_of_mass.sub position).length_squared)) (1 / 10000) *
                      max (sqb ((n.center_of_mass.sub position).length_squared)) (1 / 10000) +
                    SOFTENING * SOFTENING)))
            else
              (((Vec2.zero.add (childForceB sqb config target position t2 i ch.c0)).add
                  (childForceB sqb config target position t2 i ch.c1)).add
                (childForceB sqb config target position t2 i ch.c2)).add
                (childForceB sqb config target position t2 i ch.c3)) =
          (if n.bounds.size.x /
                max (sqb ((n.center_of_mass.sub position).length_squared)) (1 / 10000) <
                config.theta then
              (((n.center_of_mass.sub position).divScalar
                  (max (sqb ((n.center_of_mass.sub position).length_squared))
                    (1 / 10000))).scale
                (config.g * n.mass /
                  (max (sqb ((n.center_of_mass.sub position).length_squared)) (1 / 10000) *
                      max (sqb ((n.center_of_mass.sub position).length_squared)) (1 / 10000) +
                    SOFTENING * SOFTENING)))
            else
              (((Vec2.zero.add (childForceB sqb config target position t i ch.c0)).add
                  (childForceB sqb config target position t i ch.c1)).add
                (childForceB sqb config target position t i ch.c2)).add
                (childForceB sqb config target position t i ch.c3))
        by_cases hth : n.bounds.size.x /
            max (sqb ((n.center_of_mass.sub position).length_squared)) (1 / 10000) <
            config.theta
        · rw [if_pos hth, if_pos hth]
        · rw [if_neg hth, if_neg hth]
          rw [hc ch.c0 (fun c hcc => Or.inl hcc), hc ch.c1 (fun c hcc => Or.inr (Or.inl hcc)),
            hc ch.c2 (fun c hcc => Or.inr (Or.inr (Or.inl hcc))),
            hc ch.c3 (fun c hcc => Or.inr (Or.inr (Or.inr hcc)))]

theorem forceAt_congr {sqb : K → K} {config : SimConfig K} {target : ℕ} {position : Vec2 K}
    {t t2 : QuadTreeResource K} {i : ℕ}
    (heq : ∀ j, Reach t i j → t2.nodes[j]? = t.nodes[j]?) :
    forceAt sqb config target position t2 i = forceAt sqb config target position t i :=
  forceAt_congr_aux (t.nodes.length - i) i (le_refl _) heq

/-- A successful insertion into an `Empty` node is forced to take the first
branch: it just writes a leaf. -/
theorem insertRec_into_empty {fuel : ℕ} {t t' : QuadTreeResource K} {i e : ℕ} {p : Vec2 K}
    {m : K} {n : Node K} (h : QuadTreeResource.insertRec fuel t i e p m = Except.ok t')
    (hn : t.nodes[i]? = some n) (hk : n.kind = NodeKind.Empty) :
    t' = t.setNode i { n with kind := NodeKind.Leaf e p, mass := m, center_of_mass := p } := by
  obtain ⟨f0, n0, -, hn0, hcases⟩ := insertRec_ok_inv h
  rw [hn] at hn0
  cases hn0
  rcases hcases with ⟨-, ht'⟩ | ⟨ee, pp, hk2, -, -⟩ | ⟨ee, pp, t2, t3, n3, hk2, -, -, -, -, -⟩ |
    ⟨ch, hk2, -⟩
  · exact ht'
  · rw [hk] at hk2
    exact NodeKind.noConfusion hk2
  · rw [hk] at hk2
    exact NodeKind.noConfusion hk2
  · rw [hk] at hk2
    exact NodeKind.noConfusion hk2

/-- Frame lemma for `insert_recursive`: the root is unchanged, the arena only
grows, bounds of surviving nodes are unchanged, and nodes outside the
reachable set of the insertion point are untouched. -/
theorem insertRec_frame :
    ∀ {fuel : ℕ} {t t' : QuadTreeResource K} {i e : ℕ} {p : Vec2 K} {m : K},
    QuadTreeResource.insertRec fuel t i e p m = Except.ok t' →
    t'.root = t.root ∧ t.nodes.length ≤ t'.nodes.length ∧
    (∀ (j : ℕ) (a b : Node K),
      t.nodes[j]? = some a → t'.nodes[j]? = some b → b.bounds = a.bounds) ∧
    (∀ j : ℕ, j < t.nodes.length → ¬ Reach t i j → t'.nodes[j]? = t.nodes[j]?) := by
  intro fuel
  induction fuel with
  | zero =>
    intro t t' i e p m h
    rw [insertRec_zero] at h
    exact Except.noConfusion h
  | succ f ih =>
    intro t t' i e p m h
    obtain ⟨f0, n, hf, hn, hcases⟩ := insertRec_ok_inv h
    have hff : f0 = f := by omega
    subst hff
    have hilen := lt_length_of_get_some hn
    have base : ∀ n' : Node K, n'.bounds = n.bounds →
        (t.setNode i n').root = t.root ∧
        t.nodes.length ≤ (t.setNode i n').nodes.length ∧
        (∀ (j : ℕ) (a b : Node K), t.nodes[j]? = some a →
          (t.setNode i n').nodes[j]? = some b → b.bounds = a.bounds) ∧
        (∀ j : ℕ, j < t.nodes.length → ¬ Reach t i j →
          (t.setNode i n').nodes[j]? = t.nodes[j]?) := by
      intro n' hb
      refine ⟨setNode_root t i n', by rw [setNode_length], ?_, ?_⟩
      · intro j a b ha hb2
        by_cases hj : i = j
        · subst hj
          rw [setNode_get_self _ hilen] at hb2
          cases hb2
          rw [hn] at ha
          cases ha
          exact hb
        · rw [setNode_get_ne _ hj, ha] at hb2
          cases hb2
          rfl
      · intro j hj hnr
        exact setNode_get_ne _ (fun hh => hnr (hh ▸ Reach.refl i))
    rcases hcases with ⟨hk, ht'⟩ | ⟨ee, pp, hk, hclose, ht'⟩ |
      ⟨ee, pp, t2, t3, n3, hk, hfar, h1, h2, hn3, ht'⟩ |
      ⟨ch, hk, ⟨c, t2, n2, hc, h1, hn2, ht'⟩ | ⟨hc, ht'⟩⟩
    · subst ht'
      exact base _ rfl
    · subst ht'
      exact base _ rfl
    · subst ht'
      have hqE := get_quadrant_index_lt_four n.bounds pp
      have hqN := get_quadrant_index_lt_four n.bounds p
      have ht1get := subdivided_get_fresh t n.bounds hqE
      have ht2 := insertRec_into_empty h1 ht1get rfl
      have hl1 : (subdivided t n.bounds).nodes.length = t.nodes.length + 4 :=
        subdivided_length t n.bounds
      have hl2 : t2.nodes.length = t.nodes.length + 4 := by
        rw [ht2, setNode_length, hl1]
      obtain ⟨hr3, hl3, hb3, hfr3⟩ := ih h2
      have ht2get : ∀ j : ℕ, j < t.nodes.length → t2.nodes[j]? = t.nodes[j]? := by
        intro j hj
        rw [ht2, setNode_get_ne _ (by omega), subdivided_get_lt hj]
      have ht2root : t2.root = t.root := by
        rw [ht2, setNode_root, subdivided_root]
      have hn2kind : ∃ n2 : Node K,
          t2.nodes[t.nodes.length + n.bounds.get_quadrant_index p]? = some n2 ∧
          ∀ ch2 : Children, n2.kind ≠ NodeKind.Internal ch2 := by
        by_cases hqq : n.bounds.get_quadrant_index p = n.bounds.get_quadrant_index pp
        · rw [hqq, ht2]
          refine ⟨_, setNode_get_self _ ?_, ?_⟩
          · rw [hl1]
            omega
          · intro ch2
            simp
        · rw [ht2, setNode_get_ne _ (by omega),
            subdivided_get_fresh t n.bounds hqN]
          exact ⟨_, rfl, fun ch2 => by simp [Node.empty]⟩
      refine ⟨?_, ?_, ?_, ?_⟩
      · rw [setNode_root, hr3, ht2root]
      · rw [setNode_length]
        omega
      · intro j a b ha hb2
        have hj := lt_length_of_get_some ha
        have ht2j : t2.nodes[j]? = some a := by rw [ht2get j hj, ha]
        obtain ⟨b3, hb3j⟩ := get_some_of_lt_length (show j < t3.nodes.length by omega)
        have hbb := hb3 j a b3 ht2j hb3j
        by_cases hij : i = j
        · subst hij
          rw [setNode_get_self _ (by omega)] at hb2
          cases hb2
          rw [hn3] at hb3j
          cases hb3j
          exact hbb
        · rw [setNode_get_ne _ hij, hb3j] at hb2
          cases hb2
          exact hbb
      · intro j hj hnr
        obtain ⟨n2, hn2g, hn2k⟩ := hn2kind
        have hnr2 : ¬ Reach t2 (t.nodes.length + n.bounds.get_quadrant_index p) j := by
          intro hr
          have := Reach_singleton hn2g hn2k hr
          omega
        have hij : i ≠ j := fun hh => hnr (by rw [← hh]; exact Reach.refl i)
        rw [setNode_get_ne _ hij, hfr3 j (by omega) hnr2, ht2get j hj]
    · subst ht'
      have hco : ChildOf t i c := ⟨n, ch, hn, hk, mem_of_childAt hc⟩
      obtain ⟨hr1, hl1, hb1, hfr1⟩ := ih h1
      refine ⟨?_, ?_, ?_, ?_⟩
      · rw [setNode_root, hr1]
      · rw [setNode_length]
        omega
      · intro j a b ha hb2
        have hj := lt_length_of_get_some ha
        obtain ⟨b2, hb2j⟩ := get_some_of_lt_length (show j < t2.nodes.length by omega)
        have hbb := hb1 j a b2 ha hb2j
        by_cases hij : i = j
        · subst hij
          rw [setNode_get_self _ (by omega)] at hb2
          cases hb2
          rw [hn2] at hb2j
          cases hb2j
          exact hbb
        · rw [setNode_get_ne _ hij, hb2j] at hb2
          cases hb2
          exact hbb
      · intro j hj hnr
        have hnrc : ¬ Reach t c j := fun hr => hnr (Reach.step hco hr)
        have hij : i ≠ j := fun hh => hnr (by rw [← hh]; exact Reach.refl i)
        rw [setNode_get_ne _ hij, hfr1 j hj hnrc]
    · subst ht'
      exact base _ rfl

theorem sub_quadrant_size (r : Rect K) (q : ℕ) :
    (r.sub_quadrant q).size = ⟨r.size.x / 2, r.size.y / 2⟩ := by
  unfold Rect.sub_quadrant
  rfl

theorem subdivided_index_cases {t : QuadTreeResource K} {b : Rect K} {j : ℕ} {n : Node K}
    (hn : (subdivided t b).nodes[j]? = some n) :
    t.nodes[j]? = some n ∨
      ∃ q, q < 4 ∧ j = t.nodes.length + q ∧ n = Node.empty (b.sub_quadrant q) := by
  by_cases hj : j < t.nodes.length
  · rw [subdivided_get_lt hj] at hn
    exact Or.inl hn
  · have hj2 := lt_length_of_get_some hn
    rw [subdivided_length] at hj2
    refine Or.inr ⟨j - t.nodes.length, by omega, by omega, ?_⟩
    have hjq : j = t.nodes.length + (j - t.nodes.length) := by omega
    rw [hjq, subdivided_get_fresh t b (by omega : j - t.nodes.length < 4)] at hn
    exact (Option.some.inj hn).symm

theorem PtrAt_subdivided {t : QuadTreeResource K} {b : Rect K} {j q c : ℕ} :
    PtrAt (subdivided t b) j q c ↔ PtrAt t j q c := by
  constructor
  · rintro ⟨n, ch, hn, hk, hc⟩
    rcases subdivided_index_cases hn with hn2 | ⟨q2, -, -, rfl⟩
    · exact ⟨n, ch, hn2, hk, hc⟩
    · exact absurd hk (by simp [Node.empty])
  · rintro ⟨n, ch, hn, hk, hc⟩
    exact ⟨n, ch, by rw [subdivided_get_lt (lt_length_of_get_some hn)]; exact hn, hk, hc⟩

theorem WF_subdivided {t : QuadTreeResource K} (hwf : WF t) (b : Rect K) :
    WF (subdivided t b) := by
  constructor
  · intro i n ch hn hk q hq
    rcases subdivided_index_cases hn with hn2 | ⟨q2, -, -, rfl⟩
    · obtain ⟨c, hca, hic, hcl, cn, hcn, hcb⟩ := hwf.child_complete i n ch hn2 hk q hq
      refine ⟨c, hca, hic, ?_, cn, ?_, hcb⟩
      · rw [subdivided_length]
        omega
      · rw [subdivided_get_lt hcl]
        exact hcn
    · exact absurd hk (by simp [Node.empty])
  · intro j1 q1 j2 q2 c h1 h2
    exact hwf.uniq j1 q1 j2 q2 c (PtrAt_subdivided.mp h1) (PtrAt_subdivided.mp h2)

theorem PtrAt_setNode_ne {t : QuadTreeResource K} {i j : ℕ} (hne : i ≠ j) (n' : Node K)
    {q c : ℕ} : PtrAt (t.setNode i n') j q c ↔ PtrAt t j q c := by
  unfold PtrAt
  rw [setNode_get_ne _ hne]

theorem setNode_ptr_iff {t : QuadTreeResource K} {i : ℕ} {n : Node K}
    (hn : t.nodes[i]? = some n) (n' : Node K)
    (hkiff : ∀ ch : Children, n.kind = NodeKind.Internal ch ↔ n'.kind = NodeKind.Internal ch)
    (j q c : ℕ) : PtrAt (t.setNode i n') j q c ↔ PtrAt t j q c := by
  by_cases hij : i = j
  · subst hij
    constructor
    · rintro ⟨n2, ch, hn2, hk2, hc⟩
      rw [setNode_get_self _ (lt_length_of_get_some hn)] at hn2
      cases hn2
      exact ⟨n, ch, hn, (hkiff ch).mpr hk2, hc⟩
    · rintro ⟨n2, ch, hn2, hk2, hc⟩
      rw [hn] at hn2
      cases hn2
      exact ⟨n', ch, setNode_get_self _ (lt_length_of_get_some hn), (hkiff ch).mp hk2, hc⟩
  · exact PtrAt_setNode_ne hij n'

theorem WF_setNode {t : QuadTreeResource K} (hwf : WF t) {i : ℕ} {n : Node K}
    (hn : t.nodes[i]? = some n) (n' : Node K) (hb : n'.bounds = n.bounds)
    (hkiff : ∀ ch : Children, n.kind = NodeKind.Internal ch ↔ n'.kind = NodeKind.Internal ch) :
    WF (t.setNode i n') := by
  have hilen := lt_length_of_get_some hn
  constructor
  · intro j nj chj hnj hkj q hq
    by_cases hij : i = j
    · subst hij
      rw [setNode_get_self _ hilen] at hnj
      cases hnj
      obtain ⟨c, hca, hic, hcl, cn, hcn, hcb⟩ :=
        hwf.child_complete i n chj hn ((hkiff chj).mpr hkj) q hq
      refine ⟨c, hca, hic, by rw [setNode_length]; exact hcl, cn, ?_, by rw [hb]; exact hcb⟩
      rw [setNode_get_ne _ (by omega)]
      exact hcn
    · rw [setNode_get_ne _ hij] at hnj
      obtain ⟨c, hca, hic, hcl, cn, hcn, hcb⟩ := hwf.child_complete j nj chj hnj hkj q hq
      refine ⟨c, hca, hic, by rw [setNode_length]; exact hcl, ?_⟩
      by_cases hci : i = c
      · subst hci
        rw [hn] at hcn
        cases hcn
        exact ⟨n', setNode_get_self _ hilen, by rw [hb]; exact hcb⟩
      · rw [setNode_get_ne _ hci]
        exact ⟨cn, hcn, hcb⟩
  · intro j1 q1 j2 q2 c h1 h2
    exact hwf.uniq j1 q1 j2 q2 c ((setNode_ptr_iff hn n' hkiff j1 q1 c).mp h1)
      ((setNode_ptr_iff hn n' hkiff j2 q2 c).mp h2)

theorem SZ_setNode {t : QuadTreeResource K} (hsz : SZ t) {i : ℕ} {n : Node K}
    (hn : t.nodes[i]? = some n) {n' : Node K} (hb : n'.bounds = n.bounds) :
    SZ (t.setNode i n') := by
  intro j nj hnj
  by_cases hij : i = j
  · subst hij
    rw [setNode_get_self _ (lt_length_of_get_some hn)] at hnj
    cases hnj
    rw [hb]
    exact hsz i n hn
  · rw [setNode_get_ne _ hij] at hnj
    exact hsz j nj hnj

theorem SZ_subdivided {t : QuadTreeResource K} (hsz : SZ t) {b : Rect K}
    (hbx : 0 ≤ b.size.x) (hby : 0 ≤ b.size.y) : SZ (subdivided t b) := by
  intro j nj hnj
  rcases subdivided_index_cases hnj with hn2 | ⟨q2, -, -, rfl⟩
  · exact hsz j nj hn2
  · show 0 ≤ (b.sub_quadrant q2).size.x ∧ 0 ≤ (b.sub_quadrant q2).size.y
    rw [sub_quadrant_size]
    constructor
    · positivity
    · positivity

theorem LeafCell_subdivided {t : QuadTreeResource K} (hlc : LeafCell t) (b : Rect K) :
    LeafCell (subdivided t b) := by
  intro j nj e2 p2 hnj hk
  rcases subdivided_index_cases hnj with hn2 | ⟨q2, -, -, rfl⟩
  · exact hlc j nj e2 p2 hn2 hk
  · exact absurd hk (by simp [Node.empty])

theorem LeafCell_setNode {t : QuadTreeResource K} (hlc : LeafCell t) {i : ℕ} {n : Node K}
    (hn : t.nodes[i]? = some n) {n' : Node K}
    (hleaf : ∀ (e2 : ℕ) (p2 : Vec2 K), n'.kind = NodeKind.Leaf e2 p2 →
      n'.bounds.containsPt p2) :
    LeafCell (t.setNode i n') := by
  intro j nj e2 p2 hnj hk
  by_cases hij : i = j
  · subst hij
    rw [setNode_get_self _ (lt_length_of_get_some hn)] at hnj
    cases hnj
    exact hleaf e2 p2 hk
  · rw [setNode_get_ne _ hij] at hnj
    exact hlc j nj e2 p2 hnj hk

theorem PtrAt_lt_length {t : QuadTreeResource K} (hwf : WF t) {j q c : ℕ}
    (hp : PtrAt t j q c) : c < t.nodes.length := by
  obtain ⟨nn, chh, hnn, hkk, hcc⟩ := hp
  have hq := childAt_lt_four hcc
  obtain ⟨c2, hc2, -, hcl, -⟩ := hwf.child_complete j nn chh hnn hkk q hq
  rw [hcc] at hc2
  cases hc2
  exact hcl

theorem PtrAt_self_not_leaf {t : QuadTreeResource K} {i : ℕ} {n : Node K}
    (hn : t.nodes[i]? = some n) {ee : ℕ} {pp : Vec2 K} (hk : n.kind = NodeKind.Leaf ee pp)
    {q c : ℕ} : ¬ PtrAt t i q c := by
  rintro ⟨nn, chh, hnn, hkk, -⟩
  rw [hn] at hnn
  cases hnn
  rw [hk] at hkk
  exact NodeKind.noConfusion hkk

/-- Preservation master lemma for `insert_recursive`: well-formedness is
preserved, old child pointers survive unchanged, new child pointers target
freshly allocated indices, leaf (id, position) pairs are the old ones plus the
inserted body, sizes stay nonnegative, and leaf positions stay inside their
cells when the inserted position is inside the target cell. -/
theorem insertRec_wf :
    ∀ {fuel : ℕ} {t t' : QuadTreeResource K} {i e : ℕ} {p : Vec2 K} {m : K},
    WF t → QuadTreeResource.insertRec fuel t i e p m = Except.ok t' →
    WF t' ∧
    (∀ j q c : ℕ, PtrAt t j q c → PtrAt t' j q c) ∧
    (∀ j q c : ℕ, PtrAt t' j q c → PtrAt t j q c ∨ t.nodes.length ≤ c) ∧
    (∀ (j : ℕ) (n2 : Node K) (e2 : ℕ) (p2 : Vec2 K), t'.nodes[j]? = some n2 →
      n2.kind = NodeKind.Leaf e2 p2 →
      (∃ (j0 : ℕ) (n0 : Node K), t.nodes[j0]? = some n0 ∧ n0.kind = NodeKind.Leaf e2 p2) ∨
        (e2 = e ∧ p2 = p)) ∧
    (SZ t → SZ t') ∧
    (LeafCell t → (∀ n0 : Node K, t.nodes[i]? = some n0 → n0.bounds.containsPt p) →
      LeafCell t') := by
  intro fuel
  induction fuel with
  | zero =>
    intro t t' i e p m hwf h
    rw [insertRec_zero] at h
    exact Except.noConfusion h
  | succ f ih =>
    intro t t' i e p m hwf h
    obtain ⟨f0, n, hf, hn, hcases⟩ := insertRec_ok_inv h
    have hff : f0 = f := by omega
    subst hff
    have hilen := lt_length_of_get_some hn
    have pack : ∀ n' : Node K, n'.bounds = n.bounds →
        (∀ ch : Children, n.kind = NodeKind.Internal ch ↔ n'.kind = NodeKind.Internal ch) →
        (∀ (e2 : ℕ) (p2 : Vec2 K), n'.kind = NodeKind.Leaf e2 p2 →
          (∃ (j0 : ℕ) (n0 : Node K),
            t.nodes[j0]? = some n0 ∧ n0.kind = NodeKind.Leaf e2 p2) ∨ (e2 = e ∧ p2 = p)) →
        (LeafCell t → (∀ n0 : Node K, t.nodes[i]? = some n0 → n0.bounds.containsPt p) →
          ∀ (e2 : ℕ) (p2 : Vec2 K), n'.kind = NodeKind.Leaf e2 p2 →
            n'.bounds.containsPt p2) →
        (WF (t.setNode i n') ∧
          (∀ j q c : ℕ, PtrAt t j q c → PtrAt (t.setNode i n') j q c) ∧
          (∀ j q c : ℕ, PtrAt (t.setNode i n') j q c →
            PtrAt t j q c ∨ t.nodes.length ≤ c) ∧
          (∀ (j : ℕ) (n2 : Node K) (e2 : ℕ) (p2 : Vec2 K),
            (t.setNode i n').nodes[j]? = some n2 → n2.kind = NodeKind.Leaf e2 p2 →
            (∃ (j0 : ℕ) (n0 : Node K),
              t.nodes[j0]? = some n0 ∧ n0.kind = NodeKind.Leaf e2 p2) ∨
              (e2 = e ∧ p2 = p)) ∧
          (SZ t → SZ (t.setNode i n')) ∧
          (LeafCell t →
            (∀ n0 : Node K, t.nodes[i]? = some n0 → n0.bounds.containsPt p) →
            LeafCell (t.setNode i n'))) := by
      intro n' hb hkiff hlp hlcp
      refine ⟨WF_setNode hwf hn n' hb hkiff, ?_, ?_, ?_, ?_, ?_⟩
      · intro j q c hptr
        exact (setNode_ptr_iff hn n' hkiff j q c).mpr hptr
      · intro j q c hptr
        exact Or.inl ((setNode_ptr_iff hn n' hkiff j q c).mp hptr)
      · intro j n2 e2 p2 hn2 hk2
        by_cases hij : i = j
        · subst hij
          rw [setNode_get_self _ hilen] at hn2
          cases hn2
          exact hlp e2 p2 hk2
        · rw [setNode_get_ne _ hij] at hn2
          exact Or.inl ⟨j, n2, hn2, hk2⟩
      · intro hsz
        exact SZ_setNode hsz hn hb
      · intro hlc hp
        exact LeafCell_setNode hlc hn (hlcp hlc hp)
    rcases hcases with ⟨hk, ht'⟩ | ⟨ee, pp, hk, hclose, ht'⟩ |
      ⟨ee, pp, t2, t3, n3, hk, hfar, h1, h2, hn3, ht'⟩ |
      ⟨ch, hk, ⟨c, t2, n2, hc, h1, hn2, ht'⟩ | ⟨hc, ht'⟩⟩
    · subst ht'
      refine pack _ rfl ?_ ?_ ?_
      · intro ch2
        rw [hk]
        exact ⟨fun hh => NodeKind.noConfusion hh, fun hh => NodeKind.noConfusion hh⟩
      · intro e2 p2 hk2
        have := NodeKind.Leaf.inj hk2
        exact Or.inr ⟨this.1.symm, this.2.symm⟩
      · intro hlc hp e2 p2 hk2
        have := NodeKind.Leaf.inj hk2
        rw [← this.2]
        exact hp n hn
    · subst ht'
      refine pack _ rfl ?_ ?_ ?_
      · intro ch2
        exact Iff.rfl
      · intro e2 p2 hk2
        exact Or.inl ⟨i, n, hn, hk2⟩
      · intro hlc hp e2 p2 hk2
        exact hlc i n e2 p2 hn hk2
    · subst ht'
      have hqE := get_quadrant_index_lt_four n.bounds pp
      have hqN := get_quadrant_index_lt_four n.bounds p
      have ht1wf : WF (subdivided t n.bounds) := WF_subdivided hwf n.bounds
      have ht1len := subdivided_length t n.bounds
      obtain ⟨ihwf1, ihp21, ihp31, ihlp1, ihsz1, ihlc1⟩ := ih ht1wf h1
      obtain ⟨ihwf2, ihp22, ihp32, ihlp2, ihsz2, ihlc2⟩ := ih ihwf1 h2
      obtain ⟨fr1root, fr1len, fr1bounds, fr1frame⟩ := insertRec_frame h1
      obtain ⟨fr2root, fr2len, fr2bounds, fr2frame⟩ := insertRec_frame h2
      have hlen2 : t.nodes.length + 4 ≤ t2.nodes.length := by
        rw [← ht1len]
        exact fr1len
      have hlen3 : t.nodes.length + 4 ≤ t3.nodes.length := le_trans hlen2 fr2len
      have ht1i : (subdivided t n.bounds).nodes[i]? = some n := by
        rw [subdivided_get_lt hilen]
        exact hn
      have hnr1 : ¬ Reach (subdivided t n.bounds)
          (t.nodes.length + n.bounds.get_quadrant_index pp) i := by
        intro hr
        have := Reach_le ht1wf hr
        omega
      have ht2i : t2.nodes[i]? = some n := by
        rw [fr1frame i (by omega) hnr1]
        exact ht1i
      have hnr2 : ¬ Reach t2 (t.nodes.length + n.bounds.get_quadrant_index p) i := by
        intro hr
        have := Reach_le ihwf1 hr
        omega
      have ht3i : t3.nodes[i]? = some n := by
        rw [fr2frame i (by omega) hnr2]
        exact ht2i
      rw [ht3i] at hn3
      cases hn3
      have hptr3 : ∀ j q c : ℕ, PtrAt t3 j q c →
          PtrAt t j q c ∨ t.nodes.length + 4 ≤ c := by
        intro j q c h3
        rcases ihp32 j q c h3 with h2p | hge
        · rcases ihp31 j q c h2p with h1p | hge
          · exact Or.inl (PtrAt_subdivided.mp h1p)
          · rw [ht1len] at hge
            exact Or.inr hge
        · exact Or.inr (le_trans hlen2 hge)
      have hfreshb : ∀ q : ℕ, q < 4 → ∃ b3 : Node K,
          t3.nodes[t.nodes.length + q]? = some b3 ∧
          b3.bounds = n.bounds.sub_quadrant q := by
        intro q hq
        have ht1q := subdivided_get_fresh t n.bounds hq
        obtain ⟨b2, hb2⟩ := get_some_of_lt_length
          (show t.nodes.length + q < t2.nodes.length by omega)
        obtain ⟨b3, hb3⟩ := get_some_of_lt_length
          (show t.nodes.length + q < t3.nodes.length by omega)
        have e1 := fr1bounds (t.nodes.length + q) _ _ ht1q hb2
        have e2 := fr2bounds (t.nodes.length + q) _ _ hb2 hb3
        exact ⟨b3, hb3, by rw [e2, e1]; rfl⟩
      have hsplit : ∀ j q c : ℕ,
          PtrAt (t3.setNode i
            { n with
                kind := NodeKind.Internal (fourFresh t.nodes.length),
                mass := n.mass + m,
                center_of_mass :=
                  ((pp.scale n.mass).add (p.scale m)).divScalar (n.mass + m) }) j q c →
          (j = i ∧ c = t.nodes.length + q ∧ q < 4) ∨ (¬ i = j ∧ PtrAt t3 j q c) := by
        intro j q c hp2
        by_cases hij : i = j
        · subst hij
          obtain ⟨nn, chh, hnn, hkk, hcc⟩ := hp2
          rw [setNode_get_self _ (by omega)] at hnn
          cases hnn
          cases NodeKind.Internal.inj hkk
          have hq := childAt_lt_four hcc
          rw [childAt_fourFresh _ hq] at hcc
          cases hcc
          exact Or.inl ⟨rfl, rfl, hq⟩
        · exact Or.inr ⟨hij, (PtrAt_setNode_ne hij _).mp hp2⟩
      refine ⟨⟨?_, ?_⟩, ?_, ?_, ?_, ?_, ?_⟩
      · intro j nj chj hnj hkj q hq
        by_cases hij : i = j
        · subst hij
          rw [setNode_get_self _ (by omega)] at hnj
          cases hnj
          cases NodeKind.Internal.inj hkj
          obtain ⟨b3, hb3, hb3b⟩ := hfreshb q hq
          refine ⟨t.nodes.length + q, childAt_fourFresh _ hq, by omega,
            by rw [setNode_length]; omega, b3, ?_, hb3b⟩
          rw [setNode_get_ne _ (by omega)]
          exact hb3
        · rw [setNode_get_ne _ hij] at hnj
          obtain ⟨c, hca, hic, hcl, cn, hcn, hcb⟩ := ihwf2.child_complete j nj chj hnj hkj q hq
          refine ⟨c, hca, hic, by rw [setNode_length]; exact hcl, ?_⟩
          by_cases hci : i = c
          · subst hci
            rw [ht3i] at hcn
            cases hcn
            exact ⟨_, setNode_get_self _ (by omega), hcb⟩
          · rw [setNode_get_ne _ hci]
            exact ⟨cn, hcn, hcb⟩
      · intro j1 q1 j2 q2 c hp1 hp2
        rcases hsplit j1 q1 c hp1 with ⟨he1, hc1, hq1⟩ | ⟨hne1, hp1'⟩ <;>
          rcases hsplit j2 q2 c hp2 with ⟨he2, hc2, hq2⟩ | ⟨hne2, hp2'⟩
        · subst he1
          subst he2
          exact ⟨rfl, by omega⟩
        · exfalso
          rcases hptr3 j2 q2 c hp2' with hold | hge
          · have := PtrAt_lt_length hwf hold
            omega
          · omega
        · exfalso
          rcases hptr3 j1 q1 c hp1' with hold | hge
          · have := PtrAt_lt_length hwf hold
            omega
          · omega
        · exact ihwf2.uniq j1 q1 j2 q2 c hp1' hp2'
      · intro j q c hp2
        have hij : ¬ i = j := by
          intro hh
          subst hh
          exact PtrAt_self_not_leaf hn hk hp2
        refine (PtrAt_setNode_ne hij _).mpr ?_
        exact ihp22 j q c (ihp21 j q c (PtrAt_subdivided.mpr hp2))
      · intro j q c hp2
        rcases hsplit j q c hp2 with ⟨-, hc1, -⟩ | ⟨-, hp2'⟩
        · exact Or.inr (by omega)
        · rcases hptr3 j q c hp2' with hold | hge
          · exact Or.inl hold
          · exact Or.inr (by omega)
      · intro j n2 e2 p2 hn2 hk2
        by_cases hij : i = j
        · subst hij
          rw [setNode_get_self _ (by omega)] at hn2
          cases hn2
          exact absurd hk2 (by simp)
        · rw [setNode_get_ne _ hij] at hn2
          rcases ihlp2 j n2 e2 p2 hn2 hk2 with ⟨j0, n0, hn0, hk0⟩ | hnew
          · rcases ihlp1 j0 n0 e2 p2 hn0 hk0 with ⟨j1, n1, hn1, hk1⟩ | hnew1
            · rcases subdivided_index_cases hn1 with hn1t | ⟨q2, -, -, rfl⟩
              · exact Or.inl ⟨j1, n1, hn1t, hk1⟩
              · exact absurd hk1 (by simp [Node.empty])
            · exact Or.inl ⟨i, n, hn, by rw [hk, hnew1.1, hnew1.2]⟩
          · exact Or.inr hnew
      · intro hsz
        have hsz1 : SZ (subdivided t n.bounds) :=
          SZ_subdivided hsz (hsz i n hn).1 (hsz i n hn).2
        exact SZ_setNode (ihsz2 (ihsz1 hsz1)) ht3i rfl
      · intro hlc hp
        have hlc1 : LeafCell (subdivided t n.bounds) := LeafCell_subdivided hlc n.bounds
        have hppB : n.bounds.containsPt pp := hlc i n ee pp hn hk
        have hlc2 : LeafCell t2 := by
          refine ihlc1 hlc1 ?_
          intro n0 hn0
          rw [subdivided_get_fresh t n.bounds hqE] at hn0
          cases hn0
          exact containsPt_sub_quadrant hppB
        have hlc3 : LeafCell t3 := by
          refine ihlc2 hlc2 ?_
          intro n0 hn0
          have ht1q := subdivided_get_fresh t n.bounds hqN
          have hbeq := fr1bounds (t.nodes.length + n.bounds.get_quadrant_index p) _ _ ht1q hn0
          rw [hbeq]
          show (n.bounds.sub_quadrant (n.bounds.get_quadrant_index p)).containsPt p
          exact containsPt_sub_quadrant (hp n hn)
        refine LeafCell_setNode hlc3 ht3i ?_
        intro e2 p2 hk2
        exact absurd hk2 (by simp)
    · subst ht'
      have hco : ChildOf t i c := ⟨n, ch, hn, hk, mem_of_childAt hc⟩
      obtain ⟨ihwf1, ihp21, ihp31, ihlp1, ihsz1, ihlc1⟩ := ih hwf h1
      obtain ⟨fr1root, fr1len, fr1bounds, fr1frame⟩ := insertRec_frame h1
      have hnr : ¬ Reach t c i := by
        intro hr
        have h1l := Reach_le hwf hr
        have h2l := ChildOf_lt hwf hco
        omega
      have ht2i : t2.nodes[i]? = some n := by
        rw [fr1frame i hilen hnr]
        exact hn
      rw [ht2i] at hn2
      cases hn2
      have hkiff2 : ∀ ch2 : Children, n.kind = NodeKind.Internal ch2 ↔
          ({ n with
              mass := n.mass + m,
              center_of_mass :=
                ((n.center_of_mass.scale n.mass).add (p.scale m)).divScalar (n.mass + m),
              kind := NodeKind.Internal ch } : Node K).kind = NodeKind.Internal ch2 := by
        intro ch2
        rw [hk]
      refine ⟨WF_setNode ihwf1 ht2i _ rfl hkiff2, ?_, ?_, ?_, ?_, ?_⟩
      · intro j q c2 hp2
        exact (setNode_ptr_iff ht2i _ hkiff2 j q c2).mpr (ihp21 j q c2 hp2)
      · intro j q c2 hp2
        exact ihp31 j q c2 ((setNode_ptr_iff ht2i _ hkiff2 j q c2).mp hp2)
      · intro j n2 e2 p2 hn2b hk2
        by_cases hij : i = j
        · subst hij
          rw [setNode_get_self _ (lt_length_of_get_some ht2i)] at hn2b
          cases hn2b
          exact absurd hk2 (by simp)
        · rw [setNode_get_ne _ hij] at hn2b
          exact ihlp1 j n2 e2 p2 hn2b hk2
      · intro hsz
        exact SZ_setNode (ihsz1 hsz) ht2i rfl
      · intro hlc hp
        refine LeafCell_setNode (ihlc1 hlc ?_) ht2i ?_
        · intro n0 hn0
          have hq := get_quadrant_index_lt_four n.bounds p
          obtain ⟨c2, hc2, -, -, cn, hcn, hcb⟩ := hwf.child_complete i n ch hn hk _ hq
          rw [hc] at hc2
          cases hc2
          rw [hcn] at hn0
          cases hn0
          rw [hcb]
          exact containsPt_sub_quadrant (hp n hn)
        · intro e2 p2 hk2
          exact absurd hk2 (by simp)
    · subst ht'
      refine pack _ rfl ?_ ?_ ?_
      · intro ch2
        rw [hk]
      · intro e2 p2 hk2
        exact absurd hk2 (by simp)
      · intro hlc hp e2 p2 hk2
        exact absurd hk2 (by simp)

/-- More fuel never changes a successful insertion. -/
theorem insertRec_mono :
    ∀ {fuel fuel2 : ℕ} {t t' : QuadTreeResource K} {i e : ℕ} {p : Vec2 K} {m : K},
    fuel ≤ fuel2 → QuadTreeResource.insertRec fuel t i e p m = Except.ok t' →
    QuadTreeResource.insertRec fuel2 t i e p m = Except.ok t' := by
  intro fuel
  induction fuel with
  | zero =>
    intro fuel2 t t' i e p m hle h
    rw [insertRec_zero] at h
    exact Except.noConfusion h
  | succ f ih =>
    intro fuel2 t t' i e p m hle h
    cases fuel2 with
    | zero => omega
    | succ f2 =>
      have hle2 : f ≤ f2 := by omega
      obtain ⟨f0, n, hf, hn, hcases⟩ := insertRec_ok_inv h
      have hff : f0 = f := by omega
      subst hff
      rcases hcases with ⟨hk, ht'⟩ | ⟨ee, pp, hk, hclose, ht'⟩ |
        ⟨ee, pp, t2, t3, n3, hk, hfar, h1, h2, hn3, ht'⟩ |
        ⟨ch, hk, ⟨c, t2, n2, hc, h1, hn2, ht'⟩ | ⟨hc, ht'⟩⟩
      · rw [insertRec_empty_step hn hk f2, ht']
      · rw [insertRec_merge_step hn hk hclose f2, ht']
      · rw [insertRec_split_step hn hk hfar f2]
        simp only [ih hle2 h1, ih hle2 h2, hn3, ht']
      · rw [insertRec_internal_step hn hk f2]
        simp only [hc, ih hle2 h1, hn2, ht']
      · rw [insertRec_internal_step hn hk f2]
        simp only [hc, hn, ht']

theorem insert_mono {fuel fuel2 : ℕ} {t t' : QuadTreeResource K} {e : ℕ} {p : Vec2 K} {m : K}
    (hle : fuel ≤ fuel2) (h : t.insert fuel e p m = Except.ok t') :
    t.insert fuel2 e p m = Except.ok t' := by
  unfold QuadTreeResource.insert at h ⊢
  cases hr : t.root with
  | none =>
    rw [hr] at h
    exact h
  | some r =>
    rw [hr] at h
    exact insertRec_mono hle h

theorem insertAll_mono :
    ∀ {bodies : List (Body K)} {fuel fuel2 : ℕ} {t t' : QuadTreeResource K},
    fuel ≤ fuel2 → insertAll fuel t bodies = Except.ok t' →
    insertAll fuel2 t bodies = Except.ok t' := by
  intro bodies
  induction bodies with
  | nil =>
    intro fuel fuel2 t t' hle h
    simpa [insertAll] using h
  | cons b rest ih =>
    intro fuel fuel2 t t' hle h
    rw [insertAll] at h ⊢
    cases h1 : t.insert fuel b.entity b.pos b.mass with
    | error e2 =>
      rw [h1] at h
      exact Except.noConfusion h
    | ok t2 =>
      rw [h1] at h
      rw [insert_mono hle h1]
      exact ih hle h

theorem calcForceRec_zero (sqb : K → K) (t : QuadTreeResource K) (i target : ℕ)
    (pos : Vec2 K) (config : SimConfig K) :
    QuadTreeResource.calcForceRec sqb 0 t i target pos config = Except.error Err.fuel := rfl

theorem calcForceRec_oob {t : QuadTreeResource K} {i : ℕ} (hn : t.nodes[i]? = none)
    (sqb : K → K) (f target : ℕ) (pos : Vec2 K) (config : SimConfig K) :
    QuadTreeResource.calcForceRec sqb (f + 1) t i target pos config =
      Except.error Err.oob := by
  simp only [QuadTreeResource.calcForceRec, hn]

theorem calcForceRec_empty {t : QuadTreeResource K} {i : ℕ} {n : Node K}
    (hn : t.nodes[i]? = some n) (hk : n.kind = NodeKind.Empty) (sqb : K → K) (f target : ℕ)
    (pos : Vec2 K) (config : SimConfig K) :
    QuadTreeResource.calcForceRec sqb (f + 1) t i target pos config =
      Except.ok Vec2.zero := by
  simp only [QuadTreeResource.calcForceRec, hn, hk]

theorem calcForceRec_leaf {t : QuadTreeResource K} {i : ℕ} {n : Node K} {entity : ℕ}
    {pos0 : Vec2 K} (hn : t.nodes[i]? = some n) (hk : n.kind = NodeKind.Leaf entity pos0)
    (sqb : K → K) (f target : ℕ) (pos : Vec2 K) (config : SimConfig K) :
    QuadTreeResource.calcForceRec sqb (f + 1) t i target pos config =
      (if entity = target then Except.ok Vec2.zero
       else
        Except.ok
          (((pos0.sub pos).divScalar
              (sqb ((pos0.sub pos).length_squared + SOFTENING * SOFTENING))).scale
            (config.g * n.mass / ((pos0.sub pos).length_squared + SOFTENING * SOFTENING)))) := by
  simp only [QuadTreeResource.calcForceRec, hn, hk]

theorem calcForceRec_internal {t : QuadTreeResource K} {i : ℕ} {n : Node K} {ch : Children}
    (hn : t.nodes[i]? = some n) (hk : n.kind = NodeKind.Internal ch) (sqb : K → K)
    (f target : ℕ) (pos : Vec2 K) (config : SimConfig K) :
    QuadTreeResource.calcForceRec sqb (f + 1) t i target pos config =
      (if n.bounds.size.x /
          max (sqb ((n.center_of_mass.sub pos).length_squared)) (1 / 10000) <
          config.theta then
        Except.ok
          (((n.center_of_mass.sub pos).divScalar
              (max (sqb ((n.center_of_mass.sub pos).length_squared)) (1 / 10000))).scale
            (config.g * n.mass /
              (max (sqb ((n.center_of_mass.sub pos).length_squared)) (1 / 10000) *
                  max (sqb ((n.center_of_mass.sub pos).length_squared)) (1 / 10000) +
                SOFTENING * SOFTENING)))
       else
        (match (match ch.c0 with
                | some c => QuadTreeResource.calcForceRec sqb f t c target pos config
                | none => Except.ok Vec2.zero) with
         | Except.error e2 => Except.error e2
         | Except.ok f0 =>
           match (match ch.c1 with
                  | some c => QuadTreeResource.calcForceRec sqb f t c target pos config
                  | none => Except.ok Vec2.zero) with
           | Except.error e2 => Except.error e2
           | Except.ok f1 =>
             match (match ch.c2 with
                    | some c => QuadTreeResource.calcForceRec sqb f t c target pos config
                    | none => Except.ok Vec2.zero) with
             | Except.error e2 => Except.error e2
             | Except.ok f2 =>
               match (match ch.c3 with
                      | some c => QuadTreeResource.calcForceRec sqb f t c target pos config
                      | none => Except.ok Vec2.zero) with
               | Except.error e2 => Except.error e2
               | Except.ok f3 =>
                 Except.ok ((((Vec2.zero.add f0).add f1).add f2).add f3))) := by
  simp only [QuadTreeResource.calcForceRec, hn, hk]

/-- With enough fuel (arena length minus index suffices), the fueled force
recursion succeeds on a well-formed arena and computes `forceAt`. -/
theorem calcForceRec_ok {sqb : K → K} {config : SimConfig K} {target : ℕ} {pos : Vec2 K}
    {t : QuadTreeResource K} (hwf : WF t) :
    ∀ {fuel i : ℕ}, i < t.nodes.length → t.nodes.length - i ≤ fuel →
    QuadTreeResource.calcForceRec sqb (fuel + 1) t i target pos config =
      Except.ok (forceAt sqb config target pos t i) := by
  intro fuel
  induction fuel with
  | zero =>
    intro i hi hf
    omega
  | succ f ih =>
    intro i hi hf
    obtain ⟨n, hn⟩ := get_some_of_lt_length hi
    cases hk : n.kind with
    | Empty =>
      rw [calcForceRec_empty hn hk, forceAt_some hn]
      simp only [hk]
    | Leaf entity pos0 =>
      rw [calcForceRec_leaf hn hk, forceAt_some hn]
      simp only [hk]
      by_cases he : entity = target
      · rw [if_pos he, if_pos he]
      · rw [if_neg he, if_neg he]
    | Internal ch =>
      rw [calcForceRec_internal hn hk, forceAt_some hn]
      simp only [hk]
      by_cases hth : n.bounds.size.x /
          max (sqb ((n.center_of_mass.sub pos).length_squared)) (1 / 10000) < config.theta
      · rw [if_pos hth, if_pos hth]
      · rw [if_neg hth, if_neg hth]
        have hchild : ∀ c? : Option ℕ, (∀ c2, c? = some c2 → ch.mem c2) →
            (match c? with
             | some c => QuadTreeResource.calcForceRec sqb (f + 1) t c target pos config
             | none => Except.ok Vec2.zero) =
              Except.ok (childForceB sqb config target pos t i c?) := by
          intro c? hmem
          cases c? with
          | none => rfl
          | some c =>
            have hco : ChildOf t i c := ⟨n, ch, hn, hk, hmem c rfl⟩
            have hic := ChildOf_lt hwf hco
            have hcl := ChildOf_lt_length hwf hco
            show QuadTreeResource.calcForceRec sqb (f + 1) t c target pos config =
              Except.ok (childForceB sqb config target pos t i (some c))
            rw [ih hcl (by omega)]
            simp only [childForceB, dif_pos hic]
        rw [hchild ch.c0 (fun c2 hcc => Or.inl hcc),
          hchild ch.c1 (fun c2 hcc => Or.inr (Or.inl hcc)),
          hchild ch.c2 (fun c2 hcc => Or.inr (Or.inr (Or.inl hcc))),
          hchild ch.c3 (fun c2 hcc => Or.inr (Or.inr (Or.inr hcc)))]

/-- Any successful run of the fueled force recursion on a well-formed arena
computes `forceAt`. -/
theorem calcForceRec_ok_eq {sqb : K → K} {config : SimConfig K} {target : ℕ} {pos : Vec2 K}
    {t : QuadTreeResource K} (hwf : WF t) :
    ∀ {fuel i : ℕ} {F : Vec2 K},
    QuadTreeResource.calcForceRec sqb fuel t i target pos config = Except.ok F →
    F = forceAt sqb config target pos t i := by
  intro fuel
  induction fuel with
  | zero =>
    intro i F h
    rw [calcForceRec_zero] at h
    exact Except.noConfusion h
  | succ f ih =>
    intro i F h
    cases hn : t.nodes[i]? with
    | none =>
      rw [calcForceRec_oob hn] at h
      exact Except.noConfusion h
    | some n =>
      cases hk : n.kind with
      | Empty =>
        rw [calcForceRec_empty hn hk] at h
        rw [forceAt_some hn]
        simp only [hk]
        exact (Except.ok.inj h).symm
      | Leaf entity pos0 =>
        rw [calcForceRec_leaf hn hk] at h
        rw [forceAt_some hn]
        simp only [hk]
        by_cases he : entity = target
        · rw [if_pos he] at h
          rw [if_pos he]
          exact (Except.ok.inj h).symm
        · rw [if_neg he] at h
          rw [if_neg he]
          exact (Except.ok.inj h).symm
      | Internal ch =>
        rw [calcForceRec_internal hn hk] at h
        rw [forceAt_some hn]
        simp only [hk]
        by_cases hth : n.bounds.size.x /
            max (sqb ((n.center_of_mass.sub pos).length_squared)) (1 / 10000) < config.theta
        · rw [if_pos hth] at h
          rw [if_pos hth]
          exact (Except.ok.inj h).symm
        · rw [if_neg hth] at h
          rw [if_neg hth]
          have hchild : ∀ (c? : Option ℕ) (Fc : Vec2 K), (∀ c2, c? = some c2 → ch.mem c2) →
              (match c? with
               | some c => QuadTreeResource.calcForceRec sqb f t c target pos config
               | none => Except.ok Vec2.zero) = Except.ok Fc →
              Fc = childForceB sqb config target pos t i c? := by
            intro c? Fc hmem hc
            cases c? with
            | none => exact (Except.ok.inj hc).symm
            | some c =>
              have hco : ChildOf t i c := ⟨n, ch, hn, hk, hmem c rfl⟩
              have hic := ChildOf_lt hwf hco
              have hFc : Fc = forceAt sqb config target pos t c := ih hc
              rw [hFc]
              show _ = childForceB sqb config target pos t i (some c)
              simp only [childForceB, dif_pos hic]
          cases hc0 : (match ch.c0 with
              | some c => QuadTreeResource.calcForceRec sqb f t c target pos config
              | none => Except.ok Vec2.zero) with
          | error e2 =>
            rw [hc0] at h
            exact Except.noConfusion h
          | ok F0 =>
            rw [hc0] at h
            cases hc1 : (match ch.c1 with
                | some c => QuadTreeResource.calcForceRec sqb f t c target pos config
                | none => Except.ok Vec2.zero) with
            | error e2 =>
              rw [hc1] at h
              exact Except.noConfusion h
            | ok F1 =>
              rw [hc1] at h
              cases hc2 : (match ch.c2 with
                  | some c => QuadTreeResource.calcForceRec sqb f t c target pos config
                  | none => Except.ok Vec2.zero) with
              | error e2 =>
                rw [hc2] at h
                exact Except.noConfusion h
              | ok F2 =>
                rw [hc2] at h
                cases hc3 : (match ch.c3 with
                    | some c => QuadTreeResource.calcForceRec sqb f t c target pos config
                    | none => Except.ok Vec2.zero) with
                | error e2 =>
                  rw [hc3] at h
                  exact Except.noConfusion h
                | ok F3 =>
                  rw [hc3] at h
                  rw [hchild ch.c0 F0 (fun c2 hcc => Or.inl hcc) hc0,
                    hchild ch.c1 F1 (fun c2 hcc => Or.inr (Or.inl hcc)) hc1,
                    hchild ch.c2 F2 (fun c2 hcc => Or.inr (Or.inr (Or.inl hcc))) hc2,
                    hchild ch.c3 F3 (fun c2 hcc => Or.inr (Or.inr (Or.inr hcc))) hc3] at h
                  exact (Except.ok.inj h).symm

theorem WF_reset (t0 : QuadTreeResource K) (bounds : Rect K) : WF (t0.reset bounds) := by
  constructor
  · intro i n ch hn hk q hq
    cases i with
    | zero =>
      simp only [QuadTreeResource.reset, List.getElem?_cons_zero, Option.some.injEq] at hn
      subst hn
      simp [Node.empty] at hk
    | succ i2 => simp [QuadTreeResource.reset] at hn
  · rintro j1 q1 j2 q2 c ⟨n, ch, hn, hk, -⟩ -
    cases j1 with
    | zero =>
      simp only [QuadTreeResource.reset, List.getElem?_cons_zero, Option.some.injEq] at hn
      subst hn
      simp [Node.empty] at hk
    | succ j3 => simp [QuadTreeResource.reset] at hn

theorem insert_ok_inv {fuel : ℕ} {t t' : QuadTreeResource K} {e : ℕ} {p : Vec2 K} {m : K}
    (h : t.insert fuel e p m = Except.ok t') :
    (t.root = none ∧ t' = t) ∨
      (∃ r, t.root = some r ∧ QuadTreeResource.insertRec fuel t r e p m = Except.ok t') := by
  unfold QuadTreeResource.insert at h
  cases hr : t.root with
  | none =>
    rw [hr] at h
    exact Or.inl ⟨rfl, (Except.ok.inj h).symm⟩
  | some r =>
    rw [hr] at h
    exact Or.inr ⟨r, rfl, h⟩

theorem Reachable_wf {t : QuadTreeResource K} (h : Reachable t) : WF t := by
  induction h with
  | reset t0 bounds => exact WF_reset t0 bounds
  | insert hre hins ih =>
    rcases insert_ok_inv hins with ⟨-, rfl⟩ | ⟨r, hr, hrec⟩
    · exact ih
    · exact (insertRec_wf ih hrec).1

theorem Reachable_root {t : QuadTreeResource K} (h : Reachable t) :
    t.root = some 0 ∧ 0 < t.nodes.length := by
  induction h with
  | reset t0 bounds => exact ⟨rfl, by simp [QuadTreeResource.reset]⟩
  | insert hre hins ih =>
    rcases insert_ok_inv hins with ⟨hnone, rfl⟩ | ⟨r, hr, hrec⟩
    · exact ih
    · obtain ⟨hroot, hlen, -, -⟩ := insertRec_frame hrec
      exact ⟨hroot.trans ih.1, lt_of_lt_of_le ih.2 hlen⟩

/-- On a well-formed arena, an in-bounds insertion never goes out of bounds
(it can only run out of fuel). -/
theorem insertRec_no_oob :
    ∀ {fuel : ℕ} {t : QuadTreeResource K} {i e : ℕ} {p : Vec2 K} {m : K},
    WF t → i < t.nodes.length →
    QuadTreeResource.insertRec fuel t i e p m ≠ Except.error Err.oob := by
  intro fuel
  induction fuel with
  | zero =>
    intro t i e p m hwf hi h
    rw [insertRec_zero] at h
    exact Err.noConfusion (Except.error.inj h)
  | succ f ih =>
    intro t i e p m hwf hi h
    obtain ⟨n, hn⟩ := get_some_of_lt_length hi
    cases hk : n.kind with
    | Empty =>
      rw [insertRec_empty_step hn hk] at h
      exact Except.noConfusion h
    | Leaf ee pp =>
      by_cases hclose : (pp.sub p).length_squared < 1 / 10000
      · rw [insertRec_merge_step hn hk hclose] at h
        exact Except.noConfusion h
      · rw [insertRec_split_step hn hk hclose] at h
        have ht1wf := WF_subdivided hwf n.bounds
        have ht1len := subdivided_length t n.bounds
        have hqE := get_quadrant_index_lt_four n.bounds pp
        have hqN := get_quadrant_index_lt_four n.bounds p
        cases h1 : QuadTreeResource.insertRec f (subdivided t n.bounds)
            (t.nodes.length + n.bounds.get_quadrant_index pp) ee pp n.mass with
        | error e2 =>
          simp only [h1] at h
          have : e2 ≠ Err.oob := fun hh =>
            ih ht1wf (by omega) (hh ▸ h1)
          exact this (Except.error.inj h)
        | ok t2 =>
          simp only [h1] at h
          have ht2wf := (insertRec_wf ht1wf h1).1
          have hl2 : t.nodes.length + 4 ≤ t2.nodes.length := by
            have := (insertRec_frame h1).2.1
            omega
          cases h2 : QuadTreeResource.insertRec f t2
              (t.nodes.length + n.bounds.get_quadrant_index p) e p m with
          | error e2 =>
            simp only [h2] at h
            have : e2 ≠ Err.oob := fun hh => ih ht2wf (by omega) (hh ▸ h2)
            exact this (Except.error.inj h)
          | ok t3 =>
            simp only [h2] at h
            have hl3 : t.nodes.length ≤ t3.nodes.length :=
              le_trans (by omega) (insertRec_frame h2).2.1
            obtain ⟨n3, hn3⟩ := get_some_of_lt_length (show i < t3.nodes.length by omega)
            simp only [hn3] at h
            exact Except.noConfusion h
    | Internal ch =>
      rw [insertRec_internal_step hn hk] at h
      cases hc : ch.childAt (n.bounds.get_quadrant_index p) with
      | none =>
        simp only [hc, hn] at h
        exact Except.noConfusion h
      | some c =>
        simp only [hc] at h
        have hco : ChildOf t i c := ⟨n, ch, hn, hk, mem_of_childAt hc⟩
        have hcl := ChildOf_lt_length hwf hco
        cases h1 : QuadTreeResource.insertRec f t c e p m with
        | error e2 =>
          simp only [h1] at h
          have : e2 ≠ Err.oob := fun hh => ih hwf hcl (hh ▸ h1)
          exact this (Except.error.inj h)
        | ok t2 =>
          simp only [h1] at h
          have hl2 : t.nodes.length ≤ t2.nodes.length := (insertRec_frame h1).2.1
          obtain ⟨n2, hn2⟩ := get_some_of_lt_length (show i < t2.nodes.length by omega)
          simp only [hn2] at h
          exact Except.noConfusion h

/-- On a well-formed arena, an in-bounds force query never goes out of
bounds. -/
theorem calcForceRec_no_oob :
    ∀ {fuel : ℕ} {t : QuadTreeResource K} {i target : ℕ} {pos : Vec2 K}
      {config : SimConfig K} {sqb : K → K},
    WF t → i < t.nodes.length →
    QuadTreeResource.calcForceRec sqb fuel t i target pos config ≠ Except.error Err.oob := by
  intro fuel
  induction fuel with
  | zero =>
    intro t i target pos config sqb hwf hi h
    rw [calcForceRec_zero] at h
    exact Err.noConfusion (Except.error.inj h)
  | succ f ih =>
    intro t i target pos config sqb hwf hi h
    obtain ⟨n, hn⟩ := get_some_of_lt_length hi
    cases hk : n.kind with
    | Empty =>
      rw [calcForceRec_empty hn hk] at h
      exact Except.noConfusion h
    | Leaf entity pos0 =>
      rw [calcForceRec_leaf hn hk] at h
      by_cases he : entity = target
      · rw [if_pos he] at h
        exact Except.noConfusion h
      · rw [if_neg he] at h
        exact Except.noConfusion h
    | Internal ch =>
      rw [calcForceRec_internal hn hk] at h
      by_cases hth : n.bounds.size.x /
          max (sqb ((n.center_of_mass.sub pos).length_squared)) (1 / 10000) < config.theta
      · rw [if_pos hth] at h
        exact Except.noConfusion h
      · rw [if_neg hth] at h
        have hchild : ∀ c? : Option ℕ, (∀ c2, c? = some c2 → ch.mem c2) →
            ∀ e2 : Err, (match c? with
              | some c => QuadTreeResource.calcForceRec sqb f t c target pos config
              | none => Except.ok Vec2.zero) = Except.error e2 → e2 ≠ Err.oob := by
          intro c? hmem e2 hc
          cases c? with
          | none => exact Except.noConfusion hc
          | some c =>
            intro hh
            subst hh
            exact ih hwf (ChildOf_lt_length hwf ⟨n, ch, hn, hk, hmem c rfl⟩) hc
        cases hc0 : (match ch.c0 with
            | some c => QuadTreeResource.calcForceRec sqb f t c target pos config
            | none => Except.ok Vec2.zero) with
        | error e2 =>
          simp only [hc0] at h
          exact hchild ch.c0 (fun c2 hcc => Or.inl hcc) e2 hc0 (Except.error.inj h)
        | ok F0 =>
          simp only [hc0] at h
          cases hc1 : (match ch.c1 with
              | some c => QuadTreeResource.calcForceRec sqb f t c target pos config
              | none => Except.ok Vec2.zero) with
          | error e2 =>
            simp only [hc1] at h
            exact hchild ch.c1 (fun c2 hcc => Or.inr (Or.inl hcc)) e2 hc1
              (Except.error.inj h)
          | ok F1 =>
            simp only [hc1] at h
            cases hc2 : (match ch.c2 with
                | some c => QuadTreeResource.calcForceRec sqb f t c target pos config
                | none => Except.ok Vec2.zero) with
            | error e2 =>
              simp only [hc2] at h
              exact hchild ch.c2 (fun c2 hcc => Or.inr (Or.inr (Or.inl hcc))) e2 hc2
                (Except.error.inj h)
            | ok F2 =>
              simp only [hc2] at h
              cases hc3 : (match ch.c3 with
                  | some c => QuadTreeResource.calcForceRec sqb f t c target pos config
                  | none => Except.ok Vec2.zero) with
              | error e2 =>
                simp only [hc3] at h
                exact hchild ch.c3 (fun c2 hcc => Or.inr (Or.inr (Or.inr hcc))) e2 hc3
                  (Except.error.inj h)
              | ok F3 =>
                simp only [hc3] at h
                exact Except.noConfusion h

/-- C10: in every reachable tree, every internal node has all four child slots
populated with in-bounds indices allocated after the node itself, and as a
consequence neither `insert` nor `calculate_force` can ever take the
out-of-bounds (panicking) branch on such a tree, whatever the fuel. -/
theorem C10_no_out_of_bounds (t : QuadTreeResource ℚ) (h : Reachable t) :
    (∀ (i : ℕ) (n : Node ℚ) (ch : Children), t.nodes[i]? = some n →
      n.kind = NodeKind.Internal ch →
      ∀ q, q < 4 → ∃ c, ch.childAt q = some c ∧ i < c ∧ c < t.nodes.length) ∧
    (∀ (fuel e : ℕ) (p : Vec2 ℚ) (m : ℚ), t.insert fuel e p m ≠ Except.error Err.oob) ∧
    (∀ (sqb : ℚ → ℚ) (fuel target : ℕ) (pos : Vec2 ℚ) (config : SimConfig ℚ),
      t.calculate_force sqb fuel target pos config ≠ Except.error Err.oob) := by
  have hwf := Reachable_wf h
  obtain ⟨hroot, hlen⟩ := Reachable_root h
  refine ⟨?_, ?_, ?_⟩
  · intro i n ch hn hk q hq
    obtain ⟨c, hca, hic, hcl, -⟩ := hwf.child_complete i n ch hn hk q hq
    exact ⟨c, hca, hic, hcl⟩
  · intro fuel e p m hbad
    unfold QuadTreeResource.insert at hbad
    rw [hroot] at hbad
    exact insertRec_no_oob hwf hlen hbad
  · intro sqb fuel target pos config hbad
    unfold QuadTreeResource.calculate_force at hbad
    rw [hroot] at hbad
    exact calcForceRec_no_oob hwf hlen hbad

/-- C10 witness: concrete reachable two-body tree; neither operation errors
with `oob` at concrete inputs. -/
theorem C10_no_out_of_bounds_witness :
    (freshQT (⟨⟨0, 0⟩, ⟨10, 10⟩⟩ : Rect ℚ)).insert 1 7 ⟨2, 3⟩ 1 ≠ Except.error Err.oob ∧
    (freshQT (⟨⟨0, 0⟩, ⟨10, 10⟩⟩ : Rect ℚ)).calculate_force id 0 7 ⟨2, 3⟩ ⟨100, 1 / 2, 1 / 60⟩ ≠
      Except.error Err.oob := by
  have h := C10_no_out_of_bounds (freshQT ⟨⟨0, 0⟩, ⟨10, 10⟩⟩)
    (Reachable.reset ⟨[], none⟩ ⟨⟨0, 0⟩, ⟨10, 10⟩⟩)
  exact ⟨h.2.1 1 7 ⟨2, 3⟩ 1, h.2.2 id 0 7 ⟨2, 3⟩ ⟨100, 1 / 2, 1 / 60⟩⟩

theorem vec_add_eq (a b : Vec2 K) : a + b = a.add b := rfl

theorem vec_zero_eq : (0 : Vec2 K) = Vec2.zero := rfl

theorem Vec2.divScalar_scale_cancel {v : Vec2 K} {s : K} (hs : s ≠ 0) :
    (v.divScalar s).scale s = v := by
  cases v with
  | mk x y => simp [Vec2.divScalar, Vec2.scale, div_mul_cancel₀ _ hs]

theorem Vec2.eq_divScalar {v w : Vec2 K} {s : K} (hs : s ≠ 0) (h : v.scale s = w) :
    v = w.divScalar s := by
  cases v with
  | mk x y =>
    cases w with
    | mk wx wy =>
      simp only [Vec2.scale, Vec2.divScalar, Vec2.mk.injEq] at h ⊢
      refine ⟨?_, ?_⟩
      · rw [← h.1, mul_div_cancel_right₀ _ hs]
      · rw [← h.2, mul_div_cancel_right₀ _ hs]

theorem massSum_nil : massSum ([] : List (Body K)) = 0 := rfl

theorem massSum_append_one (L : List (Body K)) (b : Body K) :
    massSum (L ++ [b]) = massSum L + b.mass := by
  simp [massSum]

theorem momentSum_append_one (L : List (Body K)) (b : Body K) :
    momentSum (L ++ [b]) = momentSum L + b.pos.scale b.mass := by
  simp [momentSum]

theorem massSum_nonneg {L : List (Body K)} (hpos : ∀ b ∈ L, 0 < b.mass) : 0 ≤ massSum L := by
  refine List.sum_nonneg ?_
  intro x hx
  obtain ⟨b, hb, rfl⟩ := List.mem_map.mp hx
  exact le_of_lt (hpos b hb)

theorem insert_root_mass_step {t t' : QuadTreeResource K} {fuel e : ℕ} {p : Vec2 K}
    {m total : K} (hinv : RootMassInv t total) (h : t.insert fuel e p m = Except.ok t') :
    RootMassInv t' (total + m) := by
  obtain ⟨hroot, hwf, n, hn, hemp, hmass⟩ := hinv
  rcases insert_ok_inv h with ⟨hnone, -⟩ | ⟨r, hr, hrec⟩
  · rw [hroot] at hnone
    exact Option.noConfusion hnone
  · rw [hroot] at hr
    cases Option.some.inj hr
    have hlen0 := lt_length_of_get_some hn
    obtain ⟨hfroot, hflen, -, -⟩ := insertRec_frame hrec
    have hwf2 := (insertRec_wf hwf hrec).1
    have hroot2 : t'.root = some 0 := hfroot.trans hroot
    obtain ⟨f0, n0, hf, hn0, hcases⟩ := insertRec_ok_inv hrec
    rw [hn] at hn0
    cases hn0
    refine ⟨hroot2, hwf2, ?_⟩
    rcases hcases with ⟨hk, ht'⟩ | ⟨ee, pp, hk, hclose, ht'⟩ |
      ⟨ee, pp, t2, t3, n3, hk, hfar, h1, h2, hn3, ht'⟩ |
      ⟨ch, hk, ⟨c, t2, n2, hc, h1, hn2, ht'⟩ | ⟨hc, ht'⟩⟩
    · subst ht'
      refine ⟨_, setNode_get_self _ hlen0, ?_, ?_⟩
      · intro hk2
        exact absurd hk2 (by simp)
      · show m = total + m
        rw [← hmass, hemp hk, zero_add]
    · subst ht'
      refine ⟨_, setNode_get_self _ hlen0, ?_, ?_⟩
      · intro hk2
        exact absurd (hk.symm.trans hk2) (by simp)
      · show n.mass + m = total + m
        rw [hmass]
    · subst ht'
      have hl3 : 0 < t3.nodes.length := by
        have l1 := (insertRec_frame h1).2.1
        have l2 := (insertRec_frame h2).2.1
        rw [subdivided_length] at l1
        omega
      refine ⟨_, setNode_get_self _ hl3, ?_, ?_⟩
      · intro hk2
        exact absurd hk2 (by simp)
      · show n.mass + m = total + m
        rw [hmass]
    · subst ht'
      have hco : ChildOf t 0 c := ⟨n, ch, hn, hk, mem_of_childAt hc⟩
      have hnr : ¬ Reach t c 0 := by
        intro hrr
        have := Reach_le hwf hrr
        have := ChildOf_lt hwf hco
        omega
      have ht2 : t2.nodes[0]? = some n := by
        rw [(insertRec_frame h1).2.2.2 0 hlen0 hnr]
        exact hn
      rw [ht2] at hn2
      cases hn2
      have hl2 : 0 < t2.nodes.length := lt_of_lt_of_le hlen0 (insertRec_frame h1).2.1
      refine ⟨_, setNode_get_self _ hl2, ?_, ?_⟩
      · intro hk2
        exact absurd hk2 (by simp)
      · show n.mass + m = total + m
        rw [hmass]
    · subst ht'
      refine ⟨_, setNode_get_self _ hlen0, ?_, ?_⟩
      · intro hk2
        exact absurd hk2 (by simp)
      · show n.mass + m = total + m
        rw [hmass]

theorem insert_root_com_step {t t' : QuadTreeResource K} {fuel : ℕ} {b : Body K}
    {L : List (Body K)} (hinv : RootComInv t L)
    (hsep : ∀ q : Vec2 K, (∃ b1 ∈ L, b1.pos = q) →
      ¬ (q.sub b.pos).length_squared < 1 / 10000)
    (hm : 0 < b.mass) (h0 : 0 ≤ massSum L)
    (h : t.insert fuel b.entity b.pos b.mass = Except.ok t') :
    RootComInv t' (L ++ [b]) := by
  obtain ⟨hroot, hwf, hlpos, n, hn, hmass, hkemp, hcom, hleafmom⟩ := hinv
  rcases insert_ok_inv h with ⟨hnone, -⟩ | ⟨r, hr, hrec⟩
  · rw [hroot] at hnone
    exact Option.noConfusion hnone
  · rw [hroot] at hr
    cases Option.some.inj hr
    have hlen0 := lt_length_of_get_some hn
    obtain ⟨hfroot, hflen, -, -⟩ := insertRec_frame hrec
    obtain ⟨hwf2, -, -, hpairs, -, -⟩ := insertRec_wf hwf hrec
    have hroot2 : t'.root = some 0 := hfroot.trans hroot
    have hlpos2 : LeafPosIn t' (fun q => ∃ b1 ∈ L ++ [b], b1.pos = q) := by
      intro j nj e2 p2 hnj hkj
      rcases hpairs j nj e2 p2 hnj hkj with ⟨j0, n0, hn0, hk0⟩ | ⟨-, rfl⟩
      · obtain ⟨b1, hb1, hb1p⟩ := hlpos j0 n0 e2 p2 hn0 hk0
        exact ⟨b1, List.mem_append_left _ hb1, hb1p⟩
      · exact ⟨b, List.mem_append_right _ (by simp), rfl⟩
    have htot : (0 : K) < massSum L + b.mass := by positivity
    have htotne : massSum L + b.mass ≠ 0 := ne_of_gt htot
    obtain ⟨f0, n0, hf, hn0, hcases⟩ := insertRec_ok_inv hrec
    rw [hn] at hn0
    cases hn0
    refine ⟨hroot2, hwf2, hlpos2, ?_⟩
    rcases hcases with ⟨hk, ht'⟩ | ⟨ee, pp, hk, hclose, ht'⟩ |
      ⟨ee, pp, t2, t3, n3, hk, hfar, h1, h2, hn3, ht'⟩ |
      ⟨ch, hk, ⟨c, t2, n2, hc, h1, hn2, ht'⟩ | ⟨hc, ht'⟩⟩
    · subst ht'
      have hLnil : L = [] := hkemp.mp hk
      subst hLnil
      refine ⟨_, setNode_get_self _ hlen0, ?_, ?_, ?_, ?_⟩
      · show b.mass = massSum [b]
        simp [massSum]
      · constructor
        · intro hk2
          exact absurd hk2 (by simp)
        · intro hnil
          exact absurd hnil (by simp)
      · show b.pos.scale b.mass = momentSum [b]
        simp [momentSum]
      · intro ee pp hkl
        have := NodeKind.Leaf.inj hkl
        rw [← this.2]
        show b.pos.scale b.mass = momentSum [b]
        simp [momentSum]
    · exfalso
      have hppL : ∃ b1 ∈ L, b1.pos = pp := hlpos 0 n ee pp hn hk
      exact hsep pp hppL hclose
    · subst ht'
      have hl3 : 0 < t3.nodes.length := by
        have l1 := (insertRec_frame h1).2.1
        have l2 := (insertRec_frame h2).2.1
        rw [subdivided_length] at l1
        omega
      have hmom : pp.scale n.mass = momentSum L := hleafmom ee pp hk
      refine ⟨_, setNode_get_self _ hl3, ?_, ?_, ?_, ?_⟩
      · show n.mass + b.mass = massSum (L ++ [b])
        rw [massSum_append_one, hmass]
      · constructor
        · intro hk2
          exact absurd hk2 (by simp)
        · intro hnil
          exact absurd hnil (by simp)
      · show (((pp.scale n.mass).add (b.pos.scale b.mass)).divScalar
            (n.mass + b.mass)).scale (n.mass + b.mass) = momentSum (L ++ [b])
        rw [Vec2.divScalar_scale_cancel (by rw [hmass]; exact htotne)]
        rw [momentSum_append_one, hmom, vec_add_eq]
      · intro ee2 pp2 hkl
        exact absurd hkl (by simp)
    · subst ht'
      have hco : ChildOf t 0 c := ⟨n, ch, hn, hk, mem_of_childAt hc⟩
      have hnr : ¬ Reach t c 0 := by
        intro hrr
        have := Reach_le hwf hrr
        have := ChildOf_lt hwf hco
        omega
      have ht2 : t2.nodes[0]? = some n := by
        rw [(insertRec_frame h1).2.2.2 0 hlen0 hnr]
        exact hn
      rw [ht2] at hn2
      cases hn2
      have hl2 : 0 < t2.nodes.length := lt_of_lt_of_le hlen0 (insertRec_frame h1).2.1
      refine ⟨_, setNode_get_self _ hl2, ?_, ?_, ?_, ?_⟩
      · show n.mass + b.mass = massSum (L ++ [b])
        rw [massSum_append_one, hmass]
      · constructor
        · intro hk2
          exact absurd hk2 (by simp)
        · intro hnil
          have : n.kind = NodeKind.Empty := hkemp.mpr (by simp_all)
          rw [hk] at this
          exact NodeKind.noConfusion this
      · show (((n.center_of_mass.scale n.mass).add (b.pos.scale b.mass)).divScalar
            (n.mass + b.mass)).scale (n.mass + b.mass) = momentSum (L ++ [b])
        rw [Vec2.divScalar_scale_cancel (by rw [hmass]; exact htotne)]
        rw [momentSum_append_one, hcom, vec_add_eq]
      · intro ee2 pp2 hkl
        exact absurd hkl (by simp)
    · subst ht'
      have hq := get_quadrant_index_lt_four n.bounds b.pos
      obtain ⟨c2, hc2, -, -, -⟩ := hwf.child_complete 0 n ch hn hk _ hq
      rw [hc] at hc2
      exact Option.noConfusion hc2

theorem RootMassInv_reset (t0 : QuadTreeResource K) (bounds : Rect K) :
    RootMassInv (t0.reset bounds) 0 :=
  ⟨rfl, WF_reset t0 bounds, Node.empty bounds, rfl, fun _ => rfl, rfl⟩

theorem RootComInv_reset (t0 : QuadTreeResource K) (bounds : Rect K) :
    RootComInv (t0.reset bounds) [] := by
  refine ⟨rfl, WF_reset t0 bounds, ?_, Node.empty bounds, rfl, rfl, ?_, ?_, ?_⟩
  · intro i n e p hn hk
    cases i with
    | zero =>
      simp only [QuadTreeResource.reset, List.getElem?_cons_zero, Option.some.injEq] at hn
      subst hn
      simp [Node.empty] at hk
    | succ j => simp [QuadTreeResource.reset] at hn
  · simp [Node.empty]
  · show Vec2.zero.scale (0 : K) = momentSum []
    simp [Vec2.zero, Vec2.scale, momentSum, vec_zero_eq]
  · intro ee pp hk
    simp [Node.empty] at hk

theorem massSum_pos {L : List (Body K)} (hne : L ≠ []) (hpos : ∀ b ∈ L, 0 < b.mass) :
    0 < massSum L := by
  cases L with
  | nil => exact absurd rfl hne
  | cons b rest =>
    have h1 : 0 < b.mass := hpos b (by simp)
    have h2 : 0 ≤ massSum rest := massSum_nonneg (fun b1 hb1 => hpos b1 (by simp [hb1]))
    have h3 : massSum (b :: rest) = b.mass + massSum rest := by simp [massSum]
    rw [h3]
    linarith

theorem sep_symm {a b : Body K}
    (h : 1 / 10000 ≤ ((a.pos).sub (b.pos)).length_squared) :
    1 / 10000 ≤ ((b.pos).sub (a.pos)).length_squared := by
  have he : ((b.pos).sub (a.pos)).length_squared = ((a.pos).sub (b.pos)).length_squared := by
    simp only [Vec2.sub, Vec2.length_squared]
    ring
  rw [he]
  exact h

theorem insertAll_root_mass {fuel : ℕ} {L : List (Body K)} :
    ∀ {t t' : QuadTreeResource K} {total : K},
      RootMassInv t total → insertAll fuel t L = Except.ok t' →
      RootMassInv t' (total + massSum L) := by
  induction L with
  | nil =>
    intro t t' total hinv h
    simp only [insertAll] at h
    cases Except.ok.inj h
    simpa [massSum] using hinv
  | cons b rest ih =>
    intro t t' total hinv h
    simp only [insertAll] at h
    cases hins : t.insert fuel b.entity b.pos b.mass with
    | error e =>
      simp only [hins] at h
      exact Except.noConfusion h
    | ok t2 =>
      simp only [hins] at h
      have h3 := ih (insert_root_mass_step hinv hins) h
      have he : total + b.mass + massSum rest = total + massSum (b :: rest) := by
        simp only [massSum, List.map_cons, List.sum_cons]
        ring
      rwa [he] at h3

theorem insertAll_root_com {fuel : ℕ} {L : List (Body K)} :
    ∀ {t t' : QuadTreeResource K} {Acc : List (Body K)},
      RootComInv t Acc →
      List.Pairwise (fun a b : Body K =>
        1 / 10000 ≤ ((a.pos).sub (b.pos)).length_squared) (Acc ++ L) →
      (∀ b ∈ Acc ++ L, 0 < b.mass) →
      insertAll fuel t L = Except.ok t' →
      RootComInv t' (Acc ++ L) := by
  induction L with
  | nil =>
    intro t t' Acc hinv hp hm h
    simp only [insertAll] at h
    cases Except.ok.inj h
    simpa using hinv
  | cons b rest ih =>
    intro t t' Acc hinv hp hm h
    simp only [insertAll] at h
    cases hins : t.insert fuel b.entity b.pos b.mass with
    | error e =>
      simp only [hins] at h
      exact Except.noConfusion h
    | ok t2 =>
      simp only [hins] at h
      obtain ⟨hpA, hpR, hcross⟩ := List.pairwise_append.mp hp
      have hsep : ∀ q : Vec2 K, (∃ b1 ∈ Acc, b1.pos = q) →
          ¬ (q.sub b.pos).length_squared < 1 / 10000 := by
        rintro q ⟨b1, hb1, rfl⟩
        exact not_lt.mpr (hcross b1 hb1 b (by simp))
      have hmb : 0 < b.mass := hm b (by simp)
      have h0 : 0 ≤ massSum Acc :=
        massSum_nonneg (fun b1 hb1 => hm b1 (List.mem_append_left _ hb1))
      have hinv2 := insert_root_com_step hinv hsep hmb h0 hins
      have hp2 : List.Pairwise (fun a b : Body K =>
          1 / 10000 ≤ ((a.pos).sub (b.pos)).length_squared) ((Acc ++ [b]) ++ rest) := by
        rw [← List.append_cons]
        exact hp
      have hm2 : ∀ b1 ∈ (Acc ++ [b]) ++ rest, 0 < b1.mass := by
        intro b1 hb1
        refine hm b1 ?_
        rw [List.append_cons]
        exact hb1
      have h3 := ih hinv2 hp2 hm2 h
      rwa [← List.append_cons] at h3

/-- C7 (corrected): rebuilding the index from the same body multiset in two
insertion orders yields equal root mass unconditionally; when the bodies are
pairwise separated by squared distance at least `1e-4` (so no merges occur),
have positive masses and the list is non-empty, the root center of mass is
also identical in exact arithmetic (tree shapes may still differ). -/
theorem C7_root_aggregates_order_independent {fuel1 fuel2 : ℕ}
    {t01 t02 t1 t2 : QuadTreeResource K} {bounds1 bounds2 : Rect K}
    {L1 L2 : List (Body K)} (hperm : L1.Perm L2)
    (h1 : insertAll fuel1 (t01.reset bounds1) L1 = Except.ok t1)
    (h2 : insertAll fuel2 (t02.reset bounds2) L2 = Except.ok t2) :
    (∀ n1 n2 : Node K, rootNode? t1 = some n1 → rootNode? t2 = some n2 →
      n1.mass = n2.mass) ∧
    (List.Pairwise (fun a b : Body K =>
        1 / 10000 ≤ ((a.pos).sub (b.pos)).length_squared) L1 →
      (∀ b ∈ L1, 0 < b.mass) → L1 ≠ [] →
      ∀ n1 n2 : Node K, rootNode? t1 = some n1 → rootNode? t2 = some n2 →
        n1.center_of_mass = n2.center_of_mass) := by
  have hms : massSum L1 = massSum L2 := (hperm.map Body.mass).sum_eq
  have hmom : momentSum L1 = momentSum L2 := by
    simp only [momentSum]
    exact List.Perm.sum_eq (hperm.map (fun b : Body K => b.pos.scale b.mass))
  constructor
  · intro n1 n2 hn1 hn2
    obtain ⟨hr1, -, m1, hm1, -, hmass1⟩ :=
      insertAll_root_mass (RootMassInv_reset t01 bounds1) h1
    obtain ⟨hr2, -, m2, hm2, -, hmass2⟩ :=
      insertAll_root_mass (RootMassInv_reset t02 bounds2) h2
    simp only [rootNode?, hr1, hm1, Option.some.injEq] at hn1
    simp only [rootNode?, hr2, hm2, Option.some.injEq] at hn2
    subst hn1
    subst hn2
    rw [hmass1, hmass2, zero_add, zero_add, hms]
  · intro hpair hpos hne n1 n2 hn1 hn2
    have hpair2 : List.Pairwise (fun a b : Body K =>
        1 / 10000 ≤ ((a.pos).sub (b.pos)).length_squared) L2 :=
      hpair.perm hperm (fun h => sep_symm h)
    have hpos2 : ∀ b ∈ L2, 0 < b.mass := fun b hb => hpos b (hperm.mem_iff.mpr hb)
    obtain ⟨hr1, -, -, m1, hm1, hmass1, -, hcom1, -⟩ :=
      insertAll_root_com (RootComInv_reset t01 bounds1) hpair hpos h1
    obtain ⟨hr2, -, -, m2, hm2, hmass2, -, hcom2, -⟩ :=
      insertAll_root_com (RootComInv_reset t02 bounds2) hpair2 hpos2 h2
    simp only [List.nil_append] at hmass1 hcom1 hmass2 hcom2
    simp only [rootNode?, hr1, hm1, Option.some.injEq] at hn1
    simp only [rootNode?, hr2, hm2, Option.some.injEq] at hn2
    subst hn1
    subst hn2
    have hp1 : (0 : K) < massSum L1 := massSum_pos hne hpos
    have hp2 : (0 : K) < massSum L2 := by rw [← hms]; exact hp1
    rw [hmass1] at hcom1
    rw [hmass2] at hcom2
    rw [Vec2.eq_divScalar (ne_of_gt hp1) hcom1,
      Vec2.eq_divScalar (ne_of_gt hp2) hcom2, hms, hmom]

/-- C7 witness: the same single body (entity 1 at `(1,2)`, mass 5) inserted
twice in the (trivially permuted) same order yields equal root mass and
center of mass. -/
theorem C7_root_aggregates_order_independent_witness :
    ∃ t1 : QuadTreeResource ℚ,
      insertAll 1 ((⟨[], none⟩ : QuadTreeResource ℚ).reset ⟨⟨0, 0⟩, ⟨10, 10⟩⟩)
        [⟨1, ⟨1, 2⟩, 5⟩] = Except.ok t1 ∧
      ∀ n1 n2 : Node ℚ, rootNode? t1 = some n1 → rootNode? t1 = some n2 →
        n1.mass = n2.mass ∧ n1.center_of_mass = n2.center_of_mass := by
  have h1 : insertAll 1 ((⟨[], none⟩ : QuadTreeResource ℚ).reset ⟨⟨0, 0⟩, ⟨10, 10⟩⟩)
      [⟨1, ⟨1, 2⟩, 5⟩] =
      Except.ok ⟨[{ bounds := ⟨⟨0, 0⟩, ⟨10, 10⟩⟩, center_of_mass := ⟨1, 2⟩, mass := 5,
                    kind := NodeKind.Leaf 1 ⟨1, 2⟩ }], some 0⟩ := by
    norm_num [insertAll, QuadTreeResource.reset, QuadTreeResource.insert,
      QuadTreeResource.insertRec, QuadTreeResource.setNode, Node.empty]
  refine ⟨_, h1, ?_⟩
  intro n1 n2 hn1 hn2
  have h := C7_root_aggregates_order_independent (List.Perm.refl [(⟨1, ⟨1, 2⟩, 5⟩ : Body ℚ)])
    h1 h1
  refine ⟨h.1 n1 n2 hn1 hn2, h.2 ?_ ?_ ?_ n1 n2 hn1 hn2⟩
  · simp
  · intro b hb
    simp only [List.mem_singleton] at hb
    subst hb
    norm_num
  · simp

/-- C7 counterexample: three unit-mass bodies at pairwise merge-close
positions `(0,0)`, `(1e-3,0)`, `(0,1e-3)`.  The two insertion orders
`[A,B,C]` and `[A,C,B]` are permutations of each other and both succeed, the
root masses agree, but the root centers of mass differ (`(0,1/3000)` versus
`(1/3000,0)`): the merge update folds the new position against the leaf's
stored position rather than its accumulated center of mass, so with merges
the root center of mass is order-dependent. -/
theorem C7_counterexample :
    List.Perm
      [(⟨1, ⟨0, 0⟩, 1⟩ : Body ℚ), ⟨2, ⟨1 / 1000, 0⟩, 1⟩, ⟨3, ⟨0, 1 / 1000⟩, 1⟩]
      [⟨1, ⟨0, 0⟩, 1⟩, ⟨3, ⟨0, 1 / 1000⟩, 1⟩, ⟨2, ⟨1 / 1000, 0⟩, 1⟩] ∧
    ∃ t1 t2 : QuadTreeResource ℚ,
      insertAll 1 ((⟨[], none⟩ : QuadTreeResource ℚ).reset ⟨⟨0, 0⟩, ⟨2000, 2000⟩⟩)
        [⟨1, ⟨0, 0⟩, 1⟩, ⟨2, ⟨1 / 1000, 0⟩, 1⟩, ⟨3, ⟨0, 1 / 1000⟩, 1⟩] = Except.ok t1 ∧
      insertAll 1 ((⟨[], none⟩ : QuadTreeResource ℚ).reset ⟨⟨0, 0⟩, ⟨2000, 2000⟩⟩)
        [⟨1, ⟨0, 0⟩, 1⟩, ⟨3, ⟨0, 1 / 1000⟩, 1⟩, ⟨2, ⟨1 / 1000, 0⟩, 1⟩] = Except.ok t2 ∧
      ∃ n1 n2 : Node ℚ, rootNode? t1 = some n1 ∧ rootNode? t2 = some n2 ∧
        n1.mass = n2.mass ∧ n1.center_of_mass ≠ n2.center_of_mass := by
  refine ⟨List.Perm.cons _ (List.Perm.swap _ _ _), ?_⟩
  have e1 : insertAll 1 ((⟨[], none⟩ : QuadTreeResource ℚ).reset ⟨⟨0, 0⟩, ⟨2000, 2000⟩⟩)
      [⟨1, ⟨0, 0⟩, 1⟩, ⟨2, ⟨1 / 1000, 0⟩, 1⟩, ⟨3, ⟨0, 1 / 1000⟩, 1⟩] =
      Except.ok ⟨[{ bounds := ⟨⟨0, 0⟩, ⟨2000, 2000⟩⟩, center_of_mass := ⟨0, 1 / 3000⟩,
                    mass := 3, kind := NodeKind.Leaf 1 ⟨0, 0⟩ }], some 0⟩ := by
    norm_num [insertAll, QuadTreeResource.reset, QuadTreeResource.insert,
      QuadTreeResource.insertRec, QuadTreeResource.setNode, Node.empty, Vec2.sub,
      Vec2.length_squared, Vec2.scale, Vec2.add, Vec2.divScalar]
  have e2 : insertAll 1 ((⟨[], none⟩ : QuadTreeResource ℚ).reset ⟨⟨0, 0⟩, ⟨2000, 2000⟩⟩)
      [⟨1, ⟨0, 0⟩, 1⟩, ⟨3, ⟨0, 1 / 1000⟩, 1⟩, ⟨2, ⟨1 / 1000, 0⟩, 1⟩] =
      Except.ok ⟨[{ bounds := ⟨⟨0, 0⟩, ⟨2000, 2000⟩⟩, center_of_mass := ⟨1 / 3000, 0⟩,
                    mass := 3, kind := NodeKind.Leaf 1 ⟨0, 0⟩ }], some 0⟩ := by
    norm_num [insertAll, QuadTreeResource.reset, QuadTreeResource.insert,
      QuadTreeResource.insertRec, QuadTreeResource.setNode, Node.empty, Vec2.sub,
      Vec2.length_squared, Vec2.scale, Vec2.add, Vec2.divScalar]
  refine ⟨_, _, e1, e2, _, _, rfl, rfl, rfl, ?_⟩
  simp only [ne_eq, Vec2.mk.injEq, not_and]
  intro h
  norm_num at h

theorem scale_zero (v : Vec2 K) : v.scale 0 = Vec2.zero := by
  simp [Vec2.scale, Vec2.zero]

theorem zero_add_vec (v : Vec2 K) : Vec2.zero.add v = v := by
  simp [Vec2.add, Vec2.zero]

theorem add_zero_vec (v : Vec2 K) : v.add Vec2.zero = v := by
  simp [Vec2.add, Vec2.zero]

theorem Reach_snoc {t : QuadTreeResource K} {a b : ℕ} (h : Reach t a b) :
    ∀ c : ℕ, ChildOf t b c → Reach t a c := by
  induction h with
  | refl i => exact fun c hc => Reach.step hc (Reach.refl c)
  | step hco hr ih => exact fun c hc => Reach.step hco (ih c hc)

theorem Reach_back {t t2 : QuadTreeResource K} {a : ℕ}
    (heq : ∀ k, Reach t a k → t2.nodes[k]? = t.nodes[k]?) :
    ∀ {b j : ℕ}, Reach t2 b j → Reach t a b → Reach t a j := by
  intro b j h
  induction h with
  | refl i => exact fun hb => hb
  | step hco hr ih =>
    intro hb
    rename_i i c j2
    obtain ⟨n, ch, hn, hk, hmm⟩ := hco
    rw [heq i hb] at hn
    exact ih (Reach_snoc hb c ⟨n, ch, hn, hk, hmm⟩)

theorem Reach_agree {t t2 : QuadTreeResource K} {a : ℕ}
    (heq : ∀ k, Reach t a k → t2.nodes[k]? = t.nodes[k]?) (j : ℕ) :
    Reach t2 a j ↔ Reach t a j :=
  ⟨fun h => Reach_back heq h (Reach.refl a), fun h => Reach_congr h heq⟩

theorem Reach_comparable {t : QuadTreeResource K} (hwf : WF t) {i j k : ℕ}
    (h1 : Reach t i k) : Reach t j k → Reach t i j ∨ Reach t j i := by
  induction h1 with
  | refl i2 => exact fun h2 => Or.inr h2
  | step hco hr ih =>
    intro h2
    rcases ih h2 with hcj | hjc
    · exact Or.inl (Reach.step hco hcj)
    · rcases Reach_to_parent hwf hco hjc with he | hji
      · subst he
        exact Or.inl (Reach.step hco (Reach.refl _))
      · exact Or.inr hji

theorem Reach_mono {t t2 : QuadTreeResource K}
    (hp : ∀ j q c : ℕ, PtrAt t j q c → PtrAt t2 j q c) {a b : ℕ} (h : Reach t a b) :
    Reach t2 a b := by
  induction h with
  | refl i => exact Reach.refl i
  | step hco hr ih =>
    obtain ⟨n, ch, hn, hk, hmm⟩ := hco
    obtain ⟨q, -, hq⟩ := childAt_of_mem hmm
    obtain ⟨n2, ch2, hn2, hk2, hq2⟩ := hp _ q _ ⟨n, ch, hn, hk, hq⟩
    exact Reach.step ⟨n2, ch2, hn2, hk2, mem_of_childAt hq2⟩ ih

theorem InvAt_untouched {t t2 : QuadTreeResource K} {j : ℕ}
    (heq : ∀ k, Reach t j k → t2.nodes[k]? = t.nodes[k]?) (hinv : InvAt t j) : InvAt t2 j := by
  intro n hn
  rw [heq j (Reach.refl j)] at hn
  obtain ⟨h1, h2, h3, h4⟩ := hinv n hn
  rw [massBelow_congr heq, momentBelow_congr heq]
  exact ⟨h1, h2, h3, h4⟩

theorem InvAt_oob {t : QuadTreeResource K} {j : ℕ} (h : t.nodes.length ≤ j) : InvAt t j := by
  intro n hn
  rw [List.getElem?_eq_none h] at hn
  exact Option.noConfusion hn

theorem InvAt_of_empty {t : QuadTreeResource K} {j : ℕ} {n : Node K}
    (hn : t.nodes[j]? = some n) (hk : n.kind = NodeKind.Empty) (hb : n.mass = 0) :
    InvAt t j := by
  intro n2 hn2
  rw [hn] at hn2
  cases Option.some.inj hn2
  have hmb : massBelow t j = 0 := by rw [massBelow_some hn, hk]
  have hmo : momentBelow t j = Vec2.zero := by rw [momentBelow_some hn, hk]
  refine ⟨by rw [hmb, hb], ?_, ?_, ?_⟩
  · rw [hmo, hb, scale_zero]
  · intro e q hkl
    rw [hk] at hkl
    exact NodeKind.noConfusion hkl
  · intro hne
    exact absurd hk hne

theorem InvAt_of_leaf {t : QuadTreeResource K} {j e : ℕ} {n : Node K} {q : Vec2 K}
    (hn : t.nodes[j]? = some n) (hk : n.kind = NodeKind.Leaf e q)
    (hc : n.center_of_mass = q) (hpos : 0 < n.mass) : InvAt t j := by
  intro n2 hn2
  rw [hn] at hn2
  cases Option.some.inj hn2
  have hmb : massBelow t j = n.mass := by rw [massBelow_some hn, hk]
  have hmo : momentBelow t j = q.scale n.mass := by rw [momentBelow_some hn, hk]
  refine ⟨hmb.symm, ?_, ?_, fun _ => hpos⟩
  · rw [hmo, hc]
  · intro e2 q2 hkl
    rw [hk] at hkl
    have hinj := NodeKind.Leaf.inj hkl
    rw [hc, hinj.2]

theorem insertRec_fresh_reach :
    ∀ {fuel : ℕ} {t t' : QuadTreeResource K} {i e : ℕ} {p : Vec2 K} {m : K},
    WF t → QuadTreeResource.insertRec fuel t i e p m = Except.ok t' →
    ∀ j : ℕ, t.nodes.length ≤ j → j < t'.nodes.length → Reach t' i j := by
  intro fuel
  induction fuel with
  | zero =>
    intro t t' i e p m hwf h
    rw [insertRec_zero] at h
    exact Except.noConfusion h
  | succ f ih =>
    intro t t' i e p m hwf h j hge hlt
    obtain ⟨f0, n, hf, hn, hcases⟩ := insertRec_ok_inv h
    have hff : f0 = f := by omega
    subst hff
    have hilen := lt_length_of_get_some hn
    rcases hcases with ⟨hk, ht'⟩ | ⟨ee, pp, hk, hclose, ht'⟩ |
      ⟨ee, pp, t2, t3, n3, hk, hfar, h1, h2, hn3, ht'⟩ |
      ⟨ch, hk, ⟨c, t2, n2, hc, h1, hn2, ht'⟩ | ⟨hc, ht'⟩⟩
    · subst ht'
      rw [setNode_length] at hlt
      omega
    · subst ht'
      rw [setNode_length] at hlt
      omega
    · rename_i hsplit
      subst ht'
      rw [setNode_length] at hlt
      have hq1 : n.bounds.get_quadrant_index pp < 4 := get_quadrant_index_lt_four _ _
      have hq2 : n.bounds.get_quadrant_index p < 4 := get_quadrant_index_lt_four _ _
      have hn1 : (subdivided t n.bounds).nodes[t.nodes.length +
          n.bounds.get_quadrant_index pp]? =
          some (Node.empty (n.bounds.sub_quadrant (n.bounds.get_quadrant_index pp))) :=
        subdivided_get_fresh t n.bounds hq1
      have ht2 := insertRec_into_empty h1 hn1 rfl
      have hl1 : (subdivided t n.bounds).nodes.length = t.nodes.length + 4 :=
        subdivided_length t n.bounds
      have hl2 : t2.nodes.length = t.nodes.length + 4 := by
        rw [ht2, setNode_length, hl1]
      have hwf1 : WF (subdivided t n.bounds) := WF_subdivided hwf n.bounds
      have hwf2 : WF t2 := by
        rw [ht2]
        refine WF_setNode hwf1 hn1 _ rfl ?_
        intro ch2
        constructor
        · intro hh
          exact absurd hh (by simp [Node.empty])
        · intro hh
          exact absurd hh (by simp)
      have hwf3 : WF t3 := (insertRec_wf hwf2 h2).1
      have hlen3 : t.nodes.length + 4 ≤ t3.nodes.length := by
        have hfr2 := (insertRec_frame h2).2.1
        rw [hl2] at hfr2
        exact hfr2
      have hilen3 : i < t3.nodes.length := by omega
      have hgi : (t3.setNode i
          { n3 with kind := NodeKind.Internal (fourFresh t.nodes.length),
                    mass := n.mass + m,
                    center_of_mass :=
                      ((pp.scale n.mass).add (p.scale m)).divScalar (n.mass + m) }).nodes[i]? =
          some { n3 with kind := NodeKind.Internal (fourFresh t.nodes.length),
                         mass := n.mass + m,
                         center_of_mass :=
                           ((pp.scale n.mass).add (p.scale m)).divScalar (n.mass + m) } :=
        setNode_get_self _ hilen3
      by_cases hj4 : j < t.nodes.length + 4
      · refine Reach.step ⟨_, fourFresh t.nodes.length, hgi, rfl, ?_⟩ (Reach.refl j)
        rw [mem_fourFresh_iff]
        omega
      · have hfr : Reach t3 (t.nodes.length + n.bounds.get_quadrant_index p) j := by
          refine ih hwf2 h2 j ?_ hlt
          rw [hl2]
          omega
        have heq3 : ∀ k, Reach t3 (t.nodes.length + n.bounds.get_quadrant_index p) k →
            (t3.setNode i
              { n3 with kind := NodeKind.Internal (fourFresh t.nodes.length),
                        mass := n.mass + m,
                        center_of_mass :=
                          ((pp.scale n.mass).add
                            (p.scale m)).divScalar (n.mass + m) }).nodes[k]? =
              t3.nodes[k]? := by
          intro k hk2
          have hkge := Reach_le hwf3 hk2
          exact setNode_get_ne _ (by omega)
        refine Reach.step ⟨_, fourFresh t.nodes.length, hgi, rfl, ?_⟩
          (Reach_congr hfr heq3)
        rw [mem_fourFresh_iff]
        omega
    · subst ht'
      rw [setNode_length] at hlt
      have hic : i < c := ChildOf_lt hwf ⟨n, ch, hn, hk, mem_of_childAt hc⟩
      have hwf2 : WF t2 := (insertRec_wf hwf h1).1
      have hfr : Reach t2 c j := ih hwf h1 j hge hlt
      have heq2 : ∀ k, Reach t2 c k →
          (t2.setNode i
            { n2 with mass := n2.mass + m,
                      center_of_mass :=
                        ((n2.center_of_mass.scale n2.mass).add
                          (p.scale m)).divScalar (n2.mass + m),
                      kind := NodeKind.Internal ch }).nodes[k]? = t2.nodes[k]? := by
        intro k hk2
        have hkge := Reach_le hwf2 hk2
        exact setNode_get_ne _ (by omega)
      have hgi : (t2.setNode i
          { n2 with mass := n2.mass + m,
                    center_of_mass :=
                      ((n2.center_of_mass.scale n2.mass).add
                        (p.scale m)).divScalar (n2.mass + m),
                    kind := NodeKind.Internal ch }).nodes[i]? =
          some { n2 with mass := n2.mass + m,
                         center_of_mass :=
                           ((n2.center_of_mass.scale n2.mass).add
                             (p.scale m)).divScalar (n2.mass + m),
                         kind := NodeKind.Internal ch } :=
        setNode_get_self _ (lt_of_lt_of_le hilen (insertRec_frame h1).2.1)
      exact Reach.step ⟨_, ch, hgi, rfl, mem_of_childAt hc⟩ (Reach_congr hfr heq2)
    · subst ht'
      rw [setNode_length] at hlt
      omega

theorem agg_split_branch {f : ℕ} {t t2 t3 TT : QuadTreeResource K} {i e ee q1 q2 : ℕ}
    {p pp : Vec2 K} {m : K} {n n3 : Node K}
    (ih : AggStmt K f)
    (hwf : WF t) (hm : 0 < m) (hM : 0 < n.mass)
    (hn : t.nodes[i]? = some n) (hk : n.kind = NodeKind.Leaf ee pp)
    (hfar : ¬ (pp.sub p).length_squared < 1 / 10000)
    (hq1 : q1 < 4) (hq2 : q2 < 4)
    (h1 : QuadTreeResource.insertRec f (subdivided t n.bounds) (t.nodes.length + q1) ee pp
      n.mass = Except.ok t2)
    (h2 : QuadTreeResource.insertRec f t2 (t.nodes.length + q2) e p m = Except.ok t3)
    (hn3 : t3.nodes[i]? = some n3)
    (hTT : TT = t3.setNode i
      { n3 with kind := NodeKind.Internal (fourFresh t.nodes.length),
                mass := n.mass + m,
                center_of_mass :=
                  ((pp.scale n.mass).add (p.scale m)).divScalar (n.mass + m) }) :
    (∀ j : ℕ, Reach TT i j → InvAt TT j) ∧
    massBelow TT i = massBelow t i + m ∧
    momentBelow TT i = (momentBelow t i).add (p.scale m) := by
  have hilen : i < t.nodes.length := lt_length_of_get_some hn
  have hn1 : (subdivided t n.bounds).nodes[t.nodes.length + q1]? =
      some (Node.empty (n.bounds.sub_quadrant q1)) := subdivided_get_fresh t n.bounds hq1
  have ht2 := insertRec_into_empty h1 hn1 rfl
  have hl1 : (subdivided t n.bounds).nodes.length = t.nodes.length + 4 :=
    subdivided_length t n.bounds
  have hl2 : t2.nodes.length = t.nodes.length + 4 := by rw [ht2, setNode_length, hl1]
  have hwf1 : WF (subdivided t n.bounds) := WF_subdivided hwf n.bounds
  have hwf2 : WF t2 := by
    rw [ht2]
    refine WF_setNode hwf1 hn1 _ rfl ?_
    intro ch2
    constructor
    · intro hh
      exact absurd hh (by simp [Node.empty])
    · intro hh
      exact absurd hh (by simp)
  have hwf3 : WF t3 := (insertRec_wf hwf2 h2).1
  have hlen3 : t.nodes.length + 4 ≤ t3.nodes.length := by
    have hfr2 := (insertRec_frame h2).2.1
    rw [hl2] at hfr2
    exact hfr2
  have hilen3 : i < t3.nodes.length := by omega
  have hTTi : TT.nodes[i]? =
      some { n3 with kind := NodeKind.Internal (fourFresh t.nodes.length),
                     mass := n.mass + m,
                     center_of_mass :=
                       ((pp.scale n.mass).add (p.scale m)).divScalar (n.mass + m) } := by
    rw [hTT]
    exact setNode_get_self _ hilen3
  have hn2free : ∀ q : ℕ, q < 4 → q ≠ q1 →
      t2.nodes[t.nodes.length + q]? = some (Node.empty (n.bounds.sub_quadrant q)) := by
    intro q hq hne
    rw [ht2, setNode_get_ne _ (by omega)]
    exact subdivided_get_fresh t n.bounds hq
  have hn2q1 : t2.nodes[t.nodes.length + q1]? =
      some { Node.empty (n.bounds.sub_quadrant q1) with
             kind := NodeKind.Leaf ee pp, mass := n.mass, center_of_mass := pp } := by
    rw [ht2]
    exact setNode_get_self _ (by rw [hl1]; omega)
  have hsing : ∀ q : ℕ, q < 4 → ∀ x : ℕ, Reach t2 (t.nodes.length + q) x →
      x = t.nodes.length + q := by
    intro q hq x hx
    by_cases hqq : q = q1
    · subst hqq
      exact Reach_singleton hn2q1 (fun ch2 => by simp) hx
    · exact Reach_singleton (hn2free q hq hqq) (fun ch2 => by simp [Node.empty]) hx
  have hInv2 : ∀ q : ℕ, q < 4 → InvAt t2 (t.nodes.length + q) := by
    intro q hq
    by_cases hqq : q = q1
    · subst hqq
      exact InvAt_of_leaf hn2q1 rfl rfl hM
    · exact InvAt_of_empty (hn2free q hq hqq) rfl rfl
  have hmb2 : ∀ q : ℕ, q < 4 →
      massBelow t2 (t.nodes.length + q) = if q = q1 then n.mass else 0 := by
    intro q hq
    by_cases hqq : q = q1
    · subst hqq
      rw [massBelow_some hn2q1]
      simp
    · rw [massBelow_some (hn2free q hq hqq)]
      simp [Node.empty, hqq]
  have hmo2 : ∀ q : ℕ, q < 4 →
      momentBelow t2 (t.nodes.length + q) =
        if q = q1 then pp.scale n.mass else Vec2.zero := by
    intro q hq
    by_cases hqq : q = q1
    · subst hqq
      rw [momentBelow_some hn2q1]
      simp
    · rw [momentBelow_some (hn2free q hq hqq)]
      simp [Node.empty, hqq]
  have hsep2 : ∀ (j : ℕ) (nj : Node K) (ej : ℕ) (pj : Vec2 K),
      Reach t2 (t.nodes.length + q2) j → t2.nodes[j]? = some nj →
      nj.kind = NodeKind.Leaf ej pj → ¬ (pj.sub p).length_squared < 1 / 10000 := by
    intro j nj ej pj hr hnj hkj
    have hj := hsing q2 hq2 j hr
    subst hj
    by_cases hqq : q2 = q1
    · rw [hqq, hn2q1] at hnj
      cases Option.some.inj hnj
      have hkj' : NodeKind.Leaf ee pp = NodeKind.Leaf ej pj := hkj
      have hinj := NodeKind.Leaf.inj hkj'
      rw [← hinj.2]
      exact hfar
    · rw [hn2free q2 hq2 hqq] at hnj
      cases Option.some.inj hnj
      exact absurd hkj (by simp [Node.empty])
  have hinv2 : ∀ j : ℕ, Reach t2 (t.nodes.length + q2) j → InvAt t2 j := by
    intro j hr
    have hj := hsing q2 hq2 j hr
    subst hj
    exact hInv2 q2 hq2
  obtain ⟨ih1, ih2, ih3⟩ := ih hwf2 hm hsep2 hinv2 h2
  have huntouched23 : ∀ q : ℕ, q < 4 → q ≠ q2 →
      t3.nodes[t.nodes.length + q]? = t2.nodes[t.nodes.length + q]? := by
    intro q hq hne
    refine (insertRec_frame h2).2.2.2 (t.nodes.length + q) (by omega) ?_
    intro hr
    have := hsing q2 hq2 (t.nodes.length + q) hr
    omega
  have huntouched3T : ∀ k : ℕ, k ≠ i → TT.nodes[k]? = t3.nodes[k]? := by
    intro k hk2
    rw [hTT]
    exact setNode_get_ne _ (Ne.symm hk2)
  have hmbT : ∀ q : ℕ, q < 4 →
      massBelow TT (t.nodes.length + q) =
        (if q = q1 then n.mass else 0) + (if q = q2 then m else 0) := by
    intro q hq
    by_cases hqq : q = q2
    · subst hqq
      have hcongr : massBelow TT (t.nodes.length + q) =
          massBelow t3 (t.nodes.length + q) := by
        refine massBelow_congr ?_
        intro k hk2
        have := Reach_le hwf3 hk2
        exact huntouched3T k (by omega)
      rw [hcongr, ih2, hmb2 _ hq]
      simp
    · have hcongr : massBelow TT (t.nodes.length + q) =
          massBelow t2 (t.nodes.length + q) := by
        refine massBelow_congr ?_
        intro k hk2
        have hkk := hsing q hq k hk2
        subst hkk
        rw [huntouched3T _ (by omega)]
        exact huntouched23 q hq hqq
      rw [hcongr, hmb2 _ hq]
      simp [hqq]
  have hmoT : ∀ q : ℕ, q < 4 →
      momentBelow TT (t.nodes.length + q) =
        (if q = q1 then pp.scale n.mass else Vec2.zero).add
          (if q = q2 then p.scale m else Vec2.zero) := by
    intro q hq
    by_cases hqq : q = q2
    · subst hqq
      have hcongr : momentBelow TT (t.nodes.length + q) =
          momentBelow t3 (t.nodes.length + q) := by
        refine momentBelow_congr ?_
        intro k hk2
        have := Reach_le hwf3 hk2
        exact huntouched3T k (by omega)
      rw [hcongr, ih3, hmo2 _ hq]
      simp
    · have hcongr : momentBelow TT (t.nodes.length + q) =
          momentBelow t2 (t.nodes.length + q) := by
        refine momentBelow_congr ?_
        intro k hk2
        have hkk := hsing q hq k hk2
        subst hkk
        rw [huntouched3T _ (by omega)]
        exact huntouched23 q hq hqq
      rw [hcongr, hmo2 _ hq]
      simp [hqq, add_zero_vec]
  have hmassTT : massBelow TT i = n.mass + m := by
    rw [massBelow_some hTTi]
    show childMassB TT i (some t.nodes.length) + childMassB TT i (some (t.nodes.length + 1)) +
        childMassB TT i (some (t.nodes.length + 2)) +
        childMassB TT i (some (t.nodes.length + 3)) = n.mass + m
    simp only [childMassB]
    rw [dif_pos (by omega : i < t.nodes.length),
      dif_pos (by omega : i < t.nodes.length + 1),
      dif_pos (by omega : i < t.nodes.length + 2),
      dif_pos (by omega : i < t.nodes.length + 3)]
    have e0 := hmbT 0 (by omega)
    have e1 := hmbT 1 (by omega)
    have e2 := hmbT 2 (by omega)
    have e3 := hmbT 3 (by omega)
    rw [Nat.add_zero] at e0
    rw [e0, e1, e2, e3]
    interval_cases q1 <;> interval_cases q2 <;> simp <;> ring
  have hmoTT : momentBelow TT i = (pp.scale n.mass).add (p.scale m) := by
    rw [momentBelow_some hTTi]
    show (((childMomentB TT i (some t.nodes.length)).add
        (childMomentB TT i (some (t.nodes.length + 1)))).add
        (childMomentB TT i (some (t.nodes.length + 2)))).add
        (childMomentB TT i (some (t.nodes.length + 3))) = (pp.scale n.mass).add (p.scale m)
    simp only [childMomentB]
    rw [dif_pos (by omega : i < t.nodes.length),
      dif_pos (by omega : i < t.nodes.length + 1),
      dif_pos (by omega : i < t.nodes.length + 2),
      dif_pos (by omega : i < t.nodes.length + 3)]
    have e0 := hmoT 0 (by omega)
    have e1 := hmoT 1 (by omega)
    have e2 := hmoT 2 (by omega)
    have e3 := hmoT 3 (by omega)
    rw [Nat.add_zero] at e0
    rw [e0, e1, e2, e3]
    interval_cases q1 <;> interval_cases q2 <;>
      simp [← vec_add_eq, ← vec_zero_eq] <;> abel
  have hmb0 : massBelow t i = n.mass := by rw [massBelow_some hn, hk]
  have hmo0 : momentBelow t i = pp.scale n.mass := by rw [momentBelow_some hn, hk]
  refine ⟨?_, by rw [hmassTT, hmb0], by rw [hmoTT, hmo0]⟩
  intro j hj
  cases hj with
  | refl =>
    intro nn hnn
    rw [hTTi] at hnn
    cases Option.some.inj hnn
    refine ⟨hmassTT.symm, ?_, ?_, fun _ => add_pos hM hm⟩
    · show (((pp.scale n.mass).add (p.scale m)).divScalar (n.mass + m)).scale (n.mass + m) =
        momentBelow TT i
      rw [Vec2.divScalar_scale_cancel (ne_of_gt (add_pos hM hm)), hmoTT]
    · intro e2 qq2 hkl
      exact absurd hkl (by simp)
  | step hco hr =>
    rename_i c'
    obtain ⟨nn, chh, hnn, hkk, hmm⟩ := hco
    rw [hTTi] at hnn
    cases Option.some.inj hnn
    have hkk' : NodeKind.Internal (fourFresh t.nodes.length) = NodeKind.Internal chh := hkk
    cases NodeKind.Internal.inj hkk'
    obtain ⟨q, hqlt, hqe⟩ : ∃ q : ℕ, q < 4 ∧ c' = t.nodes.length + q := by
      have := (mem_fourFresh_iff t.nodes.length c').mp hmm
      exact ⟨c' - t.nodes.length, by omega, by omega⟩
    subst hqe
    by_cases hqq : q = q2
    · subst hqq
      have heq : ∀ k, Reach t3 (t.nodes.length + q) k → TT.nodes[k]? = t3.nodes[k]? := by
        intro k hk2
        have := Reach_le hwf3 hk2
        exact huntouched3T k (by omega)
      have hrj : Reach t3 (t.nodes.length + q) j := (Reach_agree heq j).mp hr
      have hji : t.nodes.length + q ≤ j := Reach_le hwf3 hrj
      refine InvAt_untouched ?_ (ih1 j hrj)
      intro k hk2
      have := Reach_le hwf3 hk2
      exact huntouched3T k (by omega)
    · have heq : ∀ k, Reach t2 (t.nodes.length + q) k → TT.nodes[k]? = t2.nodes[k]? := by
        intro k hk2
        have hkk2 := hsing q hqlt k hk2
        subst hkk2
        rw [huntouched3T _ (by omega)]
        exact huntouched23 q hqlt hqq
      have hj2 : Reach t2 (t.nodes.length + q) j := (Reach_agree heq j).mp hr
      have hjj := hsing q hqlt j hj2
      subst hjj
      exact InvAt_untouched heq (hInv2 q hqlt)

theorem Reach_trans {t : QuadTreeResource K} {a b : ℕ} (h1 : Reach t a b) :
    ∀ {c : ℕ}, Reach t b c → Reach t a c := by
  induction h1 with
  | refl i => exact fun h2 => h2
  | step hco hr ih => exact fun h2 => Reach.step hco (ih h2)

theorem agg_internal_branch {f : ℕ} {t t2 TT : QuadTreeResource K} {i c e : ℕ} {p : Vec2 K}
    {m : K} {n n2 : Node K} {ch : Children}
    (ih : AggStmt K f) (hwf : WF t) (hm : 0 < m)
    (hsep : ∀ (j : ℕ) (nj : Node K) (ej : ℕ) (pj : Vec2 K), Reach t i j →
      t.nodes[j]? = some nj → nj.kind = NodeKind.Leaf ej pj →
      ¬ (pj.sub p).length_squared < 1 / 10000)
    (hinv : ∀ j : ℕ, Reach t i j → InvAt t j)
    (hn : t.nodes[i]? = some n) (hk : n.kind = NodeKind.Internal ch)
    (hc : ch.childAt (n.bounds.get_quadrant_index p) = some c)
    (h1 : QuadTreeResource.insertRec f t c e p m = Except.ok t2)
    (hn2 : t2.nodes[i]? = some n2)
    (hTT : TT = t2.setNode i
      { n2 with mass := n2.mass + m,
                center_of_mass :=
                  ((n2.center_of_mass.scale n2.mass).add
                    (p.scale m)).divScalar (n2.mass + m),
                kind := NodeKind.Internal ch }) :
    (∀ j : ℕ, Reach TT i j → InvAt TT j) ∧
    massBelow TT i = massBelow t i + m ∧
    momentBelow TT i = (momentBelow t i).add (p.scale m) := by
  have hilen : i < t.nodes.length := lt_length_of_get_some hn
  have hcoc : ChildOf t i c := ⟨n, ch, hn, hk, mem_of_childAt hc⟩
  have hic : i < c := ChildOf_lt hwf hcoc
  have hclen : c < t.nodes.length := ChildOf_lt_length hwf hcoc
  have hnot : ¬ Reach t c i := fun hr => absurd (Reach_le hwf hr) (by omega)
  have hti : t2.nodes[i]? = some n := by
    rw [(insertRec_frame h1).2.2.2 i hilen hnot]
    exact hn
  rw [hti] at hn2
  cases Option.some.inj hn2
  have hwf2 : WF t2 := (insertRec_wf hwf h1).1
  have hilen2 : i < t2.nodes.length := lt_of_lt_of_le hilen (insertRec_frame h1).2.1
  have hTTi : TT.nodes[i]? = some
      { n with mass := n.mass + m,
               center_of_mass :=
                 ((n.center_of_mass.scale n.mass).add (p.scale m)).divScalar (n.mass + m),
               kind := NodeKind.Internal ch } := by
    rw [hTT]
    exact setNode_get_self _ hilen2
  have hsep1 : ∀ (j : ℕ) (nj : Node K) (ej : ℕ) (pj : Vec2 K), Reach t c j →
      t.nodes[j]? = some nj → nj.kind = NodeKind.Leaf ej pj →
      ¬ (pj.sub p).length_squared < 1 / 10000 :=
    fun j nj ej pj hr => hsep j nj ej pj (Reach.step hcoc hr)
  have hinv1 : ∀ j : ℕ, Reach t c j → InvAt t j :=
    fun j hr => hinv j (Reach.step hcoc hr)
  obtain ⟨ih1, ih2, ih3⟩ := ih hwf hm hsep1 hinv1 h1
  have hsib : ∀ cq : ℕ, ChildOf t i cq → cq ≠ c →
      ∀ k : ℕ, Reach t cq k → TT.nodes[k]? = t.nodes[k]? := by
    intro cq hcoq hne k hk2
    have hk1 := Reach_le hwf hk2
    have hk3 := ChildOf_lt hwf hcoq
    have hklen := Reach_lt_length hwf hk2 (ChildOf_lt_length hwf hcoq)
    have hnr : ¬ Reach t c k := by
      intro hck
      rcases Reach_comparable hwf hck hk2 with hx | hx
      · exact sibling_not_reach hwf hcoc hcoq (Ne.symm hne) hx
      · exact sibling_not_reach hwf hcoq hcoc hne hx
    rw [hTT, setNode_get_ne _ (by omega)]
    exact (insertRec_frame h1).2.2.2 k hklen hnr
  have hchld : ∀ k : ℕ, Reach t2 c k → TT.nodes[k]? = t2.nodes[k]? := by
    intro k hk2
    have := Reach_le hwf2 hk2
    rw [hTT]
    exact setNode_get_ne _ (by omega)
  obtain ⟨qs, hqs4, hqse⟩ : ∃ qs : ℕ, qs < 4 ∧ ch.childAt qs = some c :=
    ⟨n.bounds.get_quadrant_index p, get_quadrant_index_lt_four _ _, hc⟩
  have hone : ∀ q : ℕ, q < 4 → ∀ cq : ℕ, ch.childAt q = some cq →
      massBelow TT cq = massBelow t cq + (if q = qs then m else 0) ∧
      momentBelow TT cq = (momentBelow t cq).add
        (if q = qs then p.scale m else Vec2.zero) := by
    intro q hq cq hcq
    by_cases hqq : q = qs
    · subst hqq
      rw [hqse] at hcq
      cases Option.some.inj hcq
      exact ⟨by rw [massBelow_congr hchld, ih2, if_pos rfl],
             by rw [momentBelow_congr hchld, ih3, if_pos rfl]⟩
    · have hcqc : cq ≠ c := by
        intro he
        exact hqq (hwf.uniq i q i qs cq ⟨n, ch, hn, hk, hcq⟩
          ⟨n, ch, hn, hk, he ▸ hqse⟩).2
      have hcoq : ChildOf t i cq := ⟨n, ch, hn, hk, mem_of_childAt hcq⟩
      exact ⟨by rw [massBelow_congr (hsib cq hcoq hcqc), if_neg hqq, add_zero],
             by rw [momentBelow_congr (hsib cq hcoq hcqc), if_neg hqq, add_zero_vec]⟩
  obtain ⟨c0, hc0, hic0, -, -⟩ := hwf.child_complete i n ch hn hk 0 (by omega)
  obtain ⟨c1, hc1, hic1, -, -⟩ := hwf.child_complete i n ch hn hk 1 (by omega)
  obtain ⟨c2, hc2, hic2, -, -⟩ := hwf.child_complete i n ch hn hk 2 (by omega)
  obtain ⟨c3, hc3, hic3, -, -⟩ := hwf.child_complete i n ch hn hk 3 (by omega)
  have hf0 : ch.c0 = some c0 := hc0
  have hf1 : ch.c1 = some c1 := hc1
  have hf2 : ch.c2 = some c2 := hc2
  have hf3 : ch.c3 = some c3 := hc3
  have hmassTT : massBelow TT i = massBelow t i + m := by
    rw [massBelow_some hTTi, massBelow_some hn, hk]
    show childMassB TT i ch.c0 + childMassB TT i ch.c1 + childMassB TT i ch.c2 +
        childMassB TT i ch.c3 =
      childMassB t i ch.c0 + childMassB t i ch.c1 + childMassB t i ch.c2 +
        childMassB t i ch.c3 + m
    rw [hf0, hf1, hf2, hf3]
    simp only [childMassB]
    simp only [dif_pos hic0, dif_pos hic1, dif_pos hic2, dif_pos hic3]
    rw [(hone 0 (by omega) c0 hc0).1, (hone 1 (by omega) c1 hc1).1,
      (hone 2 (by omega) c2 hc2).1, (hone 3 (by omega) c3 hc3).1]
    interval_cases qs <;> simp <;> ring
  have hmoTT : momentBelow TT i = (momentBelow t i).add (p.scale m) := by
    rw [momentBelow_some hTTi, momentBelow_some hn, hk]
    show (((childMomentB TT i ch.c0).add (childMomentB TT i ch.c1)).add
        (childMomentB TT i ch.c2)).add (childMomentB TT i ch.c3) =
      ((((childMomentB t i ch.c0).add (childMomentB t i ch.c1)).add
        (childMomentB t i ch.c2)).add (childMomentB t i ch.c3)).add (p.scale m)
    rw [hf0, hf1, hf2, hf3]
    simp only [childMomentB]
    simp only [dif_pos hic0, dif_pos hic1, dif_pos hic2, dif_pos hic3]
    rw [(hone 0 (by omega) c0 hc0).2, (hone 1 (by omega) c1 hc1).2,
      (hone 2 (by omega) c2 hc2).2, (hone 3 (by omega) c3 hc3).2]
    interval_cases qs <;> simp [← vec_add_eq, ← vec_zero_eq] <;> abel
  have hIroot := hinv i (Reach.refl i) n hn
  have hMn : 0 < n.mass := hIroot.2.2.2 (by rw [hk]; simp)
  refine ⟨?_, hmassTT, hmoTT⟩
  intro j hj
  cases hj with
  | refl =>
    intro nn hnn
    rw [hTTi] at hnn
    cases Option.some.inj hnn
    refine ⟨?_, ?_, ?_, fun _ => add_pos hMn hm⟩
    · show n.mass + m = massBelow TT i
      rw [hmassTT, ← hIroot.1]
    · show (((n.center_of_mass.scale n.mass).add (p.scale m)).divScalar
          (n.mass + m)).scale (n.mass + m) = momentBelow TT i
      rw [Vec2.divScalar_scale_cancel (ne_of_gt (add_pos hMn hm)), hmoTT, hIroot.2.1]
    · intro e2 q2 hkl
      exact absurd hkl (by simp)
  | step hco hr =>
    rename_i c'
    obtain ⟨nn, chh, hnn, hkk, hmm⟩ := hco
    rw [hTTi] at hnn
    cases Option.some.inj hnn
    have hkk' : NodeKind.Internal ch = NodeKind.Internal chh := hkk
    cases NodeKind.Internal.inj hkk'
    by_cases hqc : c' = c
    · subst hqc
      have hrj : Reach t2 c' j := (Reach_agree hchld j).mp hr
      have hjc : c' ≤ j := Reach_le hwf2 hrj
      refine InvAt_untouched ?_ (ih1 j hrj)
      intro k hk2
      have := Reach_le hwf2 hk2
      rw [hTT]
      exact setNode_get_ne _ (by omega)
    · have hcoq : ChildOf t i c' := ⟨n, ch, hn, hk, hmm⟩
      have hrj : Reach t c' j := (Reach_agree (hsib c' hcoq hqc) j).mp hr
      refine InvAt_untouched ?_ (hinv j (Reach.step hcoq hrj))
      intro k hk2
      exact hsib c' hcoq hqc k (Reach_trans hrj hk2)

theorem insertRec_agg : ∀ fuel : ℕ, AggStmt K fuel := by
  intro fuel
  induction fuel with
  | zero =>
    intro t t' i e p m hwf hm hsep hinv h
    rw [insertRec_zero] at h
    exact Except.noConfusion h
  | succ f ih =>
    intro t t' i e p m hwf hm hsep hinv h
    obtain ⟨f0, n, hf, hn, hcases⟩ := insertRec_ok_inv h
    have hff : f0 = f := by omega
    subst hff
    have hilen := lt_length_of_get_some hn
    rcases hcases with ⟨hk, ht'⟩ | ⟨ee, pp, hk, hclose, ht'⟩ |
      ⟨ee, pp, t2, t3, n3, hk, hfar, h1, h2, hn3, ht'⟩ |
      ⟨ch, hk, ⟨c, t2, n2, hc, h1, hn2, ht'⟩ | ⟨hc, ht'⟩⟩
    · subst ht'
      have hn'i : (t.setNode i
          { n with kind := NodeKind.Leaf e p, mass := m, center_of_mass := p }).nodes[i]? =
          some { n with kind := NodeKind.Leaf e p, mass := m, center_of_mass := p } :=
        setNode_get_self _ hilen
      have hmbA : massBelow (t.setNode i
          { n with kind := NodeKind.Leaf e p, mass := m, center_of_mass := p }) i = m := by
        rw [massBelow_some hn'i]
      have hmoA : momentBelow (t.setNode i
          { n with kind := NodeKind.Leaf e p, mass := m, center_of_mass := p }) i =
          p.scale m := by
        rw [momentBelow_some hn'i]
      have hmb0 : massBelow t i = 0 := by rw [massBelow_some hn, hk]
      have hmo0 : momentBelow t i = Vec2.zero := by rw [momentBelow_some hn, hk]
      refine ⟨?_, by rw [hmbA, hmb0, zero_add], by rw [hmoA, hmo0, zero_add_vec]⟩
      intro j hj
      have hji : j = i := Reach_singleton hn'i (fun ch2 => by simp) hj
      subst hji
      exact InvAt_of_leaf hn'i rfl rfl hm
    · exact absurd hclose (hsep i n ee pp (Reach.refl i) hn hk)
    · have hMn : 0 < n.mass :=
        (hinv i (Reach.refl i) n hn).2.2.2 (by rw [hk]; simp)
      exact agg_split_branch ih hwf hm hMn hn hk hfar (get_quadrant_index_lt_four _ _)
        (get_quadrant_index_lt_four _ _) h1 h2 hn3 ht'
    · exact agg_internal_branch ih hwf hm hsep hinv hn hk hc h1 hn2 ht'
    · obtain ⟨c2, hc2, -, -, -⟩ := hwf.child_complete i n ch hn hk
        (n.bounds.get_quadrant_index p) (get_quadrant_index_lt_four _ _)
      rw [hc] at hc2
      exact Option.noConfusion hc2

theorem insertAll_agg {fuel : ℕ} {L : List (Body K)} :
    ∀ {t t' : QuadTreeResource K} {Acc : List (Body K)},
      t.root = some 0 → WF t → AllReach t → (∀ j : ℕ, InvAt t j) →
      LeafPosIn t (fun q => ∃ b ∈ Acc, b.pos = q) →
      List.Pairwise (fun a b : Body K =>
        1 / 10000 ≤ ((a.pos).sub (b.pos)).length_squared) (Acc ++ L) →
      (∀ b ∈ Acc ++ L, 0 < b.mass) →
      insertAll fuel t L = Except.ok t' →
      t'.root = some 0 ∧ WF t' ∧ AllReach t' ∧ (∀ j : ℕ, InvAt t' j) := by
  induction L with
  | nil =>
    intro t t' Acc hroot hwf hall hinv hlp hp hm h
    simp only [insertAll] at h
    cases Except.ok.inj h
    exact ⟨hroot, hwf, hall, hinv⟩
  | cons b rest ihL =>
    intro t t' Acc hroot hwf hall hinv hlp hp hm h
    simp only [insertAll] at h
    cases hins : t.insert fuel b.entity b.pos b.mass with
    | error e =>
      simp only [hins] at h
      exact Except.noConfusion h
    | ok t2 =>
      simp only [hins] at h
      rcases insert_ok_inv hins with ⟨hnone, -⟩ | ⟨r, hr, hrec⟩
      · rw [hroot] at hnone
        exact Option.noConfusion hnone
      · rw [hroot] at hr
        cases Option.some.inj hr
        obtain ⟨hpA, hpR, hcross⟩ := List.pairwise_append.mp hp
        have hsep : ∀ (j : ℕ) (nj : Node K) (ej : ℕ) (pj : Vec2 K), Reach t 0 j →
            t.nodes[j]? = some nj → nj.kind = NodeKind.Leaf ej pj →
            ¬ (pj.sub b.pos).length_squared < 1 / 10000 := by
          intro j nj ej pj hrj hnj hkj
          obtain ⟨b1, hb1, hb1p⟩ := hlp j nj ej pj hnj hkj
          subst hb1p
          exact not_lt.mpr (hcross b1 hb1 b (by simp))
        have hmb : 0 < b.mass := hm b (by simp)
        obtain ⟨cInv, -, -⟩ := insertRec_agg fuel hwf hmb hsep (fun j _ => hinv j) hrec
        have hwf2 := (insertRec_wf hwf hrec).1
        have hptr := (insertRec_wf hwf hrec).2.1
        have hleaves := (insertRec_wf hwf hrec).2.2.2.1
        have hall2 : AllReach t2 := by
          intro j hj
          by_cases hjl : j < t.nodes.length
          · exact Reach_mono hptr (hall j hjl)
          · exact insertRec_fresh_reach hwf hrec j (by omega) hj
        have hinv2 : ∀ j : ℕ, InvAt t2 j := by
          intro j
          by_cases hjl : j < t2.nodes.length
          · exact cInv j (hall2 j hjl)
          · exact InvAt_oob (by omega)
        have hroot2 : t2.root = some 0 := (insertRec_frame hrec).1.trans hroot
        have hlp2 : LeafPosIn t2 (fun q => ∃ b1 ∈ Acc ++ [b], b1.pos = q) := by
          intro j nj ej pj hnj hkj
          rcases hleaves j nj ej pj hnj hkj with ⟨j0, n0, hn0, hk0⟩ | ⟨-, rfl⟩
          · obtain ⟨b1, hb1, hb1p⟩ := hlp j0 n0 ej pj hn0 hk0
            exact ⟨b1, List.mem_append_left _ hb1, hb1p⟩
          · exact ⟨b, List.mem_append_right _ (by simp), rfl⟩
        have hp2 : List.Pairwise (fun a b : Body K =>
            1 / 10000 ≤ ((a.pos).sub (b.pos)).length_squared) ((Acc ++ [b]) ++ rest) := by
          rw [← List.append_cons]
          exact hp
        have hm2 : ∀ b1 ∈ (Acc ++ [b]) ++ rest, 0 < b1.mass := by
          intro b1 hb1
          refine hm b1 ?_
          rw [List.append_cons]
          exact hb1
        exact ihL hroot2 hwf2 hall2 hinv2 hlp2 hp2 hm2 h

theorem reset_agg (t0 : QuadTreeResource K) (bounds : Rect K) :
    (t0.reset bounds).root = some 0 ∧ WF (t0.reset bounds) ∧ AllReach (t0.reset bounds) ∧
      (∀ j : ℕ, InvAt (t0.reset bounds) j) ∧
      LeafPosIn (t0.reset bounds) (fun q => ∃ b ∈ ([] : List (Body K)), b.pos = q) := by
  refine ⟨rfl, WF_reset t0 bounds, ?_, ?_, ?_⟩
  · intro j hj
    have hj0 : j = 0 := by
      simp only [QuadTreeResource.reset, List.length_cons, List.length_nil] at hj
      omega
    subst hj0
    exact Reach.refl 0
  · intro j
    cases j with
    | zero =>
      exact InvAt_of_empty
        (rfl : (t0.reset bounds).nodes[0]? = some (Node.empty bounds)) rfl rfl
    | succ j2 =>
      refine InvAt_oob ?_
      simp [QuadTreeResource.reset]
  · intro i nn e pq hn hkn
    cases i with
    | zero =>
      simp only [QuadTreeResource.reset, List.getElem?_cons_zero, Option.some.injEq] at hn
      subst hn
      simp [Node.empty] at hkn
    | succ i2 => simp [QuadTreeResource.reset] at hn

/-- C1 (corrected): along insertion sequences with positive masses whose
positions are pairwise at squared distance at least `1e-4` (so the merge
branch is never taken), every internal node of the resulting tree stores as
mass the sum of the masses of its reachable leaves and as center of mass
their mass-weighted average position — and this holds after every single
insertion, since every prefix of such a sequence is again such a sequence. -/
theorem C1_aggregate_invariants {fuel : ℕ} {t0 t : QuadTreeResource K} {bounds : Rect K}
    {L : List (Body K)}
    (hpair : List.Pairwise (fun a b : Body K =>
      1 / 10000 ≤ ((a.pos).sub (b.pos)).length_squared) L)
    (hpos : ∀ b ∈ L, 0 < b.mass)
    (h : insertAll fuel (t0.reset bounds) L = Except.ok t) :
    ∀ (i : ℕ) (n : Node K) (ch : Children), t.nodes[i]? = some n →
      n.kind = NodeKind.Internal ch →
      n.mass = massBelow t i ∧
      n.center_of_mass = (momentBelow t i).divScalar (massBelow t i) := by
  obtain ⟨hroot0, hwf0, hall0, hinv0, hlp0⟩ := reset_agg t0 bounds
  obtain ⟨-, -, -, hinv⟩ := insertAll_agg hroot0 hwf0 hall0 hinv0 hlp0 hpair hpos h
  intro i n ch hn hk
  obtain ⟨h1, h2, -, h4⟩ := hinv i n hn
  have hpos' : 0 < n.mass := h4 (by rw [hk]; simp)
  refine ⟨h1, ?_⟩
  have h2' : n.center_of_mass.scale (massBelow t i) = momentBelow t i := by
    rw [← h1]
    exact h2
  rw [Vec2.eq_divScalar (by rw [← h1]; exact ne_of_gt hpos') h2']

/-- C1 witness: two separated unit masses at `(1,1)` and `(-1,-1)` in the
square of side 4 produce a root `Internal` node whose stored aggregates match
the reachable-leaf aggregates. -/
theorem C1_aggregate_invariants_witness :
    ∃ t : QuadTreeResource ℚ,
      insertAll 2 ((⟨[], none⟩ : QuadTreeResource ℚ).reset ⟨⟨0, 0⟩, ⟨4, 4⟩⟩)
        [⟨1, ⟨1, 1⟩, 1⟩, ⟨2, ⟨-1, -1⟩, 1⟩] = Except.ok t ∧
      ∃ (n : Node ℚ) (ch : Children), t.nodes[0]? = some n ∧
        n.kind = NodeKind.Internal ch ∧
        n.mass = massBelow t 0 ∧
        n.center_of_mass = (momentBelow t 0).divScalar (massBelow t 0) := by
  have he : insertAll 2 ((⟨[], none⟩ : QuadTreeResource ℚ).reset ⟨⟨0, 0⟩, ⟨4, 4⟩⟩)
      [⟨1, ⟨1, 1⟩, 1⟩, ⟨2, ⟨-1, -1⟩, 1⟩] =
      Except.ok ⟨[
        { bounds := ⟨⟨0, 0⟩, ⟨4, 4⟩⟩, center_of_mass := ⟨0, 0⟩, mass := 2,
          kind := NodeKind.Internal ⟨some 1, some 2, some 3, some 4⟩ },
        { bounds := ⟨⟨-1, 1⟩, ⟨2, 2⟩⟩, center_of_mass := ⟨0, 0⟩, mass := 0,
          kind := NodeKind.Empty },
        { bounds := ⟨⟨1, 1⟩, ⟨2, 2⟩⟩, center_of_mass := ⟨1, 1⟩, mass := 1,
          kind := NodeKind.Leaf 1 ⟨1, 1⟩ },
        { bounds := ⟨⟨-1, -1⟩, ⟨2, 2⟩⟩, center_of_mass := ⟨-1, -1⟩, mass := 1,
          kind := NodeKind.Leaf 2 ⟨-1, -1⟩ },
        { bounds := ⟨⟨1, -1⟩, ⟨2, 2⟩⟩, center_of_mass := ⟨0, 0⟩, mass := 0,
          kind := NodeKind.Empty }], some 0⟩ := by
    norm_num [insertAll, QuadTreeResource.insert, QuadTreeResource.insertRec,
      QuadTreeResource.reset, QuadTreeResource.setNode, QuadTreeResource.subdivide,
      Node.empty, Rect.sub_quadrant, Rect.get_quadrant_index, Children.childAt,
      Vec2.zero, Vec2.sub, Vec2.length_squared, Vec2.scale, Vec2.add, Vec2.divScalar]
  have hpair : List.Pairwise (fun a b : Body ℚ =>
      1 / 10000 ≤ ((a.pos).sub (b.pos)).length_squared)
      [⟨1, ⟨1, 1⟩, 1⟩, ⟨2, ⟨-1, -1⟩, 1⟩] := by
    norm_num [List.pairwise_cons, Vec2.sub, Vec2.length_squared]
  have hpos : ∀ b ∈ [(⟨1, ⟨1, 1⟩, 1⟩ : Body ℚ), ⟨2, ⟨-1, -1⟩, 1⟩], 0 < b.mass := by
    intro b hb
    simp only [List.mem_cons, List.not_mem_nil, or_false] at hb
    rcases hb with rfl | rfl <;> norm_num
  have hres := C1_aggregate_invariants hpair hpos he 0
  refine ⟨_, he, _, ⟨some 1, some 2, some 3, some 4⟩, rfl, rfl, ?_, ?_⟩
  · exact (hres _ _ rfl rfl).1
  · exact (hres _ _ rfl rfl).2

/-- C1 counterexample: once a merge has occurred, an internal node's stored
center of mass differs from the mass-weighted average of its reachable leaf
positions.  Bodies `1` at `(1,1)`, `2` at `(-1,-1)` (split the root), then `3`
at `(1+1e-3,1)` (merges into the leaf of body `1`): the merged leaf keeps
position `(1,1)` with mass `2`, so the leaf average is `(1,1)/3 = (1/3,1/3)`,
while the root stores `(1001/3000, 1/3)`. -/
theorem C1_counterexample :
    ∃ t1 t2 t3 : QuadTreeResource ℚ,
      ((⟨[], none⟩ : QuadTreeResource ℚ).reset ⟨⟨0, 0⟩, ⟨2000, 2000⟩⟩).insert 2 1 ⟨1, 1⟩ 1 =
        Except.ok t1 ∧
      t1.insert 2 2 ⟨-1, -1⟩ 1 = Except.ok t2 ∧
      t2.insert 2 3 ⟨1 + 1 / 1000, 1⟩ 1 = Except.ok t3 ∧
      ∃ (n : Node ℚ) (ch : Children), t3.nodes[0]? = some n ∧
        n.kind = NodeKind.Internal ch ∧
        n.center_of_mass ≠ (momentBelow t3 0).divScalar (massBelow t3 0) := by
  have h1 : ((⟨[], none⟩ : QuadTreeResource ℚ).reset
        ⟨⟨0, 0⟩, ⟨2000, 2000⟩⟩).insert 2 1 ⟨1, 1⟩ 1 =
      Except.ok ⟨[{ bounds := ⟨⟨0, 0⟩, ⟨2000, 2000⟩⟩, center_of_mass := ⟨1, 1⟩, mass := 1,
                    kind := NodeKind.Leaf 1 ⟨1, 1⟩ }], some 0⟩ := by
    norm_num [QuadTreeResource.insert, QuadTreeResource.insertRec, QuadTreeResource.reset,
      QuadTreeResource.setNode, Node.empty]
  have h2 : (⟨[{ bounds := ⟨⟨0, 0⟩, ⟨2000, 2000⟩⟩, center_of_mass := ⟨1, 1⟩, mass := 1,
                 kind := NodeKind.Leaf 1 ⟨1, 1⟩ }], some 0⟩ : QuadTreeResource ℚ).insert
        2 2 ⟨-1, -1⟩ 1 =
      Except.ok ⟨[
        { bounds := ⟨⟨0, 0⟩, ⟨2000, 2000⟩⟩, center_of_mass := ⟨0, 0⟩, mass := 2,
          kind := NodeKind.Internal ⟨some 1, some 2, some 3, some 4⟩ },
        { bounds := ⟨⟨-500, 500⟩, ⟨1000, 1000⟩⟩, center_of_mass := ⟨0, 0⟩, mass := 0,
          kind := NodeKind.Empty },
        { bounds := ⟨⟨500, 500⟩, ⟨1000, 1000⟩⟩, center_of_mass := ⟨1, 1⟩, mass := 1,
          kind := NodeKind.Leaf 1 ⟨1, 1⟩ },
        { bounds := ⟨⟨-500, -500⟩, ⟨1000, 1000⟩⟩, center_of_mass := ⟨-1, -1⟩, mass := 1,
          kind := NodeKind.Leaf 2 ⟨-1, -1⟩ },
        { bounds := ⟨⟨500, -500⟩, ⟨1000, 1000⟩⟩, center_of_mass := ⟨0, 0⟩, mass := 0,
          kind := NodeKind.Empty }], some 0⟩ := by
    norm_num [QuadTreeResource.insert, QuadTreeResource.insertRec,
      QuadTreeResource.setNode, QuadTreeResource.subdivide,
      Node.empty, Rect.sub_quadrant, Rect.get_quadrant_index, Children.childAt,
      Vec2.zero, Vec2.sub, Vec2.length_squared, Vec2.scale, Vec2.add, Vec2.divScalar]
  have h3 : (⟨[
        { bounds := ⟨⟨0, 0⟩, ⟨2000, 2000⟩⟩, center_of_mass := ⟨0, 0⟩, mass := 2,
          kind := NodeKind.Internal ⟨some 1, some 2, some 3, some 4⟩ },
        { bounds := ⟨⟨-500, 500⟩, ⟨1000, 1000⟩⟩, center_of_mass := ⟨0, 0⟩, mass := 0,
          kind := NodeKind.Empty },
        { bounds := ⟨⟨500, 500⟩, ⟨1000, 1000⟩⟩, center_of_mass := ⟨1, 1⟩, mass := 1,
          kind := NodeKind.Leaf 1 ⟨1, 1⟩ },
        { bounds := ⟨⟨-500, -500⟩, ⟨1000, 1000⟩⟩, center_of_mass := ⟨-1, -1⟩, mass := 1,
          kind := NodeKind.Leaf 2 ⟨-1, -1⟩ },
        { bounds := ⟨⟨500, -500⟩, ⟨1000, 1000⟩⟩, center_of_mass := ⟨0, 0⟩, mass := 0,
          kind := NodeKind.Empty }], some 0⟩ : QuadTreeResource ℚ).insert
        2 3 ⟨1 + 1 / 1000, 1⟩ 1 =
      Except.ok cxT3 := by
    norm_num [QuadTreeResource.insert, QuadTreeResource.insertRec,
      QuadTreeResource.setNode, Node.empty, Rect.get_quadrant_index, Children.childAt,
      Vec2.zero, Vec2.sub, Vec2.length_squared, Vec2.scale, Vec2.add, Vec2.divScalar,
      cxT3, cxNode0, cxNode1, cxNode2, cxNode3, cxNode4]
  refine ⟨_, _, _, h1, h2, h3, cxNode0, ⟨some 1, some 2, some 3, some 4⟩, rfl, rfl, ?_⟩
  have hg0 : cxT3.nodes[0]? = some cxNode0 := rfl
  have hg1 : cxT3.nodes[1]? = some cxNode1 := rfl
  have hg2 : cxT3.nodes[2]? = some cxNode2 := rfl
  have hg3 : cxT3.nodes[3]? = some cxNode3 := rfl
  have hg4 : cxT3.nodes[4]? = some cxNode4 := rfl
  have hmb : massBelow cxT3 0 = 3 := by
    rw [massBelow_some hg0]
    show childMassB cxT3 0 (some 1) + childMassB cxT3 0 (some 2) +
      childMassB cxT3 0 (some 3) + childMassB cxT3 0 (some 4) = 3
    simp only [childMassB]
    rw [dif_pos (by norm_num : (0 : ℕ) < 1), dif_pos (by norm_num : (0 : ℕ) < 2),
      dif_pos (by norm_num : (0 : ℕ) < 3), dif_pos (by norm_num : (0 : ℕ) < 4)]
    rw [massBelow_some hg1, massBelow_some hg2, massBelow_some hg3, massBelow_some hg4]
    show (0 : ℚ) + 2 + 1 + 0 = 3
    norm_num
  have hmo : momentBelow cxT3 0 = ⟨1, 1⟩ := by
    rw [momentBelow_some hg0]
    show (((childMomentB cxT3 0 (some 1)).add (childMomentB cxT3 0 (some 2))).add
      (childMomentB cxT3 0 (some 3))).add (childMomentB cxT3 0 (some 4)) = ⟨1, 1⟩
    simp only [childMomentB]
    rw [dif_pos (by norm_num : (0 : ℕ) < 1), dif_pos (by norm_num : (0 : ℕ) < 2),
      dif_pos (by norm_num : (0 : ℕ) < 3), dif_pos (by norm_num : (0 : ℕ) < 4)]
    rw [momentBelow_some hg1, momentBelow_some hg2, momentBelow_some hg3,
      momentBelow_some hg4]
    show ((((Vec2.zero).add ((⟨1, 1⟩ : Vec2 ℚ).scale 2)).add
      ((⟨-1, -1⟩ : Vec2 ℚ).scale 1)).add Vec2.zero) = (⟨1, 1⟩ : Vec2 ℚ)
    norm_num [Vec2.zero, Vec2.scale, Vec2.add]
  rw [hmb, hmo]
  show ¬ cxNode0.center_of_mass = (⟨1, 1⟩ : Vec2 ℚ).divScalar 3
  simp only [cxNode0, ne_eq, Vec2.divScalar, Vec2.mk.injEq, not_and]
  intro hx
  norm_num at hx

theorem add_assoc_vec (a b c : Vec2 K) : (a.add b).add c = a.add (b.add c) := by
  cases a
  cases b
  cases c
  simp only [Vec2.add, Vec2.mk.injEq]
  constructor <;> ring

theorem dist_pos (sq : K → K) (x : K) : 0 < max (sq x) (1 / 10000 : K) := by
  refine lt_of_lt_of_le ?_ (le_max_right _ _)
  norm_num

theorem theta_not_lt {w d th : K} (hw : 0 ≤ w) (hd : 0 < d) (hth : th ≤ 0) :
    ¬ w / d < th :=
  not_lt.mpr (le_trans hth (div_nonneg hw (le_of_lt hd)))

theorem forceAt_at_empty {sq : K → K} {config : SimConfig K} {target : ℕ}
    {position : Vec2 K} {t : QuadTreeResource K} {i : ℕ} {n : Node K}
    (hn : t.nodes[i]? = some n) (hk : n.kind = NodeKind.Empty) :
    forceAt sq config target position t i = Vec2.zero := by
  rw [forceAt_some hn]
  simp only [hk]

theorem forceAt_at_leaf {sq : K → K} {config : SimConfig K} {target : ℕ}
    {position : Vec2 K} {t : QuadTreeResource K} {i e : ℕ} {q : Vec2 K} {n : Node K}
    (hn : t.nodes[i]? = some n) (hk : n.kind = NodeKind.Leaf e q) :
    forceAt sq config target position t i =
      leafTerm sq config target position e q n.mass := by
  rw [forceAt_some hn]
  simp only [hk]
  rfl

theorem forceAt_internal_no_approx {sq : K → K} {config : SimConfig K} {target : ℕ}
    {position : Vec2 K} {t : QuadTreeResource K} {i : ℕ} {n : Node K} {ch : Children}
    (hn : t.nodes[i]? = some n) (hk : n.kind = NodeKind.Internal ch)
    (hw : 0 ≤ n.bounds.size.x) (hth : config.theta ≤ 0) :
    forceAt sq config target position t i =
      (((Vec2.zero.add (childForceB sq config target position t i ch.c0)).add
          (childForceB sq config target position t i ch.c1)).add
        (childForceB sq config target position t i ch.c2)).add
        (childForceB sq config target position t i ch.c3) := by
  rw [forceAt_some hn]
  simp only [hk]
  rw [if_neg (theta_not_lt hw (dist_pos _ _) hth)]

theorem force_split_branch {sq : K → K} {config : SimConfig K} {target : ℕ}
    {position : Vec2 K} {f : ℕ} {t t2 t3 TT : QuadTreeResource K} {i e ee q1 q2 : ℕ}
    {p pp : Vec2 K} {m : K} {n n3 : Node K}
    (ih : ForceStmt K sq config target position f)
    (hwf : WF t) (hsz : SZ t) (hth : config.theta ≤ 0)
    (hn : t.nodes[i]? = some n) (hk : n.kind = NodeKind.Leaf ee pp)
    (hfar : ¬ (pp.sub p).length_squared < 1 / 10000)
    (hq1 : q1 < 4) (hq2 : q2 < 4)
    (h1 : QuadTreeResource.insertRec f (subdivided t n.bounds) (t.nodes.length + q1) ee pp
      n.mass = Except.ok t2)
    (h2 : QuadTreeResource.insertRec f t2 (t.nodes.length + q2) e p m = Except.ok t3)
    (hn3 : t3.nodes[i]? = some n3)
    (hTT : TT = t3.setNode i
      { n3 with kind := NodeKind.Internal (fourFresh t.nodes.length),
                mass := n.mass + m,
                center_of_mass :=
                  ((pp.scale n.mass).add (p.scale m)).divScalar (n.mass + m) }) :
    forceAt sq config target position TT i =
      (forceAt sq config target position t i).add
        (leafTerm sq config target position e p m) := by
  have hilen : i < t.nodes.length := lt_length_of_get_some hn
  have hszn := hsz i n hn
  have hn1 : (subdivided t n.bounds).nodes[t.nodes.length + q1]? =
      some (Node.empty (n.bounds.sub_quadrant q1)) := subdivided_get_fresh t n.bounds hq1
  have ht2 := insertRec_into_empty h1 hn1 rfl
  have hl1 : (subdivided t n.bounds).nodes.length = t.nodes.length + 4 :=
    subdivided_length t n.bounds
  have hl2 : t2.nodes.length = t.nodes.length + 4 := by rw [ht2, setNode_length, hl1]
  have hwf1 : WF (subdivided t n.bounds) := WF_subdivided hwf n.bounds
  have hwf2 : WF t2 := by
    rw [ht2]
    refine WF_setNode hwf1 hn1 _ rfl ?_
    intro ch2
    constructor
    · intro hh
      exact absurd hh (by simp [Node.empty])
    · intro hh
      exact absurd hh (by simp)
  have hsz1 : SZ (subdivided t n.bounds) := SZ_subdivided hsz hszn.1 hszn.2
  have hsz2 : SZ t2 := by
    rw [ht2]
    exact SZ_setNode hsz1 hn1 rfl
  have hwf3 : WF t3 := (insertRec_wf hwf2 h2).1
  have hlen3 : t.nodes.length + 4 ≤ t3.nodes.length := by
    have hfr2 := (insertRec_frame h2).2.1
    rw [hl2] at hfr2
    exact hfr2
  have hilen3 : i < t3.nodes.length := by omega
  have hb3 : n3.bounds = n.bounds := by
    have ht1i : (subdivided t n.bounds).nodes[i]? = some n :=
      (subdivided_get_lt hilen).trans hn
    have ht2i : t2.nodes[i]? = some n := by
      rw [ht2, setNode_get_ne _ (by omega)]
      exact ht1i
    exact (insertRec_frame h2).2.2.1 i n n3 ht2i hn3
  have hTTi : TT.nodes[i]? =
      some { n3 with kind := NodeKind.Internal (fourFresh t.nodes.length),
                     mass := n.mass + m,
                     center_of_mass :=
                       ((pp.scale n.mass).add (p.scale m)).divScalar (n.mass + m) } := by
    rw [hTT]
    exact setNode_get_self _ hilen3
  have hn2free : ∀ q : ℕ, q < 4 → q ≠ q1 →
      t2.nodes[t.nodes.length + q]? = some (Node.empty (n.bounds.sub_quadrant q)) := by
    intro q hq hne
    rw [ht2, setNode_get_ne _ (by omega)]
    exact subdivided_get_fresh t n.bounds hq
  have hn2q1 : t2.nodes[t.nodes.length + q1]? =
      some { Node.empty (n.bounds.sub_quadrant q1) with
             kind := NodeKind.Leaf ee pp, mass := n.mass, center_of_mass := pp } := by
    rw [ht2]
    exact setNode_get_self _ (by rw [hl1]; omega)
  have hsing : ∀ q : ℕ, q < 4 → ∀ x : ℕ, Reach t2 (t.nodes.length + q) x →
      x = t.nodes.length + q := by
    intro q hq x hx
    by_cases hqq : q = q1
    · subst hqq
      exact Reach_singleton hn2q1 (fun ch2 => by simp) hx
    · exact Reach_singleton (hn2free q hq hqq) (fun ch2 => by simp [Node.empty]) hx
  have hfa2 : ∀ q : ℕ, q < 4 →
      forceAt sq config target position t2 (t.nodes.length + q) =
        if q = q1 then leafTerm sq config target position ee pp n.mass else Vec2.zero := by
    intro q hq
    by_cases hqq : q = q1
    · subst hqq
      rw [if_pos rfl, forceAt_at_leaf hn2q1 rfl]
    · rw [if_neg hqq, forceAt_at_empty (hn2free q hq hqq) rfl]
  have hsep2 : ∀ (j : ℕ) (nj : Node K) (ej : ℕ) (pj : Vec2 K),
      Reach t2 (t.nodes.length + q2) j → t2.nodes[j]? = some nj →
      nj.kind = NodeKind.Leaf ej pj → ¬ (pj.sub p).length_squared < 1 / 10000 := by
    intro j nj ej pj hr hnj hkj
    have hj := hsing q2 hq2 j hr
    subst hj
    by_cases hqq : q2 = q1
    · rw [hqq, hn2q1] at hnj
      cases Option.some.inj hnj
      have hkj' : NodeKind.Leaf ee pp = NodeKind.Leaf ej pj := hkj
      have hinj := NodeKind.Leaf.inj hkj'
      rw [← hinj.2]
      exact hfar
    · rw [hn2free q2 hq2 hqq] at hnj
      cases Option.some.inj hnj
      exact absurd hkj (by simp [Node.empty])
  have ihh := ih hwf2 hsz2 hth hsep2 h2
  have huntouched23 : ∀ q : ℕ, q < 4 → q ≠ q2 →
      t3.nodes[t.nodes.length + q]? = t2.nodes[t.nodes.length + q]? := by
    intro q hq hne
    refine (insertRec_frame h2).2.2.2 (t.nodes.length + q) (by omega) ?_
    intro hr
    have := hsing q2 hq2 (t.nodes.length + q) hr
    omega
  have huntouched3T : ∀ k : ℕ, k ≠ i → TT.nodes[k]? = t3.nodes[k]? := by
    intro k hk2
    rw [hTT]
    exact setNode_get_ne _ (Ne.symm hk2)
  have hfaT : ∀ q : ℕ, q < 4 →
      forceAt sq config target position TT (t.nodes.length + q) =
        (if q = q1 then leafTerm sq config target position ee pp n.mass else Vec2.zero).add
          (if q = q2 then leafTerm sq config target position e p m else Vec2.zero) := by
    intro q hq
    by_cases hqq : q = q2
    · subst hqq
      have hcongr : forceAt sq config target position TT (t.nodes.length + q) =
          forceAt sq config target position t3 (t.nodes.length + q) := by
        refine forceAt_congr ?_
        intro k hk2
        have := Reach_le hwf3 hk2
        exact huntouched3T k (by omega)
      rw [hcongr, ihh, hfa2 _ hq, if_pos rfl]
    · have hcongr : forceAt sq config target position TT (t.nodes.length + q) =
          forceAt sq config target position t2 (t.nodes.length + q) := by
        refine forceAt_congr ?_
        intro k hk2
        have hkk := hsing q hq k hk2
        subst hkk
        rw [huntouched3T _ (by omega)]
        exact huntouched23 q hq hqq
      rw [hcongr, hfa2 _ hq, if_neg hqq, add_zero_vec]
  rw [forceAt_internal_no_approx hTTi rfl (by rw [hb3]; exact hszn.1) hth]
  show (((Vec2.zero.add (childForceB sq config target position TT i (some t.nodes.length))).add
      (childForceB sq config target position TT i (some (t.nodes.length + 1)))).add
      (childForceB sq config target position TT i (some (t.nodes.length + 2)))).add
      (childForceB sq config target position TT i (some (t.nodes.length + 3))) =
    (forceAt sq config target position t i).add (leafTerm sq config target position e p m)
  simp only [childForceB]
  simp only [dif_pos (show i < t.nodes.length from hilen),
    dif_pos (show i < t.nodes.length + 1 by omega),
    dif_pos (show i < t.nodes.length + 2 by omega),
    dif_pos (show i < t.nodes.length + 3 by omega)]
  have e0 := hfaT 0 (by omega)
  have e1 := hfaT 1 (by omega)
  have e2 := hfaT 2 (by omega)
  have e3 := hfaT 3 (by omega)
  rw [Nat.add_zero] at e0
  rw [e0, e1, e2, e3, forceAt_at_leaf hn hk]
  interval_cases q1 <;> interval_cases q2 <;> simp [← vec_add_eq, ← vec_zero_eq] <;> abel

theorem force_internal_branch {sq : K → K} {config : SimConfig K} {target : ℕ}
    {position : Vec2 K} {f : ℕ} {t t2 TT : QuadTreeResource K} {i c e : ℕ} {p : Vec2 K}
    {m : K} {n n2 : Node K} {ch : Children}
    (ih : ForceStmt K sq config target position f)
    (hwf : WF t) (hsz : SZ t) (hth : config.theta ≤ 0)
    (hsep : ∀ (j : ℕ) (nj : Node K) (ej : ℕ) (pj : Vec2 K), Reach t i j →
      t.nodes[j]? = some nj → nj.kind = NodeKind.Leaf ej pj →
      ¬ (pj.sub p).length_squared < 1 / 10000)
    (hn : t.nodes[i]? = some n) (hk : n.kind = NodeKind.Internal ch)
    (hc : ch.childAt (n.bounds.get_quadrant_index p) = some c)
    (h1 : QuadTreeResource.insertRec f t c e p m = Except.ok t2)
    (hn2 : t2.nodes[i]? = some n2)
    (hTT : TT = t2.setNode i
      { n2 with mass := n2.mass + m,
                center_of_mass :=
                  ((n2.center_of_mass.scale n2.mass).add
                    (p.scale m)).divScalar (n2.mass + m),
                kind := NodeKind.Internal ch }) :
    forceAt sq config target position TT i =
      (forceAt sq config target position t i).add
        (leafTerm sq config target position e p m) := by
  have hilen : i < t.nodes.length := lt_length_of_get_some hn
  have hcoc : ChildOf t i c := ⟨n, ch, hn, hk, mem_of_childAt hc⟩
  have hic : i < c := ChildOf_lt hwf hcoc
  have hclen : c < t.nodes.length := ChildOf_lt_length hwf hcoc
  have hnot : ¬ Reach t c i := fun hr => absurd (Reach_le hwf hr) (by omega)
  have hti : t2.nodes[i]? = some n := by
    rw [(insertRec_frame h1).2.2.2 i hilen hnot]
    exact hn
  rw [hti] at hn2
  cases Option.some.inj hn2
  have hwf2 : WF t2 := (insertRec_wf hwf h1).1
  have hilen2 : i < t2.nodes.length := lt_of_lt_of_le hilen (insertRec_frame h1).2.1
  have hszn := hsz i n hn
  have hTTi : TT.nodes[i]? = some
      { n with mass := n.mass + m,
               center_of_mass :=
                 ((n.center_of_mass.scale n.mass).add (p.scale m)).divScalar (n.mass + m),
               kind := NodeKind.Internal ch } := by
    rw [hTT]
    exact setNode_get_self _ hilen2
  have hsep1 : ∀ (j : ℕ) (nj : Node K) (ej : ℕ) (pj : Vec2 K), Reach t c j →
      t.nodes[j]? = some nj → nj.kind = NodeKind.Leaf ej pj →
      ¬ (pj.sub p).length_squared < 1 / 10000 :=
    fun j nj ej pj hr => hsep j nj ej pj (Reach.step hcoc hr)
  have ihh := ih hwf hsz hth hsep1 h1
  have hsib : ∀ cq : ℕ, ChildOf t i cq → cq ≠ c →
      ∀ k : ℕ, Reach t cq k → TT.nodes[k]? = t.nodes[k]? := by
    intro cq hcoq hne k hk2
    have hk1 := Reach_le hwf hk2
    have hk3 := ChildOf_lt hwf hcoq
    have hklen := Reach_lt_length hwf hk2 (ChildOf_lt_length hwf hcoq)
    have hnr : ¬ Reach t c k := by
      intro hck
      rcases Reach_comparable hwf hck hk2 with hx | hx
      · exact sibling_not_reach hwf hcoc hcoq (Ne.symm hne) hx
      · exact sibling_not_reach hwf hcoq hcoc hne hx
    rw [hTT, setNode_get_ne _ (by omega)]
    exact (insertRec_frame h1).2.2.2 k hklen hnr
  have hchld : ∀ k : ℕ, Reach t2 c k → TT.nodes[k]? = t2.nodes[k]? := by
    intro k hk2
    have := Reach_le hwf2 hk2
    rw [hTT]
    exact setNode_get_ne _ (by omega)
  obtain ⟨qs, hqs4, hqse⟩ : ∃ qs : ℕ, qs < 4 ∧ ch.childAt qs = some c :=
    ⟨n.bounds.get_quadrant_index p, get_quadrant_index_lt_four _ _, hc⟩
  have hone : ∀ q : ℕ, q < 4 → ∀ cq : ℕ, ch.childAt q = some cq →
      forceAt sq config target position TT cq =
        (forceAt sq config target position t cq).add
          (if q = qs then leafTerm sq config target position e p m else Vec2.zero) := by
    intro q hq cq hcq
    by_cases hqq : q = qs
    · subst hqq
      rw [hqse] at hcq
      cases Option.some.inj hcq
      rw [forceAt_congr hchld, ihh, if_pos rfl]
    · have hcqc : cq ≠ c := by
        intro he
        exact hqq (hwf.uniq i q i qs cq ⟨n, ch, hn, hk, hcq⟩
          ⟨n, ch, hn, hk, he ▸ hqse⟩).2
      have hcoq : ChildOf t i cq := ⟨n, ch, hn, hk, mem_of_childAt hcq⟩
      rw [forceAt_congr (hsib cq hcoq hcqc), if_neg hqq, add_zero_vec]
  obtain ⟨c0, hc0, hic0, -, -⟩ := hwf.child_complete i n ch hn hk 0 (by omega)
  obtain ⟨c1, hc1, hic1, -, -⟩ := hwf.child_complete i n ch hn hk 1 (by omega)
  obtain ⟨c2, hc2, hic2, -, -⟩ := hwf.child_complete i n ch hn hk 2 (by omega)
  obtain ⟨c3, hc3, hic3, -, -⟩ := hwf.child_complete i n ch hn hk 3 (by omega)
  have hf0 : ch.c0 = some c0 := hc0
  have hf1 : ch.c1 = some c1 := hc1
  have hf2 : ch.c2 = some c2 := hc2
  have hf3 : ch.c3 = some c3 := hc3
  rw [forceAt_internal_no_approx hTTi rfl hszn.1 hth,
    forceAt_internal_no_approx hn hk hszn.1 hth]
  rw [hf0, hf1, hf2, hf3]
  simp only [childForceB]
  simp only [dif_pos hic0, dif_pos hic1, dif_pos hic2, dif_pos hic3]
  rw [hone 0 (by omega) c0 hc0, hone 1 (by omega) c1 hc1,
    hone 2 (by omega) c2 hc2, hone 3 (by omega) c3 hc3]
  interval_cases qs <;> simp [← vec_add_eq, ← vec_zero_eq] <;> abel

theorem force_insertRec (sq : K → K) (config : SimConfig K) (target : ℕ)
    (position : Vec2 K) : ∀ fuel : ℕ, ForceStmt K sq config target position fuel := by
  intro fuel
  induction fuel with
  | zero =>
    intro t t' i e p m hwf hsz hth hsep h
    rw [insertRec_zero] at h
    exact Except.noConfusion h
  | succ f ih =>
    intro t t' i e p m hwf hsz hth hsep h
    obtain ⟨f0, n, hf, hn, hcases⟩ := insertRec_ok_inv h
    have hff : f0 = f := by omega
    subst hff
    have hilen := lt_length_of_get_some hn
    rcases hcases with ⟨hk, ht'⟩ | ⟨ee, pp, hk, hclose, ht'⟩ |
      ⟨ee, pp, t2, t3, n3, hk, hfar, h1, h2, hn3, ht'⟩ |
      ⟨ch, hk, ⟨c, t2, n2, hc, h1, hn2, ht'⟩ | ⟨hc, ht'⟩⟩
    · subst ht'
      have hn'i : (t.setNode i
          { n with kind := NodeKind.Leaf e p, mass := m, center_of_mass := p }).nodes[i]? =
          some { n with kind := NodeKind.Leaf e p, mass := m, center_of_mass := p } :=
        setNode_get_self _ hilen
      rw [forceAt_at_leaf hn'i rfl, forceAt_at_empty hn hk, zero_add_vec]
    · exact absurd hclose (hsep i n ee pp (Reach.refl i) hn hk)
    · exact force_split_branch ih hwf hsz hth hn hk hfar (get_quadrant_index_lt_four _ _)
        (get_quadrant_index_lt_four _ _) h1 h2 hn3 ht'
    · exact force_internal_branch ih hwf hsz hth hsep hn hk hc h1 hn2 ht'
    · obtain ⟨c2, hc2, -, -, -⟩ := hwf.child_complete i n ch hn hk
        (n.bounds.get_quadrant_index p) (get_quadrant_index_lt_four _ _)
      rw [hc] at hc2
      exact Option.noConfusion hc2

theorem SZ_reset {bounds : Rect K} (hbx : 0 ≤ bounds.size.x) (hby : 0 ≤ bounds.size.y)
    (t0 : QuadTreeResource K) : SZ (t0.reset bounds) := by
  intro i n hn
  cases i with
  | zero =>
    simp only [QuadTreeResource.reset, List.getElem?_cons_zero, Option.some.injEq] at hn
    subst hn
    exact ⟨hbx, hby⟩
  | succ i2 => simp [QuadTreeResource.reset] at hn

theorem directForceSum_nil (sq : K → K) (config : SimConfig K) (target : ℕ)
    (position : Vec2 K) : directForceSum sq config target position [] = Vec2.zero := rfl

theorem directForceSum_cons (sq : K → K) (config : SimConfig K) (target : ℕ)
    (position : Vec2 K) (b : Body K) (rest : List (Body K)) :
    directForceSum sq config target position (b :: rest) =
      (leafTerm sq config target position b.entity b.pos b.mass).add
        (directForceSum sq config target position rest) := by
  simp only [directForceSum, leafTerm, List.map_cons, List.sum_cons]
  rw [vec_add_eq]

theorem insert_len_mono {fuel e : ℕ} {p : Vec2 K} {m : K} {t t' : QuadTreeResource K}
    (h : t.insert fuel e p m = Except.ok t') : t.nodes.length ≤ t'.nodes.length := by
  rcases insert_ok_inv h with ⟨-, rfl⟩ | ⟨r, -, hrec⟩
  · exact le_refl _
  · exact (insertRec_frame hrec).2.1

theorem insertAll_len_mono {fuel : ℕ} {L : List (Body K)} :
    ∀ {t t' : QuadTreeResource K}, insertAll fuel t L = Except.ok t' →
      t.nodes.length ≤ t'.nodes.length := by
  induction L with
  | nil =>
    intro t t' h
    simp only [insertAll] at h
    cases Except.ok.inj h
    exact le_refl _
  | cons b rest ihL =>
    intro t t' h
    simp only [insertAll] at h
    cases hins : t.insert fuel b.entity b.pos b.mass with
    | error e =>
      simp only [hins] at h
      exact Except.noConfusion h
    | ok t2 =>
      simp only [hins] at h
      exact le_trans (insert_len_mono hins) (ihL h)

theorem insertAll_force (sq : K → K) {config : SimConfig K} (target : ℕ)
    (position : Vec2 K) (hth : config.theta ≤ 0) {fuel : ℕ} {L : List (Body K)} :
    ∀ {t t' : QuadTreeResource K} {Acc : List (Body K)},
      t.root = some 0 → WF t → SZ t →
      LeafPosIn t (fun q => ∃ b ∈ Acc, b.pos = q) →
      List.Pairwise (fun a b : Body K =>
        1 / 10000 ≤ ((a.pos).sub (b.pos)).length_squared) (Acc ++ L) →
      insertAll fuel t L = Except.ok t' →
      t'.root = some 0 ∧ WF t' ∧ SZ t' ∧
        LeafPosIn t' (fun q => ∃ b ∈ Acc ++ L, b.pos = q) ∧
        forceAt sq config target position t' 0 =
          (forceAt sq config target position t 0).add
            (directForceSum sq config target position L) := by
  induction L with
  | nil =>
    intro t t' Acc hroot hwf hsz hlp hp h
    simp only [insertAll] at h
    cases Except.ok.inj h
    refine ⟨hroot, hwf, hsz, by simpa using hlp, ?_⟩
    rw [directForceSum_nil, add_zero_vec]
  | cons b rest ihL =>
    intro t t' Acc hroot hwf hsz hlp hp h
    simp only [insertAll] at h
    cases hins : t.insert fuel b.entity b.pos b.mass with
    | error e =>
      simp only [hins] at h
      exact Except.noConfusion h
    | ok t2 =>
      simp only [hins] at h
      rcases insert_ok_inv hins with ⟨hnone, -⟩ | ⟨r, hr, hrec⟩
      · rw [hroot] at hnone
        exact Option.noConfusion hnone
      · rw [hroot] at hr
        cases Option.some.inj hr
        obtain ⟨hpA, hpR, hcross⟩ := List.pairwise_append.mp hp
        have hsep : ∀ (j : ℕ) (nj : Node K) (ej : ℕ) (pj : Vec2 K), Reach t 0 j →
            t.nodes[j]? = some nj → nj.kind = NodeKind.Leaf ej pj →
            ¬ (pj.sub b.pos).length_squared < 1 / 10000 := by
          intro j nj ej pj hrj hnj hkj
          obtain ⟨b1, hb1, hb1p⟩ := hlp j nj ej pj hnj hkj
          subst hb1p
          exact not_lt.mpr (hcross b1 hb1 b (by simp))
        have hincr : forceAt sq config target position t2 0 =
            (forceAt sq config target position t 0).add
              (leafTerm sq config target position b.entity b.pos b.mass) :=
          force_insertRec sq config target position fuel hwf hsz hth hsep hrec
        have hwf2 := (insertRec_wf hwf hrec).1
        have hsz2 : SZ t2 := (insertRec_wf hwf hrec).2.2.2.2.1 hsz
        have hleaves := (insertRec_wf hwf hrec).2.2.2.1
        have hroot2 : t2.root = some 0 := (insertRec_frame hrec).1.trans hroot
        have hlp2 : LeafPosIn t2 (fun q => ∃ b1 ∈ Acc ++ [b], b1.pos = q) := by
          intro j nj ej pj hnj hkj
          rcases hleaves j nj ej pj hnj hkj with ⟨j0, n0, hn0, hk0⟩ | ⟨-, rfl⟩
          · obtain ⟨b1, hb1, hb1p⟩ := hlp j0 n0 ej pj hn0 hk0
            exact ⟨b1, List.mem_append_left _ hb1, hb1p⟩
          · exact ⟨b, List.mem_append_right _ (by simp), rfl⟩
        have hp2 : List.Pairwise (fun a b : Body K =>
            1 / 10000 ≤ ((a.pos).sub (b.pos)).length_squared) ((Acc ++ [b]) ++ rest) := by
          rw [← List.append_cons]
          exact hp
        obtain ⟨hr', hw', hs', hl', hfa'⟩ := ihL hroot2 hwf2 hsz2 hlp2 hp2 h
        refine ⟨hr', hw', hs', ?_, ?_⟩
        · rw [List.append_cons]
          exact hl'
        · rw [hfa', hincr, directForceSum_cons, add_assoc_vec]

/-- C2 (corrected): on a tree built by `reset` on nonnegatively-sized bounds
followed by merge-free insertions, a query with `theta = 0` rejects the
acceptance test at every internal node, and `calculate_force` returns exactly
the direct pairwise sum of the leaf formula over all inserted bodies. -/
theorem C2_theta_zero_direct_sum {fuel : ℕ} {t0 t : QuadTreeResource K} {bounds : Rect K}
    {L : List (Body K)} {sq : K → K} {g dt : K}
    (hbx : 0 ≤ bounds.size.x) (hby : 0 ≤ bounds.size.y)
    (hpair : List.Pairwise (fun a b : Body K =>
      1 / 10000 ≤ ((a.pos).sub (b.pos)).length_squared) L)
    (h : insertAll fuel (t0.reset bounds) L = Except.ok t)
    (target : ℕ) (position : Vec2 K) :
    (∀ (i : ℕ) (n : Node K) (ch : Children), t.nodes[i]? = some n →
      n.kind = NodeKind.Internal ch →
      ¬ n.bounds.size.x /
          max (sq ((n.center_of_mass.sub position).length_squared)) (1 / 10000) <
          (⟨g, 0, dt⟩ : SimConfig K).theta) ∧
    (∀ fuel2 : ℕ, t.nodes.length ≤ fuel2 →
      t.calculate_force sq (fuel2 + 1) target position ⟨g, 0, dt⟩ =
        Except.ok (directForceSum sq ⟨g, 0, dt⟩ target position L)) := by
  have hth : (⟨g, 0, dt⟩ : SimConfig K).theta ≤ 0 := le_refl 0
  have hlp0 : LeafPosIn (t0.reset bounds)
      (fun q => ∃ b ∈ ([] : List (Body K)), b.pos = q) := by
    intro i nn e pq hn hkn
    cases i with
    | zero =>
      simp only [QuadTreeResource.reset, List.getElem?_cons_zero,
        Option.some.injEq] at hn
      subst hn
      simp [Node.empty] at hkn
    | succ i2 => simp [QuadTreeResource.reset] at hn
  have hp0 : List.Pairwise (fun a b : Body K =>
      1 / 10000 ≤ ((a.pos).sub (b.pos)).length_squared) (([] : List (Body K)) ++ L) := by
    simpa using hpair
  obtain ⟨hr', hw', hs', -, hfa'⟩ :=
    insertAll_force sq target position hth rfl (WF_reset t0 bounds)
      (SZ_reset hbx hby t0) hlp0 hp0 h
  constructor
  · intro i n ch hn hk
    exact theta_not_lt (hs' i n hn).1 (dist_pos _ _) hth
  · intro fuel2 hf2
    have hlen0 : (t0.reset bounds).nodes.length = 1 := rfl
    have hmono := insertAll_len_mono h
    have h0 : 0 < t.nodes.length := by omega
    unfold QuadTreeResource.calculate_force
    rw [hr']
    show QuadTreeResource.calcForceRec sq (fuel2 + 1) t 0 target position ⟨g, 0, dt⟩ =
      Except.ok (directForceSum sq ⟨g, 0, dt⟩ target position L)
    rw [calcForceRec_ok hw' h0 (by omega), hfa',
      forceAt_at_empty (rfl : (t0.reset bounds).nodes[0]? = some (Node.empty bounds)) rfl,
      zero_add_vec]

/-- C2 witness: two separated unit masses in the square of side 4; a `theta=0`
query at body 1's position returns the direct pairwise sum. -/
theorem C2_theta_zero_direct_sum_witness :
    ∃ t : QuadTreeResource ℚ,
      insertAll 2 ((⟨[], none⟩ : QuadTreeResource ℚ).reset ⟨⟨0, 0⟩, ⟨4, 4⟩⟩)
        [⟨1, ⟨1, 1⟩, 1⟩, ⟨2, ⟨-1, -1⟩, 1⟩] = Except.ok t ∧
      t.calculate_force id 6 1 ⟨1, 1⟩ ⟨100, 0, 1 / 60⟩ =
        Except.ok
          (directForceSum id ⟨100, 0, 1 / 60⟩ 1 ⟨1, 1⟩
            [⟨1, ⟨1, 1⟩, 1⟩, ⟨2, ⟨-1, -1⟩, 1⟩]) := by
  have he : insertAll 2 ((⟨[], none⟩ : QuadTreeResource ℚ).reset ⟨⟨0, 0⟩, ⟨4, 4⟩⟩)
      [⟨1, ⟨1, 1⟩, 1⟩, ⟨2, ⟨-1, -1⟩, 1⟩] =
      Except.ok ⟨[
        { bounds := ⟨⟨0, 0⟩, ⟨4, 4⟩⟩, center_of_mass := ⟨0, 0⟩, mass := 2,
          kind := NodeKind.Internal ⟨some 1, some 2, some 3, some 4⟩ },
        { bounds := ⟨⟨-1, 1⟩, ⟨2, 2⟩⟩, center_of_mass := ⟨0, 0⟩, mass := 0,
          kind := NodeKind.Empty },
        { bounds := ⟨⟨1, 1⟩, ⟨2, 2⟩⟩, center_of_mass := ⟨1, 1⟩, mass := 1,
          kind := NodeKind.Leaf 1 ⟨1, 1⟩ },
        { bounds := ⟨⟨-1, -1⟩, ⟨2, 2⟩⟩, center_of_mass := ⟨-1, -1⟩, mass := 1,
          kind := NodeKind.Leaf 2 ⟨-1, -1⟩ },
        { bounds := ⟨⟨1, -1⟩, ⟨2, 2⟩⟩, center_of_mass := ⟨0, 0⟩, mass := 0,
          kind := NodeKind.Empty }], some 0⟩ := by
    norm_num [insertAll, QuadTreeResource.insert, QuadTreeResource.insertRec,
      QuadTreeResource.reset, QuadTreeResource.setNode, QuadTreeResource.subdivide,
      Node.empty, Rect.sub_quadrant, Rect.get_quadrant_index, Children.childAt,
      Vec2.zero, Vec2.sub, Vec2.length_squared, Vec2.scale, Vec2.add, Vec2.divScalar]
  have hpair : List.Pairwise (fun a b : Body ℚ =>
      1 / 10000 ≤ ((a.pos).sub (b.pos)).length_squared)
      [⟨1, ⟨1, 1⟩, 1⟩, ⟨2, ⟨-1, -1⟩, 1⟩] := by
    norm_num [List.pairwise_cons, Vec2.sub, Vec2.length_squared]
  refine ⟨_, he, ?_⟩
  refine (C2_theta_zero_direct_sum (by norm_num) (by norm_num) hpair he 1 ⟨1, 1⟩).2 5 ?_
  norm_num

/-- C2 counterexample: with bounds of negative size (side `-4`), the internal
root node's `width/dist` is negative, so even `theta = 0` accepts the
internal-node approximation, and the returned force differs from the direct
pairwise sum; the nonnegative-size hypothesis of the amended statement is
essential. -/
theorem C2_counterexample :
    ∃ t : QuadTreeResource ℚ,
      insertAll 2 ((⟨[], none⟩ : QuadTreeResource ℚ).reset ⟨⟨0, 0⟩, ⟨-4, -4⟩⟩)
        [⟨1, ⟨1, 1⟩, 1⟩, ⟨2, ⟨-1, -1⟩, 1⟩] = Except.ok t ∧
      List.Pairwise (fun a b : Body ℚ =>
        1 / 10000 ≤ ((a.pos).sub (b.pos)).length_squared)
        [⟨1, ⟨1, 1⟩, 1⟩, ⟨2, ⟨-1, -1⟩, 1⟩] ∧
      t.calculate_force id 6 1 ⟨1, 1⟩ ⟨100, 0, 1 / 60⟩ =
        Except.ok ⟨-100 / 29, -100 / 29⟩ ∧
      directForceSum (id : ℚ → ℚ) ⟨100, 0, 1 / 60⟩ 1 ⟨1, 1⟩
          [⟨1, ⟨1, 1⟩, 1⟩, ⟨2, ⟨-1, -1⟩, 1⟩] =
        ⟨-200 / 1089, -200 / 1089⟩ ∧
      (⟨-100 / 29, -100 / 29⟩ : Vec2 ℚ) ≠ ⟨-200 / 1089, -200 / 1089⟩ := by
  have he : insertAll 2 ((⟨[], none⟩ : QuadTreeResource ℚ).reset ⟨⟨0, 0⟩, ⟨-4, -4⟩⟩)
      [⟨1, ⟨1, 1⟩, 1⟩, ⟨2, ⟨-1, -1⟩, 1⟩] =
      Except.ok ⟨[
        { bounds := ⟨⟨0, 0⟩, ⟨-4, -4⟩⟩, center_of_mass := ⟨0, 0⟩, mass := 2,
          kind := NodeKind.Internal ⟨some 1, some 2, some 3, some 4⟩ },
        { bounds := ⟨⟨1, -1⟩, ⟨-2, -2⟩⟩, center_of_mass := ⟨0, 0⟩, mass := 0,
          kind := NodeKind.Empty },
        { bounds := ⟨⟨-1, -1⟩, ⟨-2, -2⟩⟩, center_of_mass := ⟨1, 1⟩, mass := 1,
          kind := NodeKind.Leaf 1 ⟨1, 1⟩ },
        { bounds := ⟨⟨1, 1⟩, ⟨-2, -2⟩⟩, center_of_mass := ⟨-1, -1⟩, mass := 1,
          kind := NodeKind.Leaf 2 ⟨-1, -1⟩ },
        { bounds := ⟨⟨-1, 1⟩, ⟨-2, -2⟩⟩, center_of_mass := ⟨0, 0⟩, mass := 0,
          kind := NodeKind.Empty }], some 0⟩ := by
    norm_num [insertAll, QuadTreeResource.insert, QuadTreeResource.insertRec,
      QuadTreeResource.reset, QuadTreeResource.setNode, QuadTreeResource.subdivide,
      Node.empty, Rect.sub_quadrant, Rect.get_quadrant_index, Children.childAt,
      Vec2.zero, Vec2.sub, Vec2.length_squared, Vec2.scale, Vec2.add, Vec2.divScalar]
  refine ⟨_, he, ?_, ?_, ?_, ?_⟩
  · norm_num [List.pairwise_cons, Vec2.sub, Vec2.length_squared]
  · norm_num [QuadTreeResource.calculate_force, QuadTreeResource.calcForceRec, SOFTENING,
      Vec2.zero, Vec2.sub, Vec2.length_squared, Vec2.scale, Vec2.add, Vec2.divScalar]
  · norm_num [directForceSum, SOFTENING, Vec2.zero, Vec2.sub, Vec2.length_squared,
      Vec2.scale, Vec2.add, Vec2.divScalar, vec_add_eq, vec_zero_eq]
  · simp only [ne_eq, Vec2.mk.injEq, not_and]
    intro hx
    norm_num at hx

/-- Shared evaluation for the C6 scenario: the exact tree and the exact
accelerations the code computes for A (entity 1, origin, mass 1) and B
(entity 2, `(3,0)`, mass 2) with `G = 100`, `theta = 1/2`, `softening = 5`. -/
theorem two_body_scenario_eval :
    ∃ t : QuadTreeResource ℝ,
      insertAll 2 ((⟨[], none⟩ : QuadTreeResource ℝ).reset ⟨⟨0, 0⟩, ⟨10, 10⟩⟩)
        [⟨1, ⟨0, 0⟩, 1⟩, ⟨2, ⟨3, 0⟩, 2⟩] = Except.ok t ∧
      calculate_forces Real.sqrt 6 t ⟨100, 1 / 2, 1 / 60⟩
          [⟨1, ⟨0, 0⟩, 1⟩, ⟨2, ⟨3, 0⟩, 2⟩] =
        Except.ok [(1, ⟨600 / (34 * Real.sqrt 34), 0⟩),
          (2, ⟨-150 / (34 * Real.sqrt 34), 0⟩)] := by
  have hs4 : Real.sqrt 4 = 2 := by
    rw [show (4 : ℝ) = 2 ^ 2 by norm_num, Real.sqrt_sq (by norm_num)]
  have hs1 : Real.sqrt 1 = 1 := Real.sqrt_one
  have hne : Real.sqrt 34 ≠ 0 := ne_of_gt (Real.sqrt_pos.mpr (by norm_num))
  have he : insertAll 2 ((⟨[], none⟩ : QuadTreeResource ℝ).reset ⟨⟨0, 0⟩, ⟨10, 10⟩⟩)
      [⟨1, ⟨0, 0⟩, 1⟩, ⟨2, ⟨3, 0⟩, 2⟩] =
      Except.ok ⟨[
        { bounds := ⟨⟨0, 0⟩, ⟨10, 10⟩⟩, center_of_mass := ⟨2, 0⟩, mass := 3,
          kind := NodeKind.Internal ⟨some 1, some 2, some 3, some 4⟩ },
        { bounds := ⟨⟨-5 / 2, 5 / 2⟩, ⟨5, 5⟩⟩, center_of_mass := ⟨0, 0⟩, mass := 0,
          kind := NodeKind.Empty },
        { bounds := ⟨⟨5 / 2, 5 / 2⟩, ⟨5, 5⟩⟩, center_of_mass := ⟨0, 0⟩, mass := 0,
          kind := NodeKind.Empty },
        { bounds := ⟨⟨-5 / 2, -5 / 2⟩, ⟨5, 5⟩⟩, center_of_mass := ⟨0, 0⟩, mass := 1,
          kind := NodeKind.Leaf 1 ⟨0, 0⟩ },
        { bounds := ⟨⟨5 / 2, -5 / 2⟩, ⟨5, 5⟩⟩, center_of_mass := ⟨3, 0⟩, mass := 2,
          kind := NodeKind.Leaf 2 ⟨3, 0⟩ }], some 0⟩ := by
    norm_num [insertAll, QuadTreeResource.insert, QuadTreeResource.insertRec,
      QuadTreeResource.reset, QuadTreeResource.setNode, QuadTreeResource.subdivide,
      Node.empty, Rect.sub_quadrant, Rect.get_quadrant_index, Children.childAt,
      Vec2.zero, Vec2.sub, Vec2.length_squared, Vec2.scale, Vec2.add, Vec2.divScalar]
  refine ⟨_, he, ?_⟩
  norm_num [calculate_forces, QuadTreeResource.calculate_force,
    QuadTreeResource.calcForceRec, SOFTENING, Children.childAt,
    Vec2.zero, Vec2.sub, Vec2.length_squared, Vec2.scale, Vec2.add, Vec2.divScalar,
    hs4, hs1]
  constructor
  · field_simp
    ring
  · field_simp
    ring

/-- C6 (corrected): in the two-body scenario (A at the origin with mass 1, B
at `(3,0)` with mass 2, `G = 100`, `softening = 5`), the force-then-divide
step produces acceleration `(600/(34*sqrt 34), 0) ≈ (3.027, 0)` on A and
x-acceleration `-150/(34*sqrt 34) ≈ -0.757` on B: the leaf formula multiplies
`G*m/(|delta|^2+soft^2)` by `delta/sqrt(|delta|^2+soft^2)`, a vector of
length `3/sqrt 34`, not a unit vector. -/
theorem C6_two_body_accelerations :
    ∃ t : QuadTreeResource ℝ,
      insertAll 2 ((⟨[], none⟩ : QuadTreeResource ℝ).reset ⟨⟨0, 0⟩, ⟨10, 10⟩⟩)
        [⟨1, ⟨0, 0⟩, 1⟩, ⟨2, ⟨3, 0⟩, 2⟩] = Except.ok t ∧
      calculate_forces Real.sqrt 6 t ⟨100, 1 / 2, 1 / 60⟩
          [⟨1, ⟨0, 0⟩, 1⟩, ⟨2, ⟨3, 0⟩, 2⟩] =
        Except.ok [(1, ⟨600 / (34 * Real.sqrt 34), 0⟩),
          (2, ⟨-150 / (34 * Real.sqrt 34), 0⟩)] := by
  obtain ⟨t, h1, h2⟩ := two_body_scenario_eval
  exact ⟨t, h1, h2⟩

/-- C6 counterexample: the accelerations the spec claims for the two-body
scenario (`100*2/(9+25) ≈ 5.882` on A and `-(100*1/34)/2 ≈ -1.4706` on B) are
not the values the code computes: the code's `delta/dist` factor has length
`3/sqrt 34 < 1`, so A's x-acceleration `600/(34*sqrt 34) < 4 < 200/34` and
B's x-acceleration `-150/(34*sqrt 34) > -1 > -50/34`. -/
theorem C6_counterexample :
    ∃ t : QuadTreeResource ℝ,
      insertAll 2 ((⟨[], none⟩ : QuadTreeResource ℝ).reset ⟨⟨0, 0⟩, ⟨10, 10⟩⟩)
        [⟨1, ⟨0, 0⟩, 1⟩, ⟨2, ⟨3, 0⟩, 2⟩] = Except.ok t ∧
      calculate_forces Real.sqrt 6 t ⟨100, 1 / 2, 1 / 60⟩
          [⟨1, ⟨0, 0⟩, 1⟩, ⟨2, ⟨3, 0⟩, 2⟩] =
        Except.ok [(1, ⟨600 / (34 * Real.sqrt 34), 0⟩),
          (2, ⟨-150 / (34 * Real.sqrt 34), 0⟩)] ∧
      600 / (34 * Real.sqrt 34) ≠ 100 * 2 / (9 + 25) ∧
      -150 / (34 * Real.sqrt 34) ≠ -(100 * 1 / 34) / 2 := by
  obtain ⟨t, h1, h2⟩ := two_body_scenario_eval
  have h5 : (5 : ℝ) < Real.sqrt 34 := by
    have h25 : (5 : ℝ) = Real.sqrt 25 := by
      rw [show (25 : ℝ) = 5 ^ 2 by norm_num, Real.sqrt_sq (by norm_num)]
    rw [h25]
    exact Real.sqrt_lt_sqrt (by norm_num) (by norm_num)
  have hpos : (0 : ℝ) < Real.sqrt 34 := lt_trans (by norm_num) h5
  have hA : 600 / (34 * Real.sqrt 34) < 600 / (34 * 5) := by
    gcongr
  have hB : 150 / (34 * Real.sqrt 34) < 150 / (34 * 5) := by
    gcongr
  refine ⟨t, h1, h2, ?_, ?_⟩
  · refine ne_of_lt (lt_trans hA ?_)
    norm_num
  · have hBneg : -(150 / (34 * 5) : ℝ) < -(150 / (34 * Real.sqrt 34)) := neg_lt_neg hB
    refine ne_of_gt ?_
    have he1 : -150 / (34 * Real.sqrt 34) = -(150 / (34 * Real.sqrt 34)) := by
      rw [neg_div]
    rw [he1]
    refine lt_trans ?_ hBneg
    norm_num

theorem two_points_lsq {r : Rect K} {a b : Vec2 K} (ha : r.containsPt a)
    (hb : r.containsPt b) :
    (a.sub b).length_squared ≤ r.size.x * r.size.x + r.size.y * r.size.y := by
  obtain ⟨ha1, ha2, ha3, ha4⟩ := ha
  obtain ⟨hb1, hb2, hb3, hb4⟩ := hb
  have hx : (a.x - b.x) * (a.x - b.x) ≤ r.size.x * r.size.x := by
    have h1 : |a.x - b.x| ≤ r.size.x := abs_le.mpr ⟨by linarith, by linarith⟩
    calc (a.x - b.x) * (a.x - b.x) = |a.x - b.x| * |a.x - b.x| :=
          (abs_mul_abs_self _).symm
      _ ≤ r.size.x * r.size.x := mul_self_le_mul_self (abs_nonneg _) h1
  have hy : (a.y - b.y) * (a.y - b.y) ≤ r.size.y * r.size.y := by
    have h1 : |a.y - b.y| ≤ r.size.y := abs_le.mpr ⟨by linarith, by linarith⟩
    calc (a.y - b.y) * (a.y - b.y) = |a.y - b.y| * |a.y - b.y| :=
          (abs_mul_abs_self _).symm
      _ ≤ r.size.y * r.size.y := mul_self_le_mul_self (abs_nonneg _) h1
  show (a.x - b.x) * (a.x - b.x) + (a.y - b.y) * (a.y - b.y) ≤ _
  linarith

theorem sub_quadrant_diag (r : Rect K) (q : ℕ) :
    (r.sub_quadrant q).size.x * (r.sub_quadrant q).size.x +
      (r.sub_quadrant q).size.y * (r.sub_quadrant q).size.y =
      (r.size.x * r.size.x + r.size.y * r.size.y) / 4 := by
  rw [sub_quadrant_size]
  show r.size.x / 2 * (r.size.x / 2) + r.size.y / 2 * (r.size.y / 2) = _
  ring

theorem insert_term_core {Kb : ℕ}
    (ihK : ∀ Kb2 : ℕ, Kb2 + 1 = Kb → TermStmt K Kb2) : TermStmt K Kb := by
  intro d
  induction d with
  | zero =>
    intro t i n e p m hd hwf hlc hn hcont hS
    exfalso
    have := lt_length_of_get_some hn
    omega
  | succ d ihd =>
    intro t i n e p m hd hwf hlc hn hcont hS
    have hilen := lt_length_of_get_some hn
    cases hk : n.kind with
    | Empty =>
      exact ⟨0 + 1, _, insertRec_empty_step hn hk 0 e p m⟩
    | Leaf ee pp =>
      by_cases hclose : (pp.sub p).length_squared < 1 / 10000
      · exact ⟨0 + 1, _, insertRec_merge_step hn hk hclose 0 e m⟩
      · have hppIn : n.bounds.containsPt pp := hlc i n ee pp hn hk
        have hfar2 : (1 : K) / 10000 ≤ (pp.sub p).length_squared := not_lt.mp hclose
        have hlsq : (pp.sub p).length_squared ≤
            n.bounds.size.x * n.bounds.size.x + n.bounds.size.y * n.bounds.size.y :=
          two_points_lsq hppIn hcont
        cases Kb with
        | zero =>
          exfalso
          rw [pow_zero, mul_one] at hS
          linarith
        | succ Kb2 =>
          have hT : TermStmt K Kb2 := ihK Kb2 rfl
          have hq1 : n.bounds.get_quadrant_index pp < 4 := get_quadrant_index_lt_four _ _
          have hq2 : n.bounds.get_quadrant_index p < 4 := get_quadrant_index_lt_four _ _
          have hfresh1 : (subdivided t n.bounds).nodes[t.nodes.length +
              n.bounds.get_quadrant_index pp]? =
              some (Node.empty (n.bounds.sub_quadrant (n.bounds.get_quadrant_index pp))) :=
            subdivided_get_fresh t n.bounds hq1
          have hwf1 : WF (subdivided t n.bounds) := WF_subdivided hwf n.bounds
          have hlc1 : LeafCell (subdivided t n.bounds) := LeafCell_subdivided hlc n.bounds
          obtain ⟨T2, hT2⟩ : ∃ T2 : QuadTreeResource K,
              QuadTreeResource.insertRec 1 (subdivided t n.bounds)
                (t.nodes.length + n.bounds.get_quadrant_index pp) ee pp n.mass =
                Except.ok T2 :=
            ⟨_, insertRec_empty_step hfresh1 rfl 0 ee pp n.mass⟩
          have hT2eq := insertRec_into_empty hT2 hfresh1 rfl
          have hT2len : T2.nodes.length = t.nodes.length + 4 := by
            rw [hT2eq, setNode_length, subdivided_length]
          have hwf2 : WF T2 := (insertRec_wf hwf1 hT2).1
          have hlc2 : LeafCell T2 :=
            (insertRec_wf hwf1 hT2).2.2.2.2.2 hlc1 (fun n0 hn0 => by
              rw [hfresh1] at hn0
              cases hn0
              exact containsPt_sub_quadrant hppIn)
          by_cases hqq : n.bounds.get_quadrant_index p = n.bounds.get_quadrant_index pp
          · -- both points classify to the same quadrant: the second insertion
            -- recurses into the fresh leaf, with a quarter of the parent's
            -- squared diagonal available
            have hT2at : T2.nodes[t.nodes.length + n.bounds.get_quadrant_index pp]? =
                some { Node.empty (n.bounds.sub_quadrant (n.bounds.get_quadrant_index pp)) with
                         kind := NodeKind.Leaf ee pp, mass := n.mass,
                         center_of_mass := pp } := by
              rw [hT2eq]
              exact setNode_get_self _ (by rw [subdivided_length]; omega)
            have hcontA :
                (n.bounds.sub_quadrant (n.bounds.get_quadrant_index pp)).containsPt p := by
              rw [← hqq]
              exact containsPt_sub_quadrant hcont
            have hbud : (n.bounds.sub_quadrant (n.bounds.get_quadrant_index pp)).size.x *
                  (n.bounds.sub_quadrant (n.bounds.get_quadrant_index pp)).size.x +
                (n.bounds.sub_quadrant (n.bounds.get_quadrant_index pp)).size.y *
                  (n.bounds.sub_quadrant (n.bounds.get_quadrant_index pp)).size.y
                < (1 : K) / 10000 * 4 ^ Kb2 := by
              rw [sub_quadrant_diag]
              rw [pow_succ] at hS
              linarith
            obtain ⟨f2, T3, hc2⟩ := hT T2.nodes.length T2
              (t.nodes.length + n.bounds.get_quadrant_index pp) _ e p m
              (Nat.sub_le _ _) hwf2 hlc2 hT2at hcontA hbud
            have hlen3 : i < T3.nodes.length := by
              have h1 := (insertRec_frame hc2).2.1
              omega
            obtain ⟨n3, hn3⟩ := get_some_of_lt_length hlen3
            have hc1m : QuadTreeResource.insertRec (f2 + 1) (subdivided t n.bounds)
                (t.nodes.length + n.bounds.get_quadrant_index pp) ee pp n.mass =
                Except.ok T2 :=
              insertRec_mono (by omega) hT2
            have hc2m : QuadTreeResource.insertRec (f2 + 1) T2
                (t.nodes.length + n.bounds.get_quadrant_index pp) e p m =
                Except.ok T3 :=
              insertRec_mono (Nat.le_succ f2) hc2
            have hfin : QuadTreeResource.insertRec (f2 + 1 + 1) t i e p m =
                Except.ok (T3.setNode i
                  { n3 with
                      kind := NodeKind.Internal (fourFresh t.nodes.length),
                      mass := n.mass + m,
                      center_of_mass :=
                        ((pp.scale n.mass).add (p.scale m)).divScalar (n.mass + m) }) := by
              rw [insertRec_split_step hn hk hclose (f2 + 1) e m, hqq]
              simp only [hc1m, hc2m, hn3]
            exact ⟨f2 + 1 + 1, _, hfin⟩
          · -- the two points classify to different quadrants: both fresh
            -- children are still empty, so each insertion is a single step
            have hfresh2 : T2.nodes[t.nodes.length + n.bounds.get_quadrant_index p]? =
                some (Node.empty (n.bounds.sub_quadrant (n.bounds.get_quadrant_index p))) := by
              rw [hT2eq]
              rw [setNode_get_ne _ (by omega)]
              exact subdivided_get_fresh t n.bounds hq2
            obtain ⟨T3, hT3⟩ : ∃ T3 : QuadTreeResource K,
                QuadTreeResource.insertRec 1 T2
                  (t.nodes.length + n.bounds.get_quadrant_index p) e p m =
                  Except.ok T3 :=
              ⟨_, insertRec_empty_step hfresh2 rfl 0 e p m⟩
            have hT3eq := insertRec_into_empty hT3 hfresh2 rfl
            have hn3 : T3.nodes[i]? = some n := by
              rw [hT3eq, setNode_get_ne _ (by omega), hT2eq, setNode_get_ne _ (by omega),
                subdivided_get_lt hilen]
              exact hn
            have hfin : QuadTreeResource.insertRec (1 + 1) t i e p m =
                Except.ok (T3.setNode i
                  { n with
                      kind := NodeKind.Internal (fourFresh t.nodes.length),
                      mass := n.mass + m,
                      center_of_mass :=
                        ((pp.scale n.mass).add (p.scale m)).divScalar (n.mass + m) }) := by
              rw [insertRec_split_step hn hk hclose 1 e m]
              simp only [hT2, hT3, hn3]
            exact ⟨1 + 1, _, hfin⟩
    | Internal ch =>
      obtain ⟨c, hcq, hic, hclen, cn, hcn, hcb⟩ := hwf.child_complete i n ch hn hk
        (n.bounds.get_quadrant_index p) (get_quadrant_index_lt_four _ _)
      have hcont2 : cn.bounds.containsPt p := by
        rw [hcb]
        exact containsPt_sub_quadrant hcont
      have hbud : cn.bounds.size.x * cn.bounds.size.x + cn.bounds.size.y * cn.bounds.size.y
          < (1 : K) / 10000 * 4 ^ Kb := by
        rw [hcb, sub_quadrant_diag]
        have h1 : 0 ≤ n.bounds.size.x * n.bounds.size.x := mul_self_nonneg _
        have h2 : 0 ≤ n.bounds.size.y * n.bounds.size.y := mul_self_nonneg _
        linarith
      obtain ⟨fc, T2, hc⟩ := ihd t c cn e p m (by omega) hwf hlc hcn hcont2 hbud
      have hilen2 : i < T2.nodes.length :=
        lt_of_lt_of_le hilen (insertRec_frame hc).2.1
      obtain ⟨n2, hn2⟩ := get_some_of_lt_length hilen2
      have hfin : QuadTreeResource.insertRec (fc + 1) t i e p m =
          Except.ok (T2.setNode i
            { n2 with
                mass := n2.mass + m,
                center_of_mass :=
                  ((n2.center_of_mass.scale n2.mass).add (p.scale m)).divScalar (n2.mass + m),
                kind := NodeKind.Internal ch }) := by
        rw [insertRec_internal_step hn hk fc e p m]
        simp only [hcq, hc, hn2]
      exact ⟨fc + 1, _, hfin⟩

theorem insert_term_aux : ∀ Kb : ℕ, TermStmt K Kb := by
  intro Kb
  induction Kb with
  | zero =>
    exact insert_term_core (fun Kb2 h => absurd h (Nat.succ_ne_zero Kb2))
  | succ Kb2 ih =>
    refine insert_term_core (fun Kb3 h => ?_)
    have heq : Kb3 = Kb2 := by omega
    rw [heq]
    exact ih

theorem LeafCell_reset (t0 : QuadTreeResource K) (bounds : Rect K) :
    LeafCell (t0.reset bounds) := by
  intro i n e p hn hk
  have hlen : i < (t0.reset bounds).nodes.length := lt_length_of_get_some hn
  have h1 : (t0.reset bounds).nodes.length = 1 := rfl
  have hi0 : i = 0 := by omega
  subst hi0
  have h2 : (t0.reset bounds).nodes[0]? = some (Node.empty bounds) := rfl
  rw [h2] at hn
  cases hn
  exact absurd hk (by simp [Node.empty])

theorem insertAll_term [Archimedean K] {bounds : Rect K} :
    ∀ (L : List (Body K)) (t : QuadTreeResource K) (r : ℕ) (n : Node K),
      WF t → LeafCell t → t.root = some r → t.nodes[r]? = some n → n.bounds = bounds →
      (∀ b ∈ L, bounds.containsPt b.pos) →
      ∃ (fuel : ℕ) (t' : QuadTreeResource K), insertAll fuel t L = Except.ok t' := by
  intro L
  induction L with
  | nil =>
    intro t r n _ _ _ _ _ _
    exact ⟨0, t, rfl⟩
  | cons b rest ihL =>
    intro t r n hwf hlc hroot hn hb hcont
    obtain ⟨Kb, hKb⟩ := pow_unbounded_of_one_lt
      ((n.bounds.size.x * n.bounds.size.x + n.bounds.size.y * n.bounds.size.y) * 10000)
      (by norm_num : (1 : K) < 4)
    have hS : n.bounds.size.x * n.bounds.size.x + n.bounds.size.y * n.bounds.size.y
        < (1 : K) / 10000 * 4 ^ Kb := by
      linarith
    obtain ⟨f1, t2, hrec⟩ := insert_term_aux Kb t.nodes.length t r n b.entity b.pos b.mass
      (Nat.sub_le _ _) hwf hlc hn
      (by rw [hb]; exact hcont b (List.mem_cons_self b rest)) hS
    have hins : t.insert f1 b.entity b.pos b.mass = Except.ok t2 := by
      unfold QuadTreeResource.insert
      rw [hroot]
      exact hrec
    have hwf2 : WF t2 := (insertRec_wf hwf hrec).1
    have hlc2 : LeafCell t2 :=
      (insertRec_wf hwf hrec).2.2.2.2.2 hlc (fun n0 hn0 => by
        rw [hn] at hn0
        cases hn0
        rw [hb]
        exact hcont b (List.mem_cons_self b rest))
    have hroot2 : t2.root = some r := by
      rw [(insertRec_frame hrec).1, hroot]
    have hrlen : r < t2.nodes.length :=
      lt_of_lt_of_le (lt_length_of_get_some hn) (insertRec_frame hrec).2.1
    obtain ⟨n2, hn2⟩ := get_some_of_lt_length hrlen
    have hb2 : n2.bounds = bounds := by
      rw [(insertRec_frame hrec).2.2.1 r n n2 hn hn2]
      exact hb
    obtain ⟨f2, t', hrest⟩ := ihL t2 r n2 hwf2 hlc2 hroot2 hn2 hb2
      (fun b2 hmem => hcont b2 (List.mem_cons_of_mem b hmem))
    refine ⟨max f1 f2, t', ?_⟩
    rw [insertAll]
    rw [insert_mono (le_max_left f1 f2) hins]
    exact insertAll_mono (le_max_right f1 f2) hrest

/-- C9: starting from a tree initialized by `reset`, inserting any finite
sequence of bodies with positive masses and positions inside the root bounds
terminates without error — the fueled model of `insert_recursive` succeeds for
some (hence, by monotonicity, any sufficiently large) fuel, since any two
unmerged bodies in one cell are at squared distance at least 1e-4, which
bounds the subdivision depth; and calling `insert` when `root` is `None`
returns the index entirely unchanged. -/
theorem C9_insert_terminates_and_rootless_noop [Archimedean K] :
    (∀ (t0 : QuadTreeResource K) (bounds : Rect K) (L : List (Body K)),
      (∀ b ∈ L, 0 < b.mass) →
      (∀ b ∈ L, bounds.containsPt b.pos) →
      ∃ (fuel : ℕ) (t : QuadTreeResource K),
        insertAll fuel (t0.reset bounds) L = Except.ok t) ∧
    (∀ (t : QuadTreeResource K) (fuel e : ℕ) (p : Vec2 K) (m : K),
      t.root = none → t.insert fuel e p m = Except.ok t) := by
  constructor
  · intro t0 bounds L _ hcont
    exact insertAll_term L (t0.reset bounds) 0 (Node.empty bounds)
      (WF_reset t0 bounds) (LeafCell_reset t0 bounds) rfl rfl rfl hcont
  · intro t fuel e p m hroot
    unfold QuadTreeResource.insert
    rw [hroot]

theorem C9_insert_terminates_and_rootless_noop_witness :
    (∃ (fuel : ℕ) (t : QuadTreeResource ℚ),
      insertAll fuel (QuadTreeResource.reset ⟨[], none⟩ ⟨⟨0, 0⟩, ⟨20, 20⟩⟩)
        [⟨1, ⟨1, 2⟩, 3⟩, ⟨2, ⟨-5, 4⟩, 1⟩, ⟨3, ⟨1, 2 + 1 / 1000⟩, 2⟩] = Except.ok t) ∧
    QuadTreeResource.insert 5 (⟨[], none⟩ : QuadTreeResource ℚ) 7 ⟨1, 1⟩ 2 =
      Except.ok ⟨[], none⟩ :=
  ⟨C9_insert_terminates_and_rootless_noop.1 ⟨[], none⟩ ⟨⟨0, 0⟩, ⟨20, 20⟩⟩
      [⟨1, ⟨1, 2⟩, 3⟩, ⟨2, ⟨-5, 4⟩, 1⟩, ⟨3, ⟨1, 2 + 1 / 1000⟩, 2⟩]
      (by intro b hb; fin_cases hb <;> norm_num)
      (by intro b hb; fin_cases hb <;> norm_num [Rect.containsPt]),
    C9_insert_terminates_and_rootless_noop.2 ⟨[], none⟩ 5 7 ⟨1, 1⟩ 2 rfl⟩

end NBodySim
